import Mathlib

/-! Verification of the conversation pipeline of picoclaw.

A shallow embedding of `pkg/agent/context.go` (history sanitising and message
assembly) and of `pkg/channels/telegram.go` (`splitMessage`), with the
properties of the specification proved over it.

Go strings are immutable byte sequences; they are embedded as lists of
bytes (`GoString`), so that `len`, slicing and comparison mean what they mean
in Go. String literals of the source are written `go "..."`, the UTF-8
encoding of the literal.
-/

set_option autoImplicit false

namespace Picoclaw

/-! ## Go strings -/

/-- A Go string: its bytes, in order. A byte is a natural number below 256;
no definition below depends on that bound. -/
abbrev GoString := List Nat

/-- UTF-8 encoding of one code point (shortest form, as Go encodes runes). -/
def utf8EncodeRune (c : Nat) : List Nat :=
  if c < 0x80 then [c]
  else if c < 0x800 then [0xC0 + c / 64, 0x80 + c % 64]
  else if c < 0x10000 then [0xE0 + c / 4096, 0x80 + c / 64 % 64, 0x80 + c % 64]
  else [0xF0 + c / 262144, 0x80 + c / 4096 % 64, 0x80 + c / 64 % 64, 0x80 + c % 64]

/-- The bytes of a source literal. -/
def go (s : String) : GoString :=
  s.toList.flatMap (fun c => utf8EncodeRune c.toNat)

/-- Go's `strings.HasPrefix`. -/
def HasPrefix (s pfx : GoString) : Bool :=
  pfx.isPrefixOf s

/-- Go's `strings.Join`. -/
def Join (parts : List GoString) (sep : GoString) : GoString :=
  sep.intercalate parts

/-! ## Provider messages (`providers.Message`) -/

/-- Modelled from the spec: the declaration of `providers.ToolCall` is not
part of the sources at hand; a tool invocation is `{id, name, arguments}`. -/
structure ToolCall where
  ID : GoString
  Name : GoString
  Arguments : GoString
deriving DecidableEq

/-- Modelled from the spec: `providers.ImageURL`, `{url, detail}`. -/
structure ImageURL where
  URL : GoString
  Detail : GoString
deriving DecidableEq

/-- Modelled from the spec: `providers.ContentPart`, a multimodal part
`{type:text, text}` or `{type:image_url, image_url:{url, detail}}`; the
image reference is a pointer in the source, so it may be absent. The field
`Typ` is the source's `Type`. -/
structure ContentPart where
  Typ : GoString
  Text : GoString
  ImageURL : Option ImageURL
deriving DecidableEq

/-- Modelled from the spec: `providers.Message`, with the fields that
`context.go` reads and writes. -/
structure Message where
  Role : GoString
  Content : GoString
  Parts : List ContentPart
  ToolCalls : List ToolCall
  ToolCallID : GoString
deriving DecidableEq

/-! ## `sanitizeHistory` -/

/-- A Go `map[string]bool`, as an association list with one entry per key. -/
abbrev BoolMap := List (GoString × Bool)

/-- The assignment `m[k] = v`. -/
def BoolMap.set : BoolMap → GoString → Bool → BoolMap
  | [], k, v => [(k, v)]
  | (k', v') :: rest, k, v =>
    if k' = k then (k, v) :: rest else (k', v') :: BoolMap.set rest k v

/-- The presence test `_, ok := m[k]`. -/
def BoolMap.has (m : BoolMap) (k : GoString) : Bool :=
  m.any (fun p => decide (p.1 = k))

/-- The map `expectedIDs` after the loop over `msg.ToolCalls`: every declared
id is entered with the value `false`. -/
def collectExpected (calls : List ToolCall) : BoolMap :=
  calls.foldl (fun m tc => BoolMap.set m tc.ID false) []

/-- The look-ahead loop `for j < len(history) && history[j].Role == "tool"`.
It is given the messages from index `i+1` on and the map, and returns the
map after the loop, the messages `history[i+1:j]` and the messages
`history[j:]`. -/
def lookAhead : List Message → BoolMap → BoolMap × List Message × List Message
  | [], m => (m, [], [])
  | h :: t, m =>
    if h.Role = go "tool" then
      let m' := if BoolMap.has m h.ToolCallID then BoolMap.set m h.ToolCallID true else m
      let r := lookAhead t m'
      (r.1, h :: r.2.1, r.2.2)
    else (m, [], h :: t)

/-- The loop `for _, found := range expectedIDs`: `allFound`. -/
def allFound (m : BoolMap) : Bool :=
  m.all (fun p => p.2)

/-- The main loop of `sanitizeHistory`. The list argument is `history[i:]`,
the accumulator is `result`; one unit of fuel is spent per iteration, and an
iteration advances `i` by at least one, so `len(history) - i` units are
always enough. -/
def sanitizeLoop : Nat → List Message → List Message → List Message
  | 0, _, result => result
  | _ + 1, [], result => result
  | fuel + 1, msg :: rest, result =>
    if msg.Role = go "tool" then
      sanitizeLoop fuel rest result
    else if msg.Role = go "assistant" ∧ msg.ToolCalls.length > 0 then
      let expectedIDs := collectExpected msg.ToolCalls
      let r := lookAhead rest expectedIDs
      if allFound r.1 then
        sanitizeLoop fuel r.2.2 (result ++ [msg] ++ r.2.1)
      else
        sanitizeLoop fuel r.2.2 result
    else
      sanitizeLoop fuel rest (result ++ [msg])

/-- The function `sanitizeHistory` of `context.go`. -/
def sanitizeHistory (history : List Message) : List Message :=
  if history.length = 0 then history
  else sanitizeLoop history.length history []

/-! ### Messages used in examples -/

/-- A user message with the given content. -/
def mkUser (content : GoString) : Message :=
  { Role := go "user", Content := content, Parts := [], ToolCalls := [], ToolCallID := [] }

/-- An assistant message declaring the given invocation ids. -/
def mkAssistant (ids : List GoString) : Message :=
  { Role := go "assistant", Content := [], Parts := [],
    ToolCalls := ids.map (fun i => { ID := i, Name := go "exec", Arguments := go "ls" }),
    ToolCallID := [] }

/-- A tool message answering the invocation `id`. -/
def mkTool (id : GoString) : Message :=
  { Role := go "tool", Content := go "ok", Parts := [], ToolCalls := [], ToolCallID := id }


/-! ### Vocabulary of the claims about `sanitizeHistory` -/

/-- A tool-role message. -/
def isTool (m : Message) : Bool :=
  decide (m.Role = go "tool")

/-- An assistant message carrying at least one tool invocation. -/
def hasCalls (m : Message) : Bool :=
  decide (m.Role = go "assistant" ∧ m.ToolCalls.length > 0)

/-- Every invocation id declared by `a` is the `ToolCallID` of some message of `run`. -/
def answered (a : Message) (run : List Message) : Prop :=
  ∀ tc ∈ a.ToolCalls, ∃ t ∈ run, t.ToolCallID = tc.ID

/-! ## Prompt and message assembly (`ContextBuilder`) -/

/-- What the methods of `ContextBuilder` observe of their environment:
`identity` is the text returned by `getIdentity()` (it depends on the clock,
the runtime, the workspace path, the model name and the tool registry);
`readFile name` is the outcome of `os.ReadFile(filepath.Join(workspace, name))`,
`none` when it returns an error; `skillsSummary` is what
`skillsLoader.BuildSkillsSummary()` returns and `memoryContext` what
`memory.GetMemoryContext()` returns. -/
structure ContextBuilder where
  identity : GoString
  readFile : GoString → Option GoString
  skillsSummary : GoString
  memoryContext : GoString

/-- The fixed list `bootstrapFiles`. -/
def bootstrapFiles : List GoString :=
  [go "AGENTS.md", go "SOUL.md", go "USER.md", go "IDENTITY.md"]

/-- The method `LoadBootstrapFiles`: `result` grows by
`fmt.Sprintf("## %s\n\n%s\n\n", filename, data)` for every readable file. -/
def LoadBootstrapFiles (cb : ContextBuilder) : GoString :=
  bootstrapFiles.foldl
    (fun result filename =>
      match cb.readFile filename with
      | some data => result ++ (go "## " ++ filename ++ go "\n\n" ++ data ++ go "\n\n")
      | none => result)
    []

/-- The heading and introduction of the skills section. -/
def skillsIntro : GoString :=
  go "# Skills\n\nThe following skills extend your capabilities. To use a skill, read its SKILL.md file using the read_file tool.\n\n"

/-- The separator of `strings.Join(parts, "\n\n---\n\n")`. -/
def sectionSeparator : GoString :=
  go "\n\n---\n\n"

/-- The method `BuildSystemPrompt`. -/
def BuildSystemPrompt (cb : ContextBuilder) : GoString :=
  let parts : List GoString := []
  let parts := parts ++ [cb.identity]
  let bootstrapContent := LoadBootstrapFiles cb
  let parts := if bootstrapContent ≠ [] then parts ++ [bootstrapContent] else parts
  let skillsSummary := cb.skillsSummary
  let parts := if skillsSummary ≠ [] then parts ++ [skillsIntro ++ skillsSummary] else parts
  let memoryContext := cb.memoryContext
  let parts := if memoryContext ≠ [] then parts ++ [go "# Memory\n\n" ++ memoryContext] else parts
  Join parts sectionSeparator

/-- The part `providers.ContentPart{Type: "text", Text: currentMessage}`. -/
def textPart (currentMessage : GoString) : ContentPart :=
  { Typ := go "text", Text := currentMessage, ImageURL := none }

/-- The part `providers.ContentPart{Type: "image_url", ImageURL:
&providers.ImageURL{URL: dataURI, Detail: "auto"}}`. -/
def imagePart (dataURI : GoString) : ContentPart :=
  { Typ := go "image_url", Text := [], ImageURL := some { URL := dataURI, Detail := go "auto" } }

/-- The multimodal parts built by `BuildMessages` when media is present: the
text part, then one `image_url` part appended for each item of `media` that
has the prefix `data:image/`. -/
def buildParts (currentMessage : GoString) (media : List GoString) : List ContentPart :=
  media.foldl
    (fun parts dataURI =>
      if HasPrefix dataURI (go "data:image/") then parts ++ [imagePart dataURI] else parts)
    [textPart currentMessage]

/-- The method `BuildMessages`. The two debug log calls and the `preview`
they print have no effect on the result and are left out. -/
def BuildMessages (cb : ContextBuilder) (history : List Message) (summary : GoString)
    (currentMessage : GoString) (media : List GoString) (channel chatID : GoString) :
    List Message :=
  let messages : List Message := []
  let systemPrompt := BuildSystemPrompt cb
  let systemPrompt :=
    if channel ≠ [] ∧ chatID ≠ [] then
      systemPrompt ++ (go "\n\n## Current Session\nChannel: " ++ channel ++ go "\nChat ID: " ++ chatID)
    else systemPrompt
  let systemPrompt :=
    if summary ≠ [] then
      systemPrompt ++ go "\n\n## Summary of Previous Conversation\n\n" ++ summary
    else systemPrompt
  let history := sanitizeHistory history
  let messages := messages ++ [{ Role := go "system", Content := systemPrompt, Parts := [],
                                 ToolCalls := [], ToolCallID := [] }]
  let messages := messages ++ history
  let userMsg : Message :=
    { Role := go "user", Content := currentMessage, Parts := [], ToolCalls := [],
      ToolCallID := [] }
  let userMsg := if media.length > 0 then
      { userMsg with Parts := buildParts currentMessage media }
    else userMsg
  let messages := messages ++ [userMsg]
  messages

/-! ### Further vocabulary of the claims -/

/-- Every invocation id declared by `a` is the `ToolCallID` of exactly one message of `run`. -/
def answeredOnce (a : Message) (run : List Message) : Prop :=
  ∀ tc ∈ a.ToolCalls, (run.filter (fun t => decide (t.ToolCallID = tc.ID))).length = 1

/-- A message that is neither tool-role nor an assistant message with invocations. -/
def isPlain (m : Message) : Bool :=
  !isTool m && !hasCalls m

/-- The list `l` ends in an open block: an assistant message with
invocations followed by tool-role messages only. -/
def endsInBlock (l : List Message) : Prop :=
  ∃ p a r, l = p ++ a :: r ∧ hasCalls a = true ∧ ∀ m ∈ r, isTool m = true

/-! ## `splitMessage` (`pkg/channels/telegram.go`) -/

/-- The code points for which Go's `unicode.IsSpace` holds: tab, line feed,
vertical tab, form feed, carriage return, space, U+0085, U+00A0 and the other
code points with the Unicode property White_Space. -/
def spaceRunes : List Nat :=
  [0x09, 0x0A, 0x0B, 0x0C, 0x0D, 0x20, 0x85, 0xA0, 0x1680,
   0x2000, 0x2001, 0x2002, 0x2003, 0x2004, 0x2005, 0x2006, 0x2007, 0x2008, 0x2009, 0x200A,
   0x2028, 0x2029, 0x202F, 0x205F, 0x3000]

/-- The UTF-8 encodings of the white-space code points. Go decodes a rune only
from its shortest encoding, so a string starts (ends) with a white-space rune
exactly when it starts (ends) with one of these byte sequences. -/
def spaceEncodings : List GoString :=
  spaceRunes.map utf8EncodeRune

/-- The encoding of the white-space rune that `s` starts with, if any. -/
def leadingSpace (s : GoString) : Option GoString :=
  spaceEncodings.find? (fun e => e.isPrefixOf s)

/-- The encoding of the white-space rune that `s` ends with, if any. -/
def trailingSpace (s : GoString) : Option GoString :=
  spaceEncodings.find? (fun e => e.isSuffixOf s)

/-- Removal of leading white-space runes, one per unit of fuel. -/
def trimLeftAux : Nat → GoString → GoString
  | 0, s => s
  | n + 1, s =>
    match leadingSpace s with
    | some e => trimLeftAux n (s.drop e.length)
    | none => s

/-- Removal of trailing white-space runes, one per unit of fuel. -/
def trimRightAux : Nat → GoString → GoString
  | 0, s => s
  | n + 1, s =>
    match trailingSpace s with
    | some e => trimRightAux n (s.take (s.length - e.length))
    | none => s

/-- Go's `strings.TrimSpace`: all leading and all trailing white space, as
decoded from UTF-8, is removed. A rune takes at least one byte, so
`len(s)` units of fuel cover every removal. -/
def TrimSpace (s : GoString) : GoString :=
  let l := trimLeftAux s.length s
  trimRightAux l.length l

/-- Go's `strings.LastIndex`: the byte index of the last occurrence of
`substr` in `s`, or `-1`. -/
def LastIndex (s substr : GoString) : Int :=
  match (List.range (s.length + 1)).reverse.find? (fun i => substr.isPrefixOf (s.drop i)) with
  | some i => (i : Int)
  | none => -1

/-- The loop of `splitMessage`, one unit of fuel per iteration; `none` when
the fuel runs out before the loop ends. `maxLen` ranges over the
non-negative values of Go's `int`; `splitAt` is an `int` that can be `-1`. -/
def splitLoop : Nat → GoString → Nat → List GoString → Option (List GoString)
  | 0, _, _, _ => none
  | fuel + 1, text, maxLen, chunks =>
    if text.length > 0 then
      if text.length ≤ maxLen then
        some (chunks ++ [text])
      else
        let chunk := text.take maxLen
        let splitAt : Int := LastIndex chunk (go "\n\n")
        let splitAt : Int :=
          if splitAt < ((maxLen / 2 : Nat) : Int) then LastIndex chunk (go "\n") else splitAt
        let splitAt : Int :=
          if splitAt < ((maxLen / 4 : Nat) : Int) then (maxLen : Int) else splitAt
        splitLoop fuel (TrimSpace (text.drop splitAt.toNat)) maxLen
          (chunks ++ [TrimSpace (text.take splitAt.toNat)])
    else some chunks

/-- The function `splitMessage` of `telegram.go`. The result is `none` when
the loop does not end within `len(text) + 1` iterations. -/
def splitMessage (text : GoString) (maxLen : Nat) : Option (List GoString) :=
  if text.length ≤ maxLen then some [text]
  else splitLoop (text.length + 1) text maxLen []

/-! ### Vocabulary of the claims about `splitMessage` -/

/-- Deletion of every white-space rune, scanning from the left with one unit
of fuel per step. Where no white-space rune starts, one byte is kept and the
scan moves on by one byte: the bytes inside a multi-byte rune are
continuation bytes, at which no white-space encoding starts. -/
def deleteSpaceAux : Nat → GoString → GoString
  | 0, _ => []
  | _ + 1, [] => []
  | n + 1, b :: r =>
    match leadingSpace (b :: r) with
    | some e => deleteSpaceAux n ((b :: r).drop e.length)
    | none => b :: deleteSpaceAux n r

/-- The string `s` with all white space deleted. -/
def deleteSpace (s : GoString) : GoString :=
  deleteSpaceAux s.length s

/-- A continuation byte of UTF-8. -/
def isCont (b : Nat) : Bool :=
  decide (0x80 ≤ b ∧ b ≤ 0xBF)

/-- The length of the well-formed UTF-8 sequence at the head of `s`
(Unicode table 3-7, the sequences Go's decoder accepts), `0` if there is none. -/
def runeWidth : GoString → Nat
  | [] => 0
  | b0 :: rest =>
    if b0 < 0x80 then 1
    else if 0xC2 ≤ b0 ∧ b0 ≤ 0xDF then
      match rest with
      | b1 :: _ => if isCont b1 then 2 else 0
      | [] => 0
    else if 0xE0 ≤ b0 ∧ b0 ≤ 0xEF then
      match rest with
      | b1 :: b2 :: _ =>
        if isCont b1 ∧ isCont b2 ∧ (b0 = 0xE0 → 0xA0 ≤ b1) ∧ (b0 = 0xED → b1 ≤ 0x9F) then 3
        else 0
      | _ => 0
    else if 0xF0 ≤ b0 ∧ b0 ≤ 0xF4 then
      match rest with
      | b1 :: b2 :: b3 :: _ =>
        if isCont b1 ∧ isCont b2 ∧ isCont b3 ∧ (b0 = 0xF0 → 0x90 ≤ b1)
            ∧ (b0 = 0xF4 → b1 ≤ 0x8F) then 4
        else 0
      | _ => 0
    else 0

/-- The check of `utf8.ValidString`, one rune per unit of fuel. -/
def validAux : Nat → GoString → Bool
  | _, [] => true
  | 0, _ :: _ => false
  | n + 1, b :: r =>
    decide (runeWidth (b :: r) ≠ 0) && validAux n ((b :: r).drop (runeWidth (b :: r)))

/-- The string `s` is valid UTF-8 (Go's `utf8.ValidString`). -/
def validUTF8 (s : GoString) : Bool :=
  validAux s.length s

/-- A run of white space: a concatenation of encodings of white-space runes. -/
def SpaceRun (g : GoString) : Prop :=
  ∃ es : List GoString, (∀ e ∈ es, e ∈ spaceEncodings) ∧ g = es.flatten

/-- The string `text` is the chunks, in order, with a run of white space
(possibly empty) before each of them and after the last one. -/
def Gapped : List GoString → GoString → Prop
  | [], text => SpaceRun text
  | c :: cs, text => ∃ g rest, SpaceRun g ∧ text = g ++ c ++ rest ∧ Gapped cs rest

/-- The truncated white-space encodings: the non-empty proper beginnings
of the multi-byte sequences in `spaceEncodings`. -/
def spacePartials : List GoString :=
  [[0xC2], [0xE1], [0xE1, 0x9A], [0xE2], [0xE2, 0x80], [0xE2, 0x81], [0xE3], [0xE3, 0x80]]

/-- The string `t` starts with a truncated white-space encoding that is
directly followed by the first byte of a white-space rune. -/
def badAt (t : GoString) : Bool :=
  spacePartials.any (fun p => spaceEncodings.any (fun e => (p ++ e.take 1).isPrefixOf t))

/-- Nowhere in `s` is a truncated white-space encoding directly followed by
white space. Every valid UTF-8 string is of this kind. -/
def NoBroken (s : GoString) : Prop :=
  ∀ i, badAt (s.drop i) = false

/-- What one bootstrap file contributes to the prompt: its content under a
heading with its name if it can be read, nothing otherwise. -/
def bootstrapSection (cb : ContextBuilder) (name : GoString) : GoString :=
  match cb.readFile name with
  | some data => go "## " ++ name ++ go "\n\n" ++ data ++ go "\n\n"
  | none => []

/-- A workspace in which only `SOUL.md` can be read. -/
def soulOnlyBuilder : ContextBuilder :=
  { identity := go "# picoclaw",
    readFile := fun name => if name = go "SOUL.md" then some (go "be kind") else none,
    skillsSummary := [], memoryContext := [] }

/-- The first cut as the claim words it: at the last paragraph break inside the
first `limit` bytes if there is one, otherwise at the last line break inside
them if there is one, otherwise at `limit`. -/
def firstCutStated (text : GoString) (limit : Nat) : Nat :=
  if 0 ≤ LastIndex (text.take limit) (go "\n\n") then
    (LastIndex (text.take limit) (go "\n\n")).toNat
  else if 0 ≤ LastIndex (text.take limit) (go "\n") then
    (LastIndex (text.take limit) (go "\n")).toNat
  else limit

/-- The first cut with the thresholds of the code: at the last paragraph break
inside the first `limit` bytes if its index is at least `limit / 2`, otherwise
at the last line break inside them if its index is at least `limit / 4`,
otherwise at `limit`. -/
def firstCut (text : GoString) (limit : Nat) : Nat :=
  if ((limit / 2 : Nat) : Int) ≤ LastIndex (text.take limit) (go "\n\n") then
    (LastIndex (text.take limit) (go "\n\n")).toNat
  else if ((limit / 4 : Nat) : Int) ≤ LastIndex (text.take limit) (go "\n") then
    (LastIndex (text.take limit) (go "\n")).toNat
  else limit

/-! ## `reconnectPolling` (`pkg/channels/telegram.go`) -/

/-- `time.Second`: a `time.Duration` is an `int64` count of nanoseconds. -/
def Second : Int := 1000000000

/-- `time.Minute`. -/
def Minute : Int := 60 * Second

/-- The value an `int64` takes when an arithmetic result is stored in it
(two's complement wrap-around). -/
def wrapInt64 (x : Int) : Int :=
  (x + 9223372036854775808) % 18446744073709551616 - 9223372036854775808

/-- The initial value `backoff := 2 * time.Second`. -/
def baseBackoff : Int := wrapInt64 (2 * Second)

/-- The bound `maxBackoff := 5 * time.Minute`. -/
def maxBackoff : Int := wrapInt64 (5 * Minute)

/-- The update of `backoff` after a failed reconnect:
`backoff *= 2; if backoff > maxBackoff { backoff = maxBackoff }`. -/
def nextBackoff (backoff : Int) : Int :=
  let backoff := wrapInt64 (backoff * 2)
  if backoff > maxBackoff then maxBackoff else backoff

/-- The loop of `reconnectPolling`, from its `n`-th iteration (counted from
zero) on. `cancelled n` tells whether `ctx.Done()` wins the `select` of
iteration `n` against the timer `time.After(backoff)`, `startFails n` whether
`startPolling` then returns an error. The result is the list of the waits
that were completed, each followed by a reconnect attempt, and whether the
function has returned within the given number of iterations. -/
def reconnectLoop (cancelled startFails : Nat → Bool) :
    Nat → Nat → Int → List Int → List Int × Bool
  | 0, _, _, waits => (waits, false)
  | fuel + 1, n, backoff, waits =>
    if cancelled n then (waits, true)
    else
      let waits := waits ++ [backoff]
      if startFails n then
        reconnectLoop cancelled startFails fuel (n + 1) (nextBackoff backoff) waits
      else (waits, true)

/-- One call of `reconnectPolling`, one reconnect episode, observed for `fuel`
iterations. -/
def reconnectPolling (cancelled startFails : Nat → Bool) (fuel : Nat) : List Int × Bool :=
  reconnectLoop cancelled startFails fuel 0 baseBackoff []

/-- The wait before the `n`-th consecutive reconnect attempt according to the
claim, `n` counted from one: `min(2 * 2^(n-1) s, 300 s)`. -/
def statedWait (n : Nat) : Int :=
  min (2 * 2 ^ (n - 1) * Second) (300 * Second)

/-! ## `Council.Deliberate` (`pkg/council/council.go`) -/

/-- The struct `MemberResponse`. -/
structure MemberResponse where
  Name : GoString
  Response : GoString
deriving DecidableEq

/-- The struct `Member`. Its field `Bot`, the handle of the member's own
Telegram bot, is where `postToGroup` sends; what the bot answers is given to
`postToGroup` as an argument, and the field is left out. -/
structure Member where
  Name : GoString
  Personality : GoString
  Model : GoString
deriving DecidableEq

/-- What `Deliberate` does to the outside, in order: the call
`c.provider.Chat(ctx, msgs, nil, member.Model, nil)` and the call
`c.postToGroup(ctx, member, response)`. The body of `postToGroup` returns
nothing to `Deliberate`; it is embedded as `postToGroup` below, and `groupTrace`
puts what it sends in the place of the call. -/
inductive CouncilEvent where
  | chat (model : GoString) (msgs : List Message)
  | post (member : Member) (content : GoString)
deriving DecidableEq

/-- What `Deliberate` observes of the outside. `deadline k` is the outcome of
the `select` at the start of the iteration of index `k` (from zero):
`some err` when `ctx.Done()` is ready, `err` being `ctx.Err()`. `chat k msgs
model` is the outcome of the provider call made in that iteration: the error,
or the `Content` of the response. -/
structure CouncilWorld where
  deadline : Nat → Option GoString
  chat : Nat → List Message → GoString → Except GoString GoString

/-- The value `Deliberate` returns, together with the trace of its calls. -/
structure DeliberateResult where
  responses : List MemberResponse
  err : Option GoString
  trace : List CouncilEvent

/-- The string `systemPrompt` built for a member. -/
def deliberationPrompt (member : Member) : GoString :=
  member.Personality ++ go "\n\n" ++
    go "INSTRUCCIONES DE DELIBERACIÓN:\n" ++
    go "- Respondé en español argentino, máximo 200 palabras.\n" ++
    go "- Sé directo y conciso. No repitas lo que ya dijeron otros.\n" ++
    go "- Aportá tu perspectiva única según tu rol."

/-- The string `userContent` built from the question and the responses
collected so far. -/
def userContent (question : GoString) (responses : List MemberResponse) : GoString :=
  let userContent := go "PREGUNTA: " ++ question
  if responses.length > 0 then
    let userContent := userContent ++ go "\n\nRESPUESTAS ANTERIORES:"
    responses.foldl
      (fun userContent r => userContent ++ (go "\n\n**" ++ r.Name ++ go "**:\n" ++ r.Response))
      userContent
  else userContent

/-- The slice `msgs` passed to the provider. -/
def memberMessages (member : Member) (question : GoString) (responses : List MemberResponse) :
    List Message :=
  [{ Role := go "system", Content := deliberationPrompt member, Parts := [], ToolCalls := [],
     ToolCallID := [] },
   { Role := go "user", Content := userContent question responses, Parts := [], ToolCalls := [],
     ToolCallID := [] }]

/-- The loop `for _, member := range c.members` of `Deliberate`, from the
member of index `k` on. -/
def deliberateLoop (c : CouncilWorld) (question : GoString) :
    List Member → Nat → List MemberResponse → List CouncilEvent → DeliberateResult
  | [], _, responses, trace => { responses := responses, err := none, trace := trace }
  | member :: rest, k, responses, trace =>
    match c.deadline k with
    | some err => { responses := responses, err := some err, trace := trace }
    | none =>
      let msgs := memberMessages member question responses
      let trace := trace ++ [CouncilEvent.chat member.Model msgs]
      match c.chat k msgs member.Model with
      | Except.error err =>
        deliberateLoop c question rest (k + 1)
          (responses ++ [{ Name := member.Name, Response := go "[Error: " ++ err ++ go "]" }])
          trace
      | Except.ok content =>
        let response := TrimSpace content
        deliberateLoop c question rest (k + 1)
          (responses ++ [{ Name := member.Name, Response := response }])
          (trace ++ [CouncilEvent.post member response])

/-- The method `Deliberate`, for a council with the given members. -/
def Deliberate (c : CouncilWorld) (members : List Member) (question : GoString) :
    DeliberateResult :=
  deliberateLoop c question members 0 [] []

/-! ### Vocabulary of the claims about `Deliberate` -/

/-- The outcome of the provider call for the member `p.2` of index `p.1`, in a
run whose transcript is `responses`: the call is made with the entries of the
`p.1` earlier members. -/
def outcomeOf (c : CouncilWorld) (question : GoString) (responses : List MemberResponse)
    (p : Nat × Member) : Except GoString GoString :=
  c.chat p.1 (memberMessages p.2 question (responses.take p.1)) p.2.Model

/-- The transcript entry of a member: the error placeholder if the provider
call failed, the trimmed content otherwise. -/
def entryOf (member : Member) (outcome : Except GoString GoString) : MemberResponse :=
  match outcome with
  | Except.error err => { Name := member.Name, Response := go "[Error: " ++ err ++ go "]" }
  | Except.ok content => { Name := member.Name, Response := TrimSpace content }

/-- The events of one member's turn: the provider call and, if it succeeded,
the post of the trimmed content. -/
def eventsOf (member : Member) (msgs : List Message) (outcome : Except GoString GoString) :
    List CouncilEvent :=
  CouncilEvent.chat member.Model msgs ::
    (match outcome with
     | Except.error _ => []
     | Except.ok content => [CouncilEvent.post member (TrimSpace content)])

/-- The provider calls of a trace, in order: model and messages. -/
def callsOf (trace : List CouncilEvent) : List (GoString × List Message) :=
  trace.filterMap (fun e =>
    match e with
    | CouncilEvent.chat model msgs => some (model, msgs)
    | CouncilEvent.post _ _ => none)

/-- The posts of a trace, in order: member and content. -/
def postsOf (trace : List CouncilEvent) : List (Member × GoString) :=
  trace.filterMap (fun e =>
    match e with
    | CouncilEvent.chat _ _ => none
    | CouncilEvent.post member content => some (member, content))

/-- Three members, for examples. -/
def threeMembers : List Member :=
  [{ Name := go "Ana", Personality := go "Sos prudente.", Model := go "m1" },
   { Name := go "Beto", Personality := go "Sos audaz.", Model := go "m2" },
   { Name := go "Caro", Personality := go "Sos práctica.", Model := go "m3" }]

/-- A run without deadline in which the call of the second member fails. -/
def secondFails : CouncilWorld :=
  { deadline := fun _ => none,
    chat := fun k _ _ => if k = 1 then Except.error (go "boom") else Except.ok (go " de acuerdo\n") }

/-- A run in which every call succeeds and the deadline is found expired at
the check before the second member. -/
def expiresAfterFirst : CouncilWorld :=
  { deadline := fun k => if k = 1 then some (go "context deadline exceeded") else none,
    chat := fun _ _ _ => Except.ok (go " de acuerdo\n") }

/-- The user message of the claim: the question and, if there are earlier
entries, the heading followed by each of them under its name. -/
def statedUserContent (question : GoString) (earlier : List MemberResponse) : GoString :=
  go "PREGUNTA: " ++ question ++
    (if earlier.length > 0 then
      go "\n\nRESPUESTAS ANTERIORES:" ++
        (earlier.map (fun r => go "\n\n**" ++ r.Name ++ go "**:\n" ++ r.Response)).flatten
    else [])

/-- The post of a member's turn, if its provider call succeeded. -/
def postOf (member : Member) (outcome : Except GoString GoString) :
    Option (Member × GoString) :=
  match outcome with
  | Except.error _ => none
  | Except.ok content => some (member, TrimSpace content)

/-! ## Regular expressions of `telegram.go`

Go's `regexp` returns the leftmost match, and among the matches that start
there the one a backtracking search finds first. The patterns of
`telegram.go` are sequences of repeated single-character classes, capture
groups around them and the multi-line anchors `^` and `$`; they are embedded
as lists of items and matched by a backtracking search with the same
priorities. Matching is on bytes: every byte that a pattern names is ASCII,
so a match never ends inside a multi-byte character that a class has begun. -/

/-- One item of a pattern: a class of bytes repeated between `min` and `max`
times (no upper bound for `none`), greedy or not; the start and the end of a
capture group; `^` and `$` under the flag `m`. -/
inductive RegexItem where
  | rep (cls : Nat → Bool) (min : Nat) (max : Option Nat) (greedy : Bool)
  | openGroup (k : Nat)
  | closeGroup (k : Nat)
  | bol
  | eol

/-- A pattern. -/
abbrev Regex := List RegexItem

/-- The groups during a match: for each group that was opened the input left
at that point, and for each group that was closed the bytes it captured. -/
structure MatchState where
  starts : List (Nat × GoString)
  caps : List (Nat × GoString)

/-- Matching of a repeated class followed by the rest of the pattern `k`.
`more` takes one more byte of the class, `stop` goes on with the rest of the
pattern; a greedy repetition tries `more` first, a lazy one `stop`. -/
def repMatch {R : Type} (cls : Nat → Bool) (greedy : Bool)
    (k : Option Nat → GoString → Option R) :
    Nat → Option Nat → Option Nat → GoString → Option R
  | min, _, prev, [] => if min = 0 then k prev [] else none
  | min, max, prev, b :: t =>
    let more :=
      if cls b = true ∧ max ≠ some 0 then
        repMatch cls greedy k (min - 1) (max.map (fun n => n - 1)) (some b) t
      else none
    let stop := if min = 0 then k prev (b :: t) else none
    if greedy then
      match more with
      | some r => some r
      | none => stop
    else
      match stop with
      | some r => some r
      | none => more

/-- Matching of a pattern at the head of `input`, `prev` being the byte before
it (`none` at the start of the text): the input left after the match found
first, with the groups. -/
def matchItems : Regex → MatchState → Option Nat → GoString → Option (GoString × MatchState)
  | [], st, _, input => some (input, st)
  | RegexItem.bol :: rest, st, prev, input =>
    if prev = none ∨ prev = some 10 then matchItems rest st prev input else none
  | RegexItem.eol :: rest, st, prev, input =>
    if input = [] ∨ input.head? = some 10 then matchItems rest st prev input else none
  | RegexItem.openGroup k :: rest, st, prev, input =>
    matchItems rest { st with starts := (k, input) :: st.starts } prev input
  | RegexItem.closeGroup k :: rest, st, prev, input =>
    let start := (st.starts.lookup k).getD input
    matchItems rest
      { st with caps := (k, start.take (start.length - input.length)) :: st.caps } prev input
  | RegexItem.rep cls min max greedy :: rest, st, prev, input =>
    repMatch cls greedy (fun prev input => matchItems rest st prev input) min max prev input

/-- A piece of a text scanned for a pattern: a byte outside every match, or a
match with its groups. -/
inductive Piece where
  | lit (b : Nat)
  | hit (matched : GoString) (caps : List (Nat × GoString))

/-- The text cut into the successive leftmost matches of a pattern and the
bytes between them, one piece per unit of fuel. Every pattern of `telegram.go`
asks for at least one byte, so the rules of the library for empty matches
never apply; an empty match counts as none here. -/
def scanAux (re : Regex) : Nat → Option Nat → GoString → List Piece
  | 0, _, _ => []
  | _ + 1, _, [] => []
  | fuel + 1, prev, b :: t =>
    match matchItems re { starts := [], caps := [] } prev (b :: t) with
    | some (rest, st) =>
      if rest.length < (b :: t).length then
        Piece.hit ((b :: t).take ((b :: t).length - rest.length)) st.caps ::
          scanAux re fuel ((b :: t).take ((b :: t).length - rest.length)).getLast? rest
      else Piece.lit b :: scanAux re fuel (some b) t
    | none => Piece.lit b :: scanAux re fuel (some b) t

/-- The pieces of a whole text. -/
def scan (re : Regex) (text : GoString) : List Piece :=
  scanAux re text.length none text

/-- The content of group `k` of a match, empty if the group took no part. -/
def group (caps : List (Nat × GoString)) (k : Nat) : GoString :=
  (caps.lookup k).getD []

/-- A replacement template: text and references `$k` to groups. -/
inductive TemplatePart where
  | text (s : GoString)
  | ref (k : Nat)

/-- Expansion of a template for one match. -/
def expand (template : List TemplatePart) (caps : List (Nat × GoString)) : GoString :=
  (template.map (fun p =>
    match p with
    | TemplatePart.text s => s
    | TemplatePart.ref k => group caps k)).flatten

/-- Go's `(*Regexp).ReplaceAllString`. -/
def ReplaceAllString (re : Regex) (src : GoString) (template : List TemplatePart) : GoString :=
  ((scan re src).map (fun p =>
    match p with
    | Piece.lit b => [b]
    | Piece.hit _ caps => expand template caps)).flatten

/-- Go's `(*Regexp).ReplaceAllStringFunc`, the function being given, besides the
matched text, the number of matches replaced before: the closures of
`telegram.go` count their calls. -/
def ReplaceAllStringFunc (re : Regex) (src : GoString) (repl : Nat → GoString → GoString) :
    GoString :=
  ((scan re src).foldl
    (fun (acc : GoString × Nat) p =>
      match p with
      | Piece.lit b => (acc.1 ++ [b], acc.2)
      | Piece.hit m _ => (acc.1 ++ repl acc.2 m, acc.2 + 1))
    ([], 0)).1

/-- Go's `(*Regexp).FindAllStringSubmatch(s, -1)`: the groups of every match. -/
def FindAllStringSubmatch (re : Regex) (s : GoString) : List (List (Nat × GoString)) :=
  (scan re s).filterMap (fun p =>
    match p with
    | Piece.lit _ => none
    | Piece.hit _ caps => some caps)

/-- Go's `(*Regexp).FindStringSubmatch`: the groups of the first match. -/
def FindStringSubmatch (re : Regex) (s : GoString) : Option (List (Nat × GoString)) :=
  (FindAllStringSubmatch re s).head?

/-- Go's `(*Regexp).MatchString`. -/
def MatchString (re : Regex) (s : GoString) : Bool :=
  (FindAllStringSubmatch re s).length > 0

/-- The class of one byte. -/
def isByte (c : Nat) (b : Nat) : Bool := decide (b = c)

/-- The class of all bytes but one. -/
def notByte (c : Nat) (b : Nat) : Bool := decide (b ≠ c)

/-- The class `\w`: ASCII letters, digits and the underscore. -/
def isWord (b : Nat) : Bool :=
  decide ((48 ≤ b ∧ b ≤ 57) ∨ (65 ≤ b ∧ b ≤ 90) ∨ (97 ≤ b ∧ b ≤ 122) ∨ b = 95)

/-- The class `\s`: tab, line feed, form feed, carriage return and space. -/
def isSpaceClass (b : Nat) : Bool :=
  decide (b = 9 ∨ b = 10 ∨ b = 12 ∨ b = 13 ∨ b = 32)

/-- The class `[\s\S]`: every byte. -/
def anyByte (_ : Nat) : Bool := true

/-- A literal byte in a pattern. -/
def lit (c : Nat) : RegexItem := RegexItem.rep (isByte c) 1 (some 1) true

/-- The backtick. -/
def backtick : Nat := 96

/-- The pattern ```` ```[\w]*\n?[\s\S]*?``` ````. -/
def reCodeBlock : Regex :=
  [lit backtick, lit backtick, lit backtick,
   RegexItem.rep isWord 0 none true, RegexItem.rep (isByte 10) 0 (some 1) true,
   RegexItem.rep anyByte 0 none false,
   lit backtick, lit backtick, lit backtick]

/-- The pattern `` `[^`]+` ``. -/
def reInlineCode : Regex :=
  [lit backtick, RegexItem.rep (notByte backtick) 1 none true, lit backtick]

/-- The pattern `\*\*(.+?)\*\*`. -/
def reBold : Regex :=
  [lit 42, lit 42, RegexItem.openGroup 1, RegexItem.rep (notByte 10) 1 none false,
   RegexItem.closeGroup 1, lit 42, lit 42]

/-- The pattern `__(.+?)__`. -/
def reUnderBold : Regex :=
  [lit 95, lit 95, RegexItem.openGroup 1, RegexItem.rep (notByte 10) 1 none false,
   RegexItem.closeGroup 1, lit 95, lit 95]

/-- The pattern `_([^_]+)_`. -/
def reItalic : Regex :=
  [lit 95, RegexItem.openGroup 1, RegexItem.rep (notByte 95) 1 none true,
   RegexItem.closeGroup 1, lit 95]

/-- The pattern `~~(.+?)~~`. -/
def reStrike : Regex :=
  [lit 126, lit 126, RegexItem.openGroup 1, RegexItem.rep (notByte 10) 1 none false,
   RegexItem.closeGroup 1, lit 126, lit 126]

/-- The pattern `\[([^\]]+)\]\(([^)]+)\)`. -/
def reLink : Regex :=
  [lit 91, RegexItem.openGroup 1, RegexItem.rep (notByte 93) 1 none true,
   RegexItem.closeGroup 1, lit 93, lit 40, RegexItem.openGroup 2,
   RegexItem.rep (notByte 41) 1 none true, RegexItem.closeGroup 2, lit 41]

/-- The pattern `(?m)^#{1,6}\s+(.+)$`. -/
def reHeading : Regex :=
  [RegexItem.bol, RegexItem.rep (isByte 35) 1 (some 6) true,
   RegexItem.rep isSpaceClass 1 none true, RegexItem.openGroup 1,
   RegexItem.rep (notByte 10) 1 none true, RegexItem.closeGroup 1, RegexItem.eol]

/-- The pattern `(?m)^>\s*(.*)$`. -/
def reBlockquote : Regex :=
  [RegexItem.bol, lit 62, RegexItem.rep isSpaceClass 0 none true, RegexItem.openGroup 1,
   RegexItem.rep (notByte 10) 0 none true, RegexItem.closeGroup 1, RegexItem.eol]

/-- The pattern `(?m)^[-*]\s+`. -/
def reListItem : Regex :=
  [RegexItem.bol, RegexItem.rep (fun b => decide (b = 45 ∨ b = 42)) 1 (some 1) true,
   RegexItem.rep isSpaceClass 1 none true]

/-- The pattern ```` ```[\w]*\n?([\s\S]*?)``` ````. -/
def reCodeBlockCap : Regex :=
  [lit backtick, lit backtick, lit backtick,
   RegexItem.rep isWord 0 none true, RegexItem.rep (isByte 10) 0 (some 1) true,
   RegexItem.openGroup 1, RegexItem.rep anyByte 0 none false, RegexItem.closeGroup 1,
   lit backtick, lit backtick, lit backtick]

/-- The pattern `` `([^`]+)` `` compiled in `extractInlineCodes`. -/
def reCapture : Regex :=
  [lit backtick, RegexItem.openGroup 1, RegexItem.rep (notByte backtick) 1 none true,
   RegexItem.closeGroup 1, lit backtick]

/-! ## Outbound rendering (`pkg/channels/telegram.go`) -/

/-- Go's `strings.ReplaceAll` for a non-empty `old`, one step per unit of fuel. -/
def replaceAllAux (old new : GoString) : Nat → GoString → GoString
  | 0, s => s
  | _ + 1, [] => []
  | fuel + 1, b :: t =>
    if old.isPrefixOf (b :: t) then new ++ replaceAllAux old new fuel ((b :: t).drop old.length)
    else b :: replaceAllAux old new fuel t

/-- Go's `strings.ReplaceAll`, `old` not empty. -/
def ReplaceAll (s old new : GoString) : GoString :=
  replaceAllAux old new s.length s

/-- Go's `strings.Contains`. -/
def Contains (s substr : GoString) : Bool :=
  (List.range (s.length + 1)).any (fun i => substr.isPrefixOf (s.drop i))

/-- The decimal digits of `n`, most significant first, given `fuel` digits at most. -/
def decimalAux : Nat → Nat → GoString → GoString
  | 0, _, acc => acc
  | fuel + 1, n, acc =>
    if n < 10 then (48 + n) :: acc else decimalAux fuel (n / 10) ((48 + n % 10) :: acc)

/-- The verb `%d` of `fmt.Sprintf` for a number that is not negative. -/
def decimal (n : Nat) : GoString :=
  decimalAux (n + 1) n []

/-- The function `escapeHTML`. -/
def escapeHTML (text : GoString) : GoString :=
  let text := ReplaceAll text (go "&") (go "&amp;")
  let text := ReplaceAll text (go "<") (go "&lt;")
  let text := ReplaceAll text (go ">") (go "&gt;")
  text

/-- The struct `codeBlockMatch`. -/
structure codeBlockMatch where
  text : GoString
  codes : List GoString

/-- The function `extractCodeBlocks`; the placeholder of the `i`-th match is
`fmt.Sprintf("\x00CB%d\x00", i)`. -/
def extractCodeBlocks (text : GoString) : codeBlockMatch :=
  let hits := FindAllStringSubmatch reCodeBlockCap text
  let codes := hits.map (fun m => group m 1)
  let text := ReplaceAllStringFunc reCodeBlockCap text
    (fun i _ => go "\x00CB" ++ decimal i ++ go "\x00")
  { text := text, codes := codes }

/-- The struct `inlineCodeMatch`. -/
structure inlineCodeMatch where
  text : GoString
  codes : List GoString

/-- The function `extractInlineCodes`; the placeholder of the `i`-th match is
`fmt.Sprintf("\x00IC%d\x00", i)`. -/
def extractInlineCodes (text : GoString) : inlineCodeMatch :=
  let hits := FindAllStringSubmatch reCapture text
  let codes := hits.map (fun m => group m 1)
  let text := ReplaceAllStringFunc reInlineCode text
    (fun i _ => go "\x00IC" ++ decimal i ++ go "\x00")
  { text := text, codes := codes }

/-- The loop `for i, code := range codes` that puts the escaped codes back in
place of their placeholders, `i` counting from `start`. -/
def restoreCodes (tag opening closing : GoString) :
    List GoString → Nat → GoString → GoString
  | [], _, text => text
  | code :: rest, i, text =>
    let escaped := escapeHTML code
    restoreCodes tag opening closing rest (i + 1)
      (ReplaceAll text (go "\x00" ++ tag ++ decimal i ++ go "\x00")
        (opening ++ escaped ++ closing))

/-- The function `markdownToTelegramHTML`. -/
def markdownToTelegramHTML (text : GoString) : GoString :=
  if text = [] then []
  else
    let codeBlocks := extractCodeBlocks text
    let text := codeBlocks.text
    let inlineCodes := extractInlineCodes text
    let text := inlineCodes.text
    let text := ReplaceAllString reHeading text [TemplatePart.ref 1]
    let text := ReplaceAllString reBlockquote text [TemplatePart.ref 1]
    let text := escapeHTML text
    let text := ReplaceAllString reLink text
      [TemplatePart.text (go "<a href=\""), TemplatePart.ref 2, TemplatePart.text (go "\">"),
       TemplatePart.ref 1, TemplatePart.text (go "</a>")]
    let text := ReplaceAllString reBold text
      [TemplatePart.text (go "<b>"), TemplatePart.ref 1, TemplatePart.text (go "</b>")]
    let text := ReplaceAllString reUnderBold text
      [TemplatePart.text (go "<b>"), TemplatePart.ref 1, TemplatePart.text (go "</b>")]
    let text := ReplaceAllStringFunc reItalic text (fun _ s =>
      match FindStringSubmatch reItalic s with
      | none => s
      | some m => go "<i>" ++ group m 1 ++ go "</i>")
    let text := ReplaceAllString reStrike text
      [TemplatePart.text (go "<s>"), TemplatePart.ref 1, TemplatePart.text (go "</s>")]
    let text := ReplaceAllString reListItem text [TemplatePart.text (go "• ")]
    let text := restoreCodes (go "IC") (go "<code>") (go "</code>") inlineCodes.codes 0 text
    let text := restoreCodes (go "CB") (go "<pre><code>") (go "</code></pre>")
      codeBlocks.codes 0 text
    text

/-- The function `stripMarkdown`. -/
def stripMarkdown (text : GoString) : GoString :=
  let text := ReplaceAllString reCodeBlock text []
  let text := ReplaceAllString reInlineCode text []
  let text := ReplaceAllString reBold text [TemplatePart.ref 1]
  let text := ReplaceAllString reUnderBold text [TemplatePart.ref 1]
  let text := ReplaceAllString reItalic text [TemplatePart.ref 1]
  let text := ReplaceAllString reStrike text [TemplatePart.ref 1]
  let text := ReplaceAllString reLink text [TemplatePart.ref 1]
  let text := ReplaceAllString reHeading text []
  let text := ReplaceAllString reListItem text []
  let text := TrimSpace text
  text

/-- The function `containsCode`. -/
def containsCode (text : GoString) : Bool :=
  Contains text (go "```") || MatchString reInlineCode text

/-- The byte before the input that is left after `xs` was read. -/
def lastOr (prev : Option Nat) (xs : GoString) : Option Nat :=
  match xs.getLast? with
  | some b => some b
  | none => prev

/-- What `escapeHTML` makes of one byte: `&amp;` for `&`, `&lt;` for `<`,
`&gt;` for `>`, the byte itself otherwise. -/
def escapeByte (b : Nat) : GoString :=
  if b = 38 then go "&amp;" else if b = 60 then go "&lt;" else if b = 62 then go "&gt;" else [b]

/-! ## Outbound delivery (`Send`, `pkg/channels/telegram.go`) -/

/-- The constant `ttsMaxChars`. -/
def ttsMaxChars : Nat := 300

/-- Go's `strings.HasSuffix`. -/
def HasSuffix (s suffix : GoString) : Bool :=
  suffix.isSuffixOf s

/-- The type `bus.OutboundMessage`, with the fields that `Send` reads. -/
structure OutboundMessage where
  ChatID : GoString
  Content : GoString
  Media : List GoString

/-- The part of a `TelegramChannel` that `Send` and `handleMessage` read and write: the running
flag of the base channel, the three `sync.Map`s keyed by the chat id string, and the map
`chatIDs` keyed by the sender id. A stored thinking entry is
`some token` for a `*thinkingCancel` whose `Cancel` runs the cancel function `token`, and `none`
for a value whose `Cancel` does nothing (nil pointer or nil `fn`). -/
structure TelegramChannel where
  running : Bool
  placeholders : GoString → Option Int
  stopThinking : GoString → Option (Option Nat)
  voiceInput : GoString → Option Bool
  chatIDs : GoString → Option Int := fun _ => none

/-- The method `Delete` of a `sync.Map`. -/
def mapDelete {V : Type} (m : GoString → Option V) (key : GoString) : GoString → Option V :=
  fun k => if k = key then none else m k

/-- What `Send` does to the world outside the channel, in order: a cancelled thinking token, the
calls of the bot API (the placeholder deletion with the error it returned, which `Send`
discards), and the call of `sendVoice`. A caption is `none` when the content is empty; of
`sendMessage` the last field says whether the parse mode is HTML. -/
inductive SendEvent where
  | cancel (token : Nat)
  | deleteMessage (chatID : Int) (messageID : Int) (err : Option GoString)
  | sendPhoto (chatID : Int) (url : GoString) (caption : Option GoString)
  | sendDocument (chatID : Int) (url : GoString) (caption : Option GoString)
  | sendVoice (chatID : Int) (text : GoString)
  | sendMessage (chatID : Int) (text : GoString) (html : Bool)
  deriving DecidableEq, Repr

/-- What the environment answers during one run of `Send`: the result of `parseChatID`
(`fmt.Sscanf`), Go's `strings.ToLower`, and the error (`none` for nil) that each call of the bot
API and of `sendVoice` returns. A `SendMessage` call is identified by the index of its chunk,
the chat, the text and whether the parse mode is HTML. -/
structure BotWorld where
  parseChatID : GoString → Except GoString Int
  ToLower : GoString → GoString
  DeleteMessage : Int → Int → Option GoString
  SendPhoto : Int → GoString → Option GoString → Option GoString
  SendDocument : Int → GoString → Option GoString → Option GoString
  sendVoice : Int → GoString → Option GoString
  SendMessage : Nat → Int → GoString → Bool → Option GoString

/-- What `Send` returns (`none` for nil), the channel it leaves, and what it did. -/
structure SendResult where
  err : Option GoString
  channel : TelegramChannel
  trace : List SendEvent

/-- The extensions that `isImageURL` looks for. -/
def imageExts : List GoString :=
  [go ".jpg", go ".jpeg", go ".png", go ".gif", go ".webp"]

/-- The function `isImageURL`, over Go's `strings.ToLower`. -/
def isImageURL (ToLower : GoString → GoString) (u : GoString) : Bool :=
  if HasPrefix u (go "data:image/") then true
  else
    let lower := ToLower u
    imageExts.any (fun ext => HasSuffix lower ext || Contains lower (ext ++ go "?"))

/-- The first stage of `Send` after the checks: the stored thinking entry of the chat is
cancelled and deleted. -/
def stopThinkingStage (c : TelegramChannel) (msg : OutboundMessage) :
    TelegramChannel × List SendEvent :=
  match c.stopThinking msg.ChatID with
  | some stop =>
    let cancelled := match stop with
      | some token => [SendEvent.cancel token]
      | none => []
    ({ c with stopThinking := mapDelete c.stopThinking msg.ChatID }, cancelled)
  | none => (c, [])

/-- The second stage of `Send`: the stored placeholder of the chat is deleted from the map and
its message from the chat; the error of `DeleteMessage` is discarded. -/
def placeholderStage (w : BotWorld) (chatID : Int) (c : TelegramChannel) (msg : OutboundMessage) :
    TelegramChannel × List SendEvent :=
  match c.placeholders msg.ChatID with
  | some pID =>
    ({ c with placeholders := mapDelete c.placeholders msg.ChatID },
      [SendEvent.deleteMessage chatID pID (w.DeleteMessage chatID pID)])
  | none => (c, [])

/-- The media stage of `Send`: the loop over `msg.Media`. Every path through the loop body ends
in `return nil` (the send succeeded) or in `break` (it failed), so the body runs for the first
item only. The first component says whether `Send` returned from this stage. -/
def mediaStage (w : BotWorld) (chatID : Int) (msg : OutboundMessage) : Bool × List SendEvent :=
  match msg.Media with
  | [] => (false, [])
  | mediaURL :: _ =>
    let caption := if msg.Content ≠ [] then some (markdownToTelegramHTML msg.Content) else none
    if isImageURL w.ToLower mediaURL then
      match w.SendPhoto chatID mediaURL caption with
      | some _ => (false, [SendEvent.sendPhoto chatID mediaURL caption])
      | none => (true, [SendEvent.sendPhoto chatID mediaURL caption])
    else
      match w.SendDocument chatID mediaURL caption with
      | some _ => (false, [SendEvent.sendDocument chatID mediaURL caption])
      | none => (true, [SendEvent.sendDocument chatID mediaURL caption])

/-- The voice stage of `Send`: `voiceInput.LoadAndDelete`, and the call of `sendVoice` under the
three conditions. The first component says whether `Send` returned from this stage. -/
def voiceStage (w : BotWorld) (chatID : Int) (c : TelegramChannel) (msg : OutboundMessage) :
    Bool × TelegramChannel × List SendEvent :=
  match c.voiceInput msg.ChatID with
  | some _ =>
    let c := { c with voiceInput := mapDelete c.voiceInput msg.ChatID }
    let plainText := stripMarkdown msg.Content
    if plainText.length > 0 ∧ plainText.length ≤ ttsMaxChars ∧ containsCode msg.Content = false then
      match w.sendVoice chatID plainText with
      | none => (true, c, [SendEvent.sendVoice chatID plainText])
      | some _ => (false, c, [SendEvent.sendVoice chatID plainText])
    else (false, c, [])
  | none => (false, c, [])

/-- The loop of the text stage of `Send` from chunk number `i` on: each chunk is sent with the
HTML parse mode and, when that fails, once more without one; the error of the second send ends
`Send`. -/
def sendChunks (w : BotWorld) (chatID : Int) : Nat → List GoString → Option GoString × List SendEvent
  | _, [] => (none, [])
  | i, chunk :: rest =>
    match w.SendMessage i chatID chunk true with
    | none =>
      let r := sendChunks w chatID (i + 1) rest
      (r.1, SendEvent.sendMessage chatID chunk true :: r.2)
    | some _ =>
      match w.SendMessage i chatID chunk false with
      | some err =>
        (some err, [SendEvent.sendMessage chatID chunk true, SendEvent.sendMessage chatID chunk false])
      | none =>
        let r := sendChunks w chatID (i + 1) rest
        (r.1, SendEvent.sendMessage chatID chunk true :: SendEvent.sendMessage chatID chunk false :: r.2)

/-- The text stage of `Send`. -/
def textStage (w : BotWorld) (chatID : Int) (msg : OutboundMessage) :
    Option GoString × List SendEvent :=
  let htmlContent := markdownToTelegramHTML msg.Content
  let chunks := (splitMessage htmlContent 4096).getD []
  sendChunks w chatID 0 chunks

/-- The method `Send` of the Telegram channel. -/
def Send (w : BotWorld) (c : TelegramChannel) (msg : OutboundMessage) : SendResult :=
  if c.running = false then
    { err := some (go "telegram bot not running"), channel := c, trace := [] }
  else
    match w.parseChatID msg.ChatID with
    | Except.error e => { err := some (go "invalid chat ID: " ++ e), channel := c, trace := [] }
    | Except.ok chatID =>
      let stopped := stopThinkingStage c msg
      let cleared := placeholderStage w chatID stopped.1 msg
      let media := mediaStage w chatID msg
      if media.1 = true then
        { err := none, channel := cleared.1, trace := stopped.2 ++ cleared.2 ++ media.2 }
      else
        let voice := voiceStage w chatID cleared.1 msg
        if voice.1 = true then
          { err := none, channel := voice.2.1,
            trace := stopped.2 ++ cleared.2 ++ media.2 ++ voice.2.2 }
        else
          let sent := textStage w chatID msg
          { err := sent.1, channel := voice.2.1,
            trace := stopped.2 ++ cleared.2 ++ media.2 ++ voice.2.2 ++ sent.2 }

/-- The calls of `sendVoice` in a trace, in order. -/
def voiceCalls (trace : List SendEvent) : List (Int × GoString) :=
  trace.filterMap (fun e =>
    match e with
    | SendEvent.sendVoice chatID text => some (chatID, text)
    | _ => none)

/-- The condition under which the voice stage calls `sendVoice`, as stated: the voice flag of
the chat is set, the stripped text has between 1 and 300 bytes, and the content has no code. -/
def voiceStated (c : TelegramChannel) (msg : OutboundMessage) : Prop :=
  (c.voiceInput msg.ChatID).isSome = true ∧ 1 ≤ (stripMarkdown msg.Content).length ∧
    (stripMarkdown msg.Content).length ≤ 300 ∧ containsCode msg.Content = false

/-- A world in which every chat id string parses to 7 and only `sendVoice` fails. -/
def voiceFails : BotWorld :=
  { parseChatID := fun _ => Except.ok 7
    ToLower := fun s => s
    DeleteMessage := fun _ _ => none
    SendPhoto := fun _ _ _ => none
    SendDocument := fun _ _ _ => none
    sendVoice := fun _ _ => some (go "edge-tts failed")
    SendMessage := fun _ _ _ _ => none }

/-- A running channel in which chat `7` has a voice flag, a placeholder and a thinking entry. -/
def voiceChannel : TelegramChannel :=
  { running := true
    placeholders := fun k => if k = go "7" then some 41 else none
    stopThinking := fun k => if k = go "7" then some (some 3) else none
    voiceInput := fun k => if k = go "7" then some true else none }

/-- The calls of `SendMessage` in a trace, in order: the text and whether the parse mode is HTML. -/
def messageCalls (trace : List SendEvent) : List (GoString × Bool) :=
  trace.filterMap (fun e =>
    match e with
    | SendEvent.sendMessage _ text html => some (text, html)
    | _ => none)

/-- Chunk number `i` is rejected on both attempts: with the HTML parse mode and without. -/
def rejectedTwice (w : BotWorld) (chatID : Int) (i : Nat) (chunk : GoString) : Bool :=
  (w.SendMessage i chatID chunk true).isSome && (w.SendMessage i chatID chunk false).isSome

/-- The attempts for chunk number `i`, as stated: one with the HTML parse mode and, only if that
one is rejected, one more without a parse mode. -/
def statedAttempts (w : BotWorld) (chatID : Int) (i : Nat) (chunk : GoString) :
    List (GoString × Bool) :=
  if (w.SendMessage i chatID chunk true).isSome then [(chunk, true), (chunk, false)]
  else [(chunk, true)]

/-- The attempts for a list of chunks numbered from `i`, in order. -/
def attemptsOf (w : BotWorld) (chatID : Int) (i : Nat) (chunks : List GoString) :
    List (GoString × Bool) :=
  ((chunks.enumFrom i).map (fun p => statedAttempts w chatID p.1 p.2)).flatten

/-- A world in which every chat id string parses to 7, the deletion of a placeholder message
fails, and the platform rejects the HTML form of every chunk and also the plain form of chunk
number 0. -/
def textRejected : BotWorld :=
  { parseChatID := fun _ => Except.ok 7
    ToLower := fun s => s
    DeleteMessage := fun _ _ => some (go "message to delete not found")
    SendPhoto := fun _ _ _ => none
    SendDocument := fun _ _ _ => none
    sendVoice := fun _ _ => none
    SendMessage := fun i _ _ html =>
      if html = true then some (go "can't parse entities")
      else if i = 0 then some (go "chat not found") else none }

/-- A running channel in which chat `7` has a placeholder and a thinking entry and no chat has a
voice flag. -/
def textChannel : TelegramChannel :=
  { running := true
    placeholders := fun k => if k = go "7" then some 41 else none
    stopThinking := fun k => if k = go "7" then some (some 3) else none
    voiceInput := fun _ => none }

/-! ## `extractPDFText` (`pkg/channels/telegram.go`) -/

/-- The notice that `extractPDFText` appends to a text it has cut. -/
def truncationNotice : GoString :=
  go "\n\n[... texto truncado, PDF muy largo ...]"

/-- The function `extractPDFText`, given what `cmd.Output()` returns for `pdftotext`: the bytes
written to the standard output, or an error. -/
def extractPDFText (output : Except GoString GoString) : GoString :=
  match output with
  | Except.error _ => []
  | Except.ok output =>
    let text := TrimSpace output
    if text.length > 15000 then text.take 15000 ++ truncationNotice
    else text

/-! ## Inbound messages (`handleMessage`, `pkg/channels/telegram.go`) -/

/-- The verb `%d` of `fmt.Sprintf` for an `int64`. -/
def formatInt (n : Int) : GoString :=
  if n < 0 then 45 :: decimal n.natAbs else decimal n.toNat

/-- The method `Store` of a `sync.Map`. -/
def mapStore {V : Type} (m : GoString → Option V) (key : GoString) (v : V) :
    GoString → Option V :=
  fun k => if k = key then some v else m k

/-- The type `telego.User`, with the fields that `handleMessage` reads. -/
structure telego.User where
  ID : Int
  Username : GoString
  FirstName : GoString

/-- The type `telego.Document`, with the fields that `handleMessage` reads. -/
structure telego.Document where
  FileID : GoString
  MimeType : GoString
  FileName : GoString

/-- The type `telego.Message`, with the fields that `handleMessage` reads: `Photo` holds the
file ids of the sizes of a photo, `Voice` and `Audio` the file id of the payload if there is
one, `ChatID` is `Chat.ID` and `ChatType` is `Chat.Type`. -/
structure telego.Message where
  MessageID : Int
  From : Option telego.User
  ChatID : Int
  ChatType : GoString
  Text : GoString
  Caption : GoString
  Photo : List GoString
  Voice : Option GoString
  Audio : Option GoString
  Document : Option telego.Document

/-- What `handleMessage` does outside the channel, in order: the model menu, the typing
action, a cancelled thinking token, the placeholder message, the call of
`BaseChannel.HandleMessage` and the removal of a downloaded file when the function returns. -/
inductive InboundEvent where
  | sendModelMenu (chatID : Int)
  | sendChatAction (chatID : Int)
  | cancel (token : Nat)
  | sendThinking (chatID : Int)
  | handle (senderID chatID content : GoString) (media : List GoString)
      (metadata : List (GoString × GoString))
  | remove (file : GoString)
  deriving DecidableEq, Repr

/-- What the environment answers during one run of `handleMessage`: the allow list of the base
channel, the paths that `downloadPhoto` and `downloadFile` return (empty on failure), the file
contents (`none` for an error of `os.ReadFile`), `base64.StdEncoding.EncodeToString`, the
transcriber if one is set and available, the output of `pdftotext` for a path, Go's
`strings.ToLower`, the message id that `SendMessage` returns for the placeholder, and the token
of the cancel function that `context.WithTimeout` returns. -/
structure InboundWorld where
  IsAllowed : GoString → Bool
  downloadPhoto : GoString → GoString
  ReadFile : GoString → Option GoString
  EncodeToString : GoString → GoString
  downloadFile : GoString → GoString → GoString
  transcriber : Option (GoString → Except GoString GoString)
  pdftotext : GoString → Except GoString GoString
  ToLower : GoString → GoString
  SendThinking : Int → Except GoString Int
  thinkCancel : Nat

/-- What `handleMessage` leaves: the channel and what it did. -/
structure HandleResult where
  channel : TelegramChannel
  trace : List InboundEvent

/-- The sender id that `handleMessage` builds: the user id, followed by `|` and the user name
if there is one. -/
def senderIDOf (user : telego.User) : GoString :=
  if user.Username ≠ [] then formatInt user.ID ++ go "|" ++ user.Username
  else formatInt user.ID

/-- The steps `if content != "" { content += "\n" }; content += piece`. -/
def addLine (content piece : GoString) : GoString :=
  (if content ≠ [] then content ++ go "\n" else content) ++ piece

/-- The content, the media paths and the local files in `handleMessage`. -/
structure Gathered where
  content : GoString
  mediaPaths : List GoString
  localFiles : List GoString

/-- The part of `handleMessage` for `message.Text`, `message.Caption` and `message.Photo`. -/
def gatherPhoto (w : InboundWorld) (message : telego.Message) : Gathered :=
  let content := if message.Text ≠ [] then message.Text else []
  let content := if message.Caption ≠ [] then addLine content message.Caption else content
  match message.Photo.getLast? with
  | some photo =>
    let photoPath := w.downloadPhoto photo
    if photoPath ≠ [] then
      let mediaPaths := match w.ReadFile photoPath with
        | some imgData => [go "data:image/jpeg;base64," ++ w.EncodeToString imgData]
        | none => []
      { content := addLine content (go "[image: photo]"), mediaPaths := mediaPaths,
        localFiles := [photoPath] }
    else { content := content, mediaPaths := [], localFiles := [] }
  | none => { content := content, mediaPaths := [], localFiles := [] }

/-- The part of `handleMessage` for `message.Voice`. -/
def gatherVoice (w : InboundWorld) (message : telego.Message) (g : Gathered) : Gathered :=
  match message.Voice with
  | some fileID =>
    let voicePath := w.downloadFile fileID (go ".ogg")
    if voicePath ≠ [] then
      let transcribedText := match w.transcriber with
        | some transcribe =>
          match transcribe voicePath with
          | Except.error _ => go "[voice (transcription failed)]"
          | Except.ok text => go "[voice transcription: " ++ text ++ go "]"
        | none => go "[voice]"
      { content := addLine g.content transcribedText, mediaPaths := g.mediaPaths ++ [voicePath],
        localFiles := g.localFiles ++ [voicePath] }
    else g
  | none => g

/-- The part of `handleMessage` for `message.Audio`. -/
def gatherAudio (w : InboundWorld) (message : telego.Message) (g : Gathered) : Gathered :=
  match message.Audio with
  | some fileID =>
    let audioPath := w.downloadFile fileID (go ".mp3")
    if audioPath ≠ [] then
      { content := addLine g.content (go "[audio]"), mediaPaths := g.mediaPaths ++ [audioPath],
        localFiles := g.localFiles ++ [audioPath] }
    else g
  | none => g

/-- The part of `handleMessage` for `message.Document`. -/
def gatherDocument (w : InboundWorld) (message : telego.Message) (g : Gathered) : Gathered :=
  match message.Document with
  | some doc =>
    let docPath := w.downloadFile doc.FileID []
    if docPath ≠ [] then
      let mimeType := doc.MimeType
      let fileName := doc.FileName
      if mimeType = go "application/pdf" ∨ HasSuffix (w.ToLower fileName) (go ".pdf") = true then
        let pdfText := extractPDFText (w.pdftotext docPath)
        if pdfText ≠ [] then
          { content := addLine g.content (go "[PDF: " ++ fileName ++ go "]\n" ++ pdfText),
            mediaPaths := g.mediaPaths, localFiles := g.localFiles ++ [docPath] }
        else
          { content := addLine g.content
              (go "[PDF: " ++ fileName ++ go " - no se pudo extraer texto]"),
            mediaPaths := g.mediaPaths, localFiles := g.localFiles ++ [docPath] }
      else
        { content := addLine g.content (go "[file: " ++ fileName ++ go "]"),
          mediaPaths := g.mediaPaths ++ [docPath], localFiles := g.localFiles ++ [docPath] }
    else g
  | none => g

/-- The method `handleMessage`, given `update.Message` (`none` for nil). The function
`sendModelMenu` sends one message and reads the configuration only; a failure of
`SendChatAction` is logged only. -/
def handleMessage (w : InboundWorld) (c : TelegramChannel) (update : Option telego.Message) :
    HandleResult :=
  match update with
  | none => { channel := c, trace := [] }
  | some message =>
    match message.From with
    | none => { channel := c, trace := [] }
    | some user =>
      let userID := formatInt user.ID
      let senderID := senderIDOf user
      if w.IsAllowed userID = false ∧ w.IsAllowed senderID = false then
        { channel := c, trace := [] }
      else
        let chatID := message.ChatID
        let c := { c with chatIDs := mapStore c.chatIDs senderID chatID }
        if TrimSpace message.Text = go "/model" then
          { channel := c, trace := [InboundEvent.sendModelMenu chatID] }
        else
          let g := gatherPhoto w message
          let isVoiceInput := message.Voice.isSome || message.Audio.isSome
          let voiceKey := formatInt chatID
          let c :=
            if isVoiceInput = true then { c with voiceInput := mapStore c.voiceInput voiceKey true }
            else { c with voiceInput := mapDelete c.voiceInput voiceKey }
          let g := gatherVoice w message g
          let g := gatherAudio w message g
          let g := gatherDocument w message g
          let content := if g.content = [] then go "[empty message]" else g.content
          let chatIDStr := formatInt chatID
          let stopped := match c.stopThinking chatIDStr with
            | some (some token) => [InboundEvent.cancel token]
            | _ => []
          let c := { c with stopThinking := mapStore c.stopThinking chatIDStr (some w.thinkCancel) }
          let c := match w.SendThinking chatID with
            | Except.ok pID => { c with placeholders := mapStore c.placeholders chatIDStr pID }
            | Except.error _ => c
          let metadata :=
            [(go "message_id", formatInt message.MessageID), (go "user_id", formatInt user.ID),
             (go "username", user.Username), (go "first_name", user.FirstName),
             (go "is_group", if message.ChatType ≠ go "private" then go "true" else go "false")]
          { channel := c,
            trace := [InboundEvent.sendChatAction chatID] ++ stopped ++
              [InboundEvent.sendThinking chatID,
               InboundEvent.handle senderID (formatInt chatID) content g.mediaPaths metadata] ++
              g.localFiles.map InboundEvent.remove }

/-- A world in which everybody is allowed, no download succeeds and the placeholder message
gets the id 41. -/
def openWorld : InboundWorld :=
  { IsAllowed := fun _ => true
    downloadPhoto := fun _ => []
    ReadFile := fun _ => none
    EncodeToString := fun s => s
    downloadFile := fun _ _ => []
    transcriber := none
    pdftotext := fun _ => Except.error (go "exit status 1")
    ToLower := fun s => s
    SendThinking := fun _ => Except.ok 41
    thinkCancel := 3 }

/-- A message of user 5 in chat 7 with the given text and voice payload. -/
def inboundOf (text : GoString) (voice : Option GoString) : telego.Message :=
  { MessageID := 1, From := some { ID := 5, Username := go "ana", FirstName := go "Ana" },
    ChatID := 7, ChatType := go "private", Text := text, Caption := [], Photo := [],
    Voice := voice, Audio := none, Document := none }

/-- The first bytes of the lines of a text that follows the byte `prev` (`none` at the start):
the first byte of the text if it starts a line, and every byte that follows a line feed. -/
def lineHeadsFrom : Option Nat → GoString → List Nat
  | _, [] => []
  | prev, b :: t =>
    (if prev = none ∨ prev = some 10 then [b] else []) ++ lineHeadsFrom (some b) t

/-- The first bytes of the lines of a text. -/
def lineHeads (text : GoString) : List Nat :=
  lineHeadsFrom none text
/-- A world in which every chat id string parses to 7 and the platform rejects a message whose
text is empty, with or without a parse mode, and accepts every other message. -/
def emptyRejected : BotWorld :=
  { parseChatID := fun _ => Except.ok 7
    ToLower := fun s => s
    DeleteMessage := fun _ _ => none
    SendPhoto := fun _ _ _ => none
    SendDocument := fun _ _ _ => none
    sendVoice := fun _ _ => none
    SendMessage := fun _ _ text _ => if text = [] then some (go "message text is empty") else none }

/-- A builder with an identity, the file `SOUL.md` and a memory context, without skills. -/
def memoryBuilder : ContextBuilder :=
  { identity := go "# picoclaw",
    readFile := fun name => if name = go "SOUL.md" then some (go "be kind") else none,
    skillsSummary := [], memoryContext := go "likes tea" }

/-- A builder with an identity and a skills summary, without bootstrap files and memory. -/
def skillsBuilder : ContextBuilder :=
  { identity := go "# picoclaw", readFile := fun _ => none,
    skillsSummary := go "- weather", memoryContext := [] }

/-! ## `postToGroup` (`pkg/council/council.go`) -/

/-- A call `member.Bot.SendMessage` of `postToGroup`: the member whose bot sends, the text, and
whether the parse mode is HTML. The chat is always `c.groupChatID`. -/
structure GroupSend where
  member : Member
  text : GoString
  html : Bool
deriving DecidableEq

/-- The method `postToGroup`, given what `member.Bot.SendMessage` answers for a text and a
parse mode: the error, `none` for nil. The answer to the retry is discarded. -/
def postToGroup (SendMessage : GoString → Bool → Option GoString) (member : Member)
    (content : GoString) : List GroupSend :=
  let text := go "<b>" ++ member.Name ++ go "</b>\n\n" ++ content
  let text := if text.length > 4096 then text.take 4093 ++ go "..." else text
  match SendMessage text true with
  | some _ =>
    let retry := member.Name ++ go "\n\n" ++ content
    let retry := if retry.length > 4096 then retry.take 4093 ++ go "..." else retry
    [{ member := member, text := text, html := true },
     { member := member, text := retry, html := false }]
  | none => [{ member := member, text := text, html := true }]

/-- What a run of `Deliberate` does to the outside when the body of `postToGroup` is followed:
the provider calls and the messages sent to the group chat. -/
inductive GroupEvent where
  | chat (model : GoString) (msgs : List Message)
  | send (s : GroupSend)
deriving DecidableEq

/-- The trace of `Deliberate` with every call of `postToGroup` replaced by what `postToGroup`
does. `bots k` is what the bot of the member of index `k` answers; the counter is the number of
provider calls met so far, so the call of `postToGroup` that follows the provider call of index
`k` is met at `k + 1`. -/
def groupTraceFrom (bots : Nat → GoString → Bool → Option GoString) :
    Nat → List CouncilEvent → List GroupEvent
  | _, [] => []
  | k, CouncilEvent.chat model msgs :: rest =>
    GroupEvent.chat model msgs :: groupTraceFrom bots (k + 1) rest
  | k, CouncilEvent.post member content :: rest =>
    (postToGroup (bots (k - 1)) member content).map GroupEvent.send ++
      groupTraceFrom bots k rest

/-- What a run of `Deliberate` does to the outside, `postToGroup` included. -/
def groupTrace (bots : Nat → GoString → Bool → Option GoString) (trace : List CouncilEvent) :
    List GroupEvent :=
  groupTraceFrom bots 0 trace

/-- The messages sent to the group chat in a trace, in order. -/
def sendsOf (trace : List GroupEvent) : List GroupSend :=
  trace.filterMap (fun e =>
    match e with
    | GroupEvent.chat _ _ => none
    | GroupEvent.send s => some s)

/-- The text of a post as stated: the text itself if it has at most 4096 bytes, its first 4093
bytes followed by three dots otherwise. -/
def statedCut (text : GoString) : GoString :=
  if text.length ≤ 4096 then text else text.take 4093 ++ [46, 46, 46]

/-- The post of a response as stated: the member's name in bold, an empty line and the
response, cut, with the HTML parse mode; and, only if that message is rejected, the name, an
empty line and the response, cut, without a parse mode. -/
def statedPost (answer : GoString → Bool → Option GoString) (member : Member)
    (response : GoString) : List GroupSend :=
  { member := member,
    text := statedCut ([60, 98, 62] ++ member.Name ++ [60, 47, 98, 62, 10, 10] ++ response),
    html := true } ::
  (if (answer (statedCut ([60, 98, 62] ++ member.Name ++ [60, 47, 98, 62, 10, 10] ++ response))
        true).isSome then
    [{ member := member, text := statedCut (member.Name ++ [10, 10] ++ response), html := false }]
  else [])

/-- The posts of a member's turn as stated: those of the trimmed response if the provider call
succeeded, none if it failed. -/
def statedPosts (answer : GoString → Bool → Option GoString) (member : Member)
    (outcome : Except GoString GoString) : List GroupSend :=
  match outcome with
  | Except.error _ => []
  | Except.ok content => statedPost answer member (TrimSpace content)

/-- A run of one member whose provider answers with 5000 letters `a`. -/
def longAnswer : CouncilWorld :=
  { deadline := fun _ => none,
    chat := fun _ _ _ => Except.ok (List.replicate 5000 97) }

/-- Bots of which that of the first member has its HTML message rejected. -/
def firstBotRejects : Nat → GoString → Bool → Option GoString :=
  fun k _ html => if k = 0 ∧ html = true then some (go "can't parse entities") else none

/-! ## Theorems -/

/-! ### The map `expectedIDs` -/

theorem BoolMap.has_iff (m : BoolMap) (k : GoString) :
    BoolMap.has m k = true ↔ k ∈ m.map Prod.fst := by
  induction m with
  | nil => simp [BoolMap.has]
  | cons p rest ih =>
    simp only [BoolMap.has, List.any_cons, Bool.or_eq_true, decide_eq_true_eq, List.map_cons,
      List.mem_cons] at ih ⊢
    rw [ih]
    constructor
    · rintro (h | h)
      · exact Or.inl h.symm
      · exact Or.inr h
    · rintro (h | h)
      · exact Or.inl h.symm
      · exact Or.inr h

theorem BoolMap.keys_set (m : BoolMap) (k : GoString) (v : Bool) :
    (BoolMap.set m k v).map Prod.fst
      = if k ∈ m.map Prod.fst then m.map Prod.fst else m.map Prod.fst ++ [k] := by
  induction m with
  | nil => simp [BoolMap.set]
  | cons p rest ih =>
    obtain ⟨k', v'⟩ := p
    by_cases h : k' = k
    · subst h
      simp [BoolMap.set]
    · have h' : ¬ k = k' := fun e => h e.symm
      simp only [BoolMap.set, h, if_false, List.map_cons, List.mem_cons, h', false_or, ih]
      split <;> simp

theorem BoolMap.mem_set (m : BoolMap) (k : GoString) (v : Bool)
    (hnd : (m.map Prod.fst).Nodup) (p : GoString × Bool) :
    p ∈ BoolMap.set m k v ↔ p = (k, v) ∨ (p ∈ m ∧ p.1 ≠ k) := by
  induction m with
  | nil => simp [BoolMap.set]
  | cons q rest ih =>
    obtain ⟨k', v'⟩ := q
    simp only [List.map_cons, List.nodup_cons] at hnd
    by_cases h : k' = k
    · subst h
      simp only [BoolMap.set, if_true, List.mem_cons]
      constructor
      · rintro (h1 | h1)
        · exact Or.inl h1
        · refine Or.inr ⟨Or.inr h1, ?_⟩
          intro e
          exact hnd.1 (e ▸ List.mem_map_of_mem Prod.fst h1)
      · rintro (h1 | ⟨h1 | h1, h2⟩)
        · exact Or.inl h1
        · exact absurd (by rw [h1]) h2
        · exact Or.inr h1
    · simp only [BoolMap.set, h, if_false, List.mem_cons, ih hnd.2]
      constructor
      · rintro (h1 | h1 | ⟨h1, h2⟩)
        · exact Or.inr ⟨Or.inl h1, by rw [h1]; exact h⟩
        · exact Or.inl h1
        · exact Or.inr ⟨Or.inr h1, h2⟩
      · rintro (h1 | ⟨h1 | h1, h2⟩)
        · exact Or.inr (Or.inl h1)
        · exact Or.inl h1
        · exact Or.inr (Or.inr ⟨h1, h2⟩)

theorem BoolMap.nodup_set (m : BoolMap) (k : GoString) (v : Bool)
    (hnd : (m.map Prod.fst).Nodup) : ((BoolMap.set m k v).map Prod.fst).Nodup := by
  rw [BoolMap.keys_set]
  split
  · exact hnd
  · rename_i h
    rw [List.nodup_append]
    refine ⟨hnd, List.nodup_singleton k, ?_⟩
    intro a ha hb
    rw [List.mem_singleton] at hb
    exact h (hb ▸ ha)

theorem BoolMap.mem_keys_set (m : BoolMap) (k : GoString) (v : Bool) (k' : GoString) :
    k' ∈ (BoolMap.set m k v).map Prod.fst ↔ k' ∈ m.map Prod.fst ∨ k' = k := by
  rw [BoolMap.keys_set]
  split
  · rename_i h
    constructor
    · exact Or.inl
    · rintro (h1 | h1)
      · exact h1
      · exact h1 ▸ h
  · simp

/-- The map built from the declared invocations has one entry per declared
id, each with the value `false`. -/
theorem collectExpected_fold (calls : List ToolCall) (acc : BoolMap)
    (hnd : (acc.map Prod.fst).Nodup) (hf : ∀ p ∈ acc, p.2 = false) :
    ((calls.foldl (fun m tc => BoolMap.set m tc.ID false) acc).map Prod.fst).Nodup
    ∧ (∀ p ∈ calls.foldl (fun m tc => BoolMap.set m tc.ID false) acc, p.2 = false)
    ∧ ∀ k, k ∈ (calls.foldl (fun m tc => BoolMap.set m tc.ID false) acc).map Prod.fst
        ↔ k ∈ acc.map Prod.fst ∨ ∃ tc ∈ calls, tc.ID = k := by
  induction calls generalizing acc with
  | nil => exact ⟨hnd, hf, fun k => by simp⟩
  | cons tc rest ih =>
    have hnd' := BoolMap.nodup_set acc tc.ID false hnd
    have hf' : ∀ p ∈ BoolMap.set acc tc.ID false, p.2 = false := by
      intro p hp
      rcases (BoolMap.mem_set acc tc.ID false hnd p).1 hp with h | h
      · rw [h]
      · exact hf p h.1
    obtain ⟨h1, h2, h3⟩ := ih (BoolMap.set acc tc.ID false) hnd' hf'
    refine ⟨h1, h2, ?_⟩
    intro k
    rw [List.foldl_cons, h3 k, BoolMap.mem_keys_set]
    constructor
    · rintro ((h | h) | ⟨tc', h, h'⟩)
      · exact Or.inl h
      · exact Or.inr ⟨tc, List.mem_cons_self _ _, h.symm⟩
      · exact Or.inr ⟨tc', List.mem_cons_of_mem _ h, h'⟩
    · rintro (h | ⟨tc', h, h'⟩)
      · exact Or.inl (Or.inl h)
      · rcases List.mem_cons.1 h with e | e
        · exact Or.inl (Or.inr (by rw [← h', e]))
        · exact Or.inr ⟨tc', e, h'⟩

theorem collectExpected_spec (calls : List ToolCall) :
    ((collectExpected calls).map Prod.fst).Nodup
    ∧ (∀ p ∈ collectExpected calls, p.2 = false)
    ∧ ∀ k, k ∈ (collectExpected calls).map Prod.fst ↔ ∃ tc ∈ calls, tc.ID = k := by
  have h := collectExpected_fold calls [] (by simp) (by simp)
  refine ⟨h.1, h.2.1, ?_⟩
  intro k
  have := h.2.2 k
  simpa using this

/-- One pass of the look-ahead body: the keys of the map do not change. -/
theorem mark_keys (m : BoolMap) (id : GoString) :
    (if BoolMap.has m id then BoolMap.set m id true else m).map Prod.fst = m.map Prod.fst := by
  split
  · rename_i h
    rw [BoolMap.keys_set, if_pos ((BoolMap.has_iff m id).1 h)]
  · rfl

theorem mark_mem (m : BoolMap) (hnd : (m.map Prod.fst).Nodup) (id k : GoString) (v : Bool) :
    (k, v) ∈ (if BoolMap.has m id then BoolMap.set m id true else m)
      ↔ (k = id ∧ v = true ∧ id ∈ m.map Prod.fst) ∨ ((k, v) ∈ m ∧ k ≠ id) := by
  by_cases hh : BoolMap.has m id = true
  · have hk := (BoolMap.has_iff m id).1 hh
    rw [if_pos hh, BoolMap.mem_set m id true hnd]
    simp only [Prod.mk.injEq]
    constructor
    · rintro (⟨h1, h2⟩ | h)
      · exact Or.inl ⟨h1, h2, hk⟩
      · exact Or.inr h
    · rintro (⟨h1, h2, _⟩ | h)
      · exact Or.inl ⟨h1, h2⟩
      · exact Or.inr h
  · have hk : id ∉ m.map Prod.fst := fun h => hh ((BoolMap.has_iff m id).2 h)
    rw [if_neg hh]
    constructor
    · intro h
      refine Or.inr ⟨h, ?_⟩
      intro e
      exact hk (e ▸ List.mem_map_of_mem Prod.fst h)
    · rintro (⟨_, _, h3⟩ | h)
      · exact absurd h3 hk
      · exact h.1

/-- What the look-ahead loop returns: the tool-role run that follows, the
messages after it, and a map in which an id is marked found exactly when it
was found before or some message of the run carries it. -/
theorem lookAhead_spec (rest : List Message) (m : BoolMap) (hnd : (m.map Prod.fst).Nodup) :
    (lookAhead rest m).2.1 = rest.takeWhile isTool
    ∧ (lookAhead rest m).2.2 = rest.dropWhile isTool
    ∧ ∀ k v, (k, v) ∈ (lookAhead rest m).1
        ↔ (k ∈ m.map Prod.fst ∧ v = true ∧ ∃ t ∈ rest.takeWhile isTool, t.ToolCallID = k)
          ∨ ((k, v) ∈ m ∧ ∀ t ∈ rest.takeWhile isTool, t.ToolCallID ≠ k) := by
  induction rest generalizing m with
  | nil => simp [lookAhead]
  | cons h t ih =>
    by_cases hr : h.Role = go "tool"
    · have hT : isTool h = true := by simp [isTool, hr]
      have hnd' : ((if BoolMap.has m h.ToolCallID then BoolMap.set m h.ToolCallID true
          else m).map Prod.fst).Nodup := by
        rw [mark_keys]; exact hnd
      obtain ⟨h1, h2, h3⟩ := ih _ hnd'
      simp only [lookAhead, hr, if_true, List.takeWhile_cons, hT, List.dropWhile_cons]
      refine ⟨by rw [h1], h2, ?_⟩
      intro k v
      rw [h3 k v, mark_keys, mark_mem m hnd]
      simp only [List.mem_cons, exists_eq_or_imp, forall_eq_or_imp]
      constructor
      · rintro (⟨a, b, c⟩ | ⟨(⟨a, b, c⟩ | ⟨a, b⟩), d⟩)
        · exact Or.inl ⟨a, b, Or.inr c⟩
        · exact Or.inl ⟨a ▸ c, b, Or.inl a.symm⟩
        · exact Or.inr ⟨a, fun e => b e.symm, d⟩
      · rintro (⟨a, b, (c | c)⟩ | ⟨a, b, d⟩)
        · by_cases hx : ∃ t' ∈ List.takeWhile isTool t, t'.ToolCallID = k
          · exact Or.inl ⟨a, b, hx⟩
          · refine Or.inr ⟨Or.inl ⟨c.symm, b, c ▸ a⟩, ?_⟩
            intro t' ht' e
            exact hx ⟨t', ht', e⟩
        · exact Or.inl ⟨a, b, c⟩
        · exact Or.inr ⟨Or.inr ⟨a, fun e => b e.symm⟩, d⟩
    · have hT : isTool h = false := by simp [isTool, hr]
      simp only [lookAhead, hr, if_false, List.takeWhile_cons, hT, List.dropWhile_cons]
      simp

/-- The look-ahead of `sanitizeHistory` finds all declared ids exactly when
each of them is carried by a message of the tool-role run. -/
theorem allFound_lookAhead (a : Message) (rest : List Message) :
    allFound (lookAhead rest (collectExpected a.ToolCalls)).1 = true
      ↔ answered a (rest.takeWhile isTool) := by
  obtain ⟨c1, c2, c3⟩ := collectExpected_spec a.ToolCalls
  obtain ⟨_, _, h3⟩ := lookAhead_spec rest (collectExpected a.ToolCalls) c1
  simp only [allFound, List.all_eq_true, answered]
  constructor
  · intro h tc htc
    by_contra hno
    have hk : tc.ID ∈ (collectExpected a.ToolCalls).map Prod.fst := (c3 tc.ID).2 ⟨tc, htc, rfl⟩
    obtain ⟨p, hp, hpk⟩ := List.mem_map.1 hk
    have hp2 : p = (tc.ID, false) := by
      have := c2 p hp
      exact Prod.ext hpk this
    have hmem : (tc.ID, false) ∈ (lookAhead rest (collectExpected a.ToolCalls)).1 := by
      rw [h3]
      refine Or.inr ⟨hp2 ▸ hp, ?_⟩
      intro t ht e
      exact hno ⟨t, ht, e⟩
    have := h _ hmem
    simp at this
  · intro h p hp
    obtain ⟨k, v⟩ := p
    rcases (h3 k v).1 hp with ⟨_, hv, _⟩ | ⟨hm, hno⟩
    · exact hv
    · have hk : k ∈ (collectExpected a.ToolCalls).map Prod.fst :=
        List.mem_map.2 ⟨(k, v), hm, rfl⟩
      obtain ⟨tc, htc, e⟩ := (c3 k).1 hk
      obtain ⟨t, ht, e'⟩ := h tc htc
      exact absurd (e'.trans e) (hno t ht)

/-! ### The main loop -/

theorem lookAhead_run (rest : List Message) (m : BoolMap) :
    (lookAhead rest m).2.1 = rest.takeWhile isTool
    ∧ (lookAhead rest m).2.2 = rest.dropWhile isTool := by
  induction rest generalizing m with
  | nil => simp [lookAhead]
  | cons h t ih =>
    by_cases hr : h.Role = go "tool"
    · have hT : isTool h = true := by simp [isTool, hr]
      obtain ⟨h1, h2⟩ := ih (if BoolMap.has m h.ToolCallID then BoolMap.set m h.ToolCallID true
          else m)
      simp only [lookAhead, hr, if_true, List.takeWhile_cons, hT, List.dropWhile_cons]
      exact ⟨by rw [h1], h2⟩
    · have hT : isTool h = false := by simp [isTool, hr]
      simp [lookAhead, hr, List.takeWhile_cons, hT, List.dropWhile_cons]

theorem length_dropWhile_le (p : Message → Bool) (l : List Message) :
    (l.dropWhile p).length ≤ l.length := by
  induction l with
  | nil => simp
  | cons a t ih =>
    rw [List.dropWhile_cons]
    split
    · exact Nat.le_succ_of_le ih
    · exact Nat.le_refl _

/-- The accumulator `result` is only ever appended to. -/
theorem sanitizeLoop_acc (fuel : Nat) (rest result : List Message) :
    sanitizeLoop fuel rest result = result ++ sanitizeLoop fuel rest [] := by
  induction fuel generalizing rest result with
  | zero => simp [sanitizeLoop]
  | succ n ih =>
    cases rest with
    | nil => simp [sanitizeLoop]
    | cons msg t =>
      simp only [sanitizeLoop]
      split
      · exact ih _ _
      · split
        · split
          · rw [ih _ (result ++ [msg] ++ _), ih _ ([] ++ [msg] ++ _)]
            simp
          · exact ih _ _
        · rw [ih _ (result ++ [msg]), ih _ ([] ++ [msg])]
          simp

/-- Fuel adequacy: any amount of fuel that is at least the number of
messages left gives the same result, so the loop never stops for lack of it. -/
theorem sanitizeLoop_fuel (f1 f2 : Nat) (rest result : List Message)
    (h1 : rest.length ≤ f1) (h2 : rest.length ≤ f2) :
    sanitizeLoop f1 rest result = sanitizeLoop f2 rest result := by
  induction f1 generalizing f2 rest result with
  | zero =>
    have : rest = [] := List.eq_nil_of_length_eq_zero (Nat.le_zero.1 h1)
    subst this
    cases f2 <;> simp [sanitizeLoop]
  | succ n ih =>
    cases rest with
    | nil => cases f2 <;> simp [sanitizeLoop]
    | cons msg t =>
      cases f2 with
      | zero => simp at h2
      | succ k =>
        simp only [List.length_cons, Nat.add_le_add_iff_right] at h1 h2
        have hd : ∀ m, (lookAhead t m).2.2.length ≤ t.length := by
          intro m
          rw [(lookAhead_run t m).2]
          exact length_dropWhile_le _ _
        simp only [sanitizeLoop]
        split
        · exact ih _ _ _ h1 h2
        · split
          · split
            · exact ih _ _ _ (Nat.le_trans (hd _) h1) (Nat.le_trans (hd _) h2)
            · exact ih _ _ _ (Nat.le_trans (hd _) h1) (Nat.le_trans (hd _) h2)
          · exact ih _ _ _ h1 h2

theorem sanitizeHistory_nil : sanitizeHistory [] = [] := rfl

theorem sanitizeLoop_eq (fuel : Nat) (h : List Message) (hf : h.length ≤ fuel) :
    sanitizeLoop fuel h [] = sanitizeHistory h := by
  unfold sanitizeHistory
  split
  · rename_i h0
    have : h = [] := List.eq_nil_of_length_eq_zero h0
    subst this
    cases fuel <;> simp [sanitizeLoop]
  · exact sanitizeLoop_fuel _ _ _ _ hf (Nat.le_refl _)

/-- An orphaned tool message is skipped. -/
theorem sanitizeHistory_tool (m : Message) (rest : List Message) (hm : isTool m = true) :
    sanitizeHistory (m :: rest) = sanitizeHistory rest := by
  have hr : m.Role = go "tool" := by simpa [isTool] using hm
  rw [← sanitizeLoop_eq (rest.length + 1) (m :: rest) (by simp),
    ← sanitizeLoop_eq (rest.length) rest (Nat.le_refl _)]
  simp only [sanitizeLoop, hr, if_true]

/-- A message that is neither tool-role nor an assistant message with
invocations is kept. -/
theorem sanitizeHistory_plain (m : Message) (rest : List Message)
    (hm : isTool m = false) (hc : hasCalls m = false) :
    sanitizeHistory (m :: rest) = m :: sanitizeHistory rest := by
  have hr : ¬ m.Role = go "tool" := by simpa [isTool] using hm
  have hc' : ¬ (m.Role = go "assistant" ∧ m.ToolCalls.length > 0) := by
    simpa [hasCalls] using hc
  rw [← sanitizeLoop_eq (rest.length + 1) (m :: rest) (by simp),
    ← sanitizeLoop_eq (rest.length) rest (Nat.le_refl _)]
  simp only [sanitizeLoop, hr, hc', if_false]
  rw [sanitizeLoop_acc]
  simp

theorem hasCalls_not_tool (a : Message) (ha : hasCalls a = true) : isTool a = false := by
  simp only [hasCalls, decide_eq_true_eq] at ha
  simp only [isTool, decide_eq_false_iff_not, ha.1]
  decide

/-- A block whose declared ids are all answered in the following tool-role
run is emitted whole. -/
theorem sanitizeHistory_keep (a : Message) (rest : List Message)
    (ha : hasCalls a = true) (hans : answered a (rest.takeWhile isTool)) :
    sanitizeHistory (a :: rest)
      = a :: rest.takeWhile isTool ++ sanitizeHistory (rest.dropWhile isTool) := by
  have hr : ¬ a.Role = go "tool" := by simpa [isTool] using hasCalls_not_tool a ha
  have hc : a.Role = go "assistant" ∧ a.ToolCalls.length > 0 := by simpa [hasCalls] using ha
  have hall := (allFound_lookAhead a rest).2 hans
  have hrun := lookAhead_run rest (collectExpected a.ToolCalls)
  rw [← sanitizeLoop_eq (rest.length + 1) (a :: rest) (by simp),
    ← sanitizeLoop_eq (rest.length) (rest.dropWhile isTool) (length_dropWhile_le _ _)]
  have hne : ¬ go "assistant" = go "tool" := by decide
  simp only [sanitizeLoop, hc, hne, if_false, if_true, and_self, hall, hrun.1, hrun.2]
  rw [sanitizeLoop_acc]
  simp

/-- A block with a declared id that no message of the following tool-role
run answers is skipped together with that run. -/
theorem sanitizeHistory_drop (a : Message) (rest : List Message)
    (ha : hasCalls a = true) (hans : ¬ answered a (rest.takeWhile isTool)) :
    sanitizeHistory (a :: rest) = sanitizeHistory (rest.dropWhile isTool) := by
  have hr : ¬ a.Role = go "tool" := by simpa [isTool] using hasCalls_not_tool a ha
  have hc : a.Role = go "assistant" ∧ a.ToolCalls.length > 0 := by simpa [hasCalls] using ha
  have hall : ¬ allFound (lookAhead rest (collectExpected a.ToolCalls)).1 = true :=
    fun h => hans ((allFound_lookAhead a rest).1 h)
  have hrun := lookAhead_run rest (collectExpected a.ToolCalls)
  rw [← sanitizeLoop_eq (rest.length + 1) (a :: rest) (by simp),
    ← sanitizeLoop_eq (rest.length) (rest.dropWhile isTool) (length_dropWhile_le _ _)]
  have hne : ¬ go "assistant" = go "tool" := by decide
  have hall' : allFound (lookAhead rest (collectExpected a.ToolCalls)).1 = false := by
    simpa using hall
  simp only [sanitizeLoop, hc, hne, if_false, if_true, and_self, hall', hrun.2]
  simp

/-! ### Splitting a history at a message that is not tool-role -/

theorem takeWhile_append_head (l rest : List Message)
    (hrest : ∀ m, rest.head? = some m → isTool m = false) :
    (l ++ rest).takeWhile isTool = l.takeWhile isTool
    ∧ (l ++ rest).dropWhile isTool = l.dropWhile isTool ++ rest := by
  induction l with
  | nil =>
    cases rest with
    | nil => simp
    | cons x xs =>
      have hx := hrest x rfl
      simp [List.takeWhile_cons, List.dropWhile_cons, hx]
  | cons a t ih =>
    by_cases ha : isTool a = true
    · simp [List.takeWhile_cons, List.dropWhile_cons, ha, ih.1, ih.2]
    · have ha' : isTool a = false := by simpa using ha
      simp [List.takeWhile_cons, List.dropWhile_cons, ha']

theorem takeWhile_all (run : List Message) (hrun : ∀ m ∈ run, isTool m = true) :
    run.takeWhile isTool = run ∧ run.dropWhile isTool = [] := by
  induction run with
  | nil => simp
  | cons a t ih =>
    have ha := hrun a (List.mem_cons_self _ _)
    have ht := ih (fun m hm => hrun m (List.mem_cons_of_mem _ hm))
    simp [List.takeWhile_cons, List.dropWhile_cons, ha, ht.1, ht.2]

theorem takeWhile_run_append (run rest : List Message)
    (hrun : ∀ m ∈ run, isTool m = true)
    (hrest : ∀ m, rest.head? = some m → isTool m = false) :
    (run ++ rest).takeWhile isTool = run ∧ (run ++ rest).dropWhile isTool = rest := by
  have h := takeWhile_append_head run rest hrest
  have h' := takeWhile_all run hrun
  rw [h.1, h.2, h'.1, h'.2]
  simp

theorem head_dropWhile (l : List Message) :
    ∀ m, (l.dropWhile isTool).head? = some m → isTool m = false := by
  induction l with
  | nil => simp
  | cons a t ih =>
    intro m hm
    rw [List.dropWhile_cons] at hm
    split at hm
    · exact ih m hm
    · rename_i ha
      simp only [List.head?_cons, Option.some.injEq] at hm
      subst hm
      simpa using ha

/-- The scan is compositional at every position where the next message is not
tool-role: what precedes it and what follows are sanitised independently. -/
theorem sanitizeHistory_append (pre rest : List Message)
    (hrest : ∀ m, rest.head? = some m → isTool m = false) :
    sanitizeHistory (pre ++ rest) = sanitizeHistory pre ++ sanitizeHistory rest := by
  generalize hn : pre.length = n
  induction n using Nat.strong_induction_on generalizing pre with
  | _ n ih =>
    cases pre with
    | nil => simp [sanitizeHistory_nil]
    | cons m t =>
      subst hn
      by_cases hm : isTool m = true
      · rw [List.cons_append, sanitizeHistory_tool m _ hm, sanitizeHistory_tool m _ hm]
        exact ih t.length (by simp) t rfl
      · have hm' : isTool m = false := by simpa using hm
        by_cases hc : hasCalls m = true
        · have hsplit := takeWhile_append_head t rest hrest
          have hlen : (t.dropWhile isTool).length < (m :: t).length := by
            have := length_dropWhile_le isTool t
            simp only [List.length_cons]
            omega
          have hrec := ih _ hlen (t.dropWhile isTool) rfl
          by_cases hans : answered m (t.takeWhile isTool)
          · rw [List.cons_append, sanitizeHistory_keep m _ hc (by rw [hsplit.1]; exact hans),
              sanitizeHistory_keep m _ hc hans, hsplit.1, hsplit.2, hrec]
            simp
          · rw [List.cons_append, sanitizeHistory_drop m _ hc (by rw [hsplit.1]; exact hans),
              sanitizeHistory_drop m _ hc hans, hsplit.2, hrec]
        · have hc' : hasCalls m = false := by simpa using hc
          rw [List.cons_append, sanitizeHistory_plain m _ hm' hc',
            sanitizeHistory_plain m _ hm' hc']
          rw [ih t.length (by simp) t rfl]
          simp

/-- Induction along the scan: a relation between histories and outputs that
holds for the empty history and is preserved by each of the four kinds of
step holds between every history and its sanitised form. -/
theorem sanitizeHistory_induction (P : List Message → List Message → Prop)
    (hnil : P [] [])
    (htool : ∀ m rest out, isTool m = true → P rest out → P (m :: rest) out)
    (hplain : ∀ m rest out, isTool m = false → hasCalls m = false → P rest out →
      P (m :: rest) (m :: out))
    (hkeep : ∀ a run rest out, hasCalls a = true → (∀ m ∈ run, isTool m = true) →
      (∀ m, rest.head? = some m → isTool m = false) → answered a run → P rest out →
      P (a :: (run ++ rest)) (a :: (run ++ out)))
    (hdrop : ∀ a run rest out, hasCalls a = true → (∀ m ∈ run, isTool m = true) →
      (∀ m, rest.head? = some m → isTool m = false) → ¬ answered a run → P rest out →
      P (a :: (run ++ rest)) out)
    (h : List Message) : P h (sanitizeHistory h) := by
  generalize hn : h.length = n
  induction n using Nat.strong_induction_on generalizing h with
  | _ n ih =>
    cases h with
    | nil => exact hnil
    | cons m t =>
      subst hn
      by_cases hm : isTool m = true
      · rw [sanitizeHistory_tool m _ hm]
        exact htool m t _ hm (ih t.length (by simp) t rfl)
      · have hm' : isTool m = false := by simpa using hm
        by_cases hc : hasCalls m = true
        · have hlen : (t.dropWhile isTool).length < (m :: t).length := by
            have := length_dropWhile_le isTool t
            simp only [List.length_cons]
            omega
          have hrec := ih _ hlen (t.dropWhile isTool) rfl
          have hrun : ∀ x ∈ t.takeWhile isTool, isTool x = true :=
            fun x hx => List.mem_takeWhile_imp hx
          have ht : m :: t = m :: (t.takeWhile isTool ++ t.dropWhile isTool) := by
            rw [List.takeWhile_append_dropWhile]
          by_cases hans : answered m (t.takeWhile isTool)
          · rw [sanitizeHistory_keep m _ hc hans, ht]
            exact hkeep m _ _ _ hc hrun (head_dropWhile t) hans hrec
          · rw [sanitizeHistory_drop m _ hc hans, ht]
            exact hdrop m _ _ _ hc hrun (head_dropWhile t) hans hrec
        · have hc' : hasCalls m = false := by simpa using hc
          rw [sanitizeHistory_plain m _ hm' hc']
          exact hplain m t _ hm' hc' (ih t.length (by simp) t rfl)

/-! ### Tool-call blocks -/

theorem isTool_of_role (m : Message) (h : m.Role = go "tool") : isTool m = true := by
  simp [isTool, h]

theorem hasCalls_of_role (a : Message) (ha : a.Role = go "assistant")
    (hcalls : a.ToolCalls.length > 0) : hasCalls a = true := by
  simp only [hasCalls, decide_eq_true_eq]
  exact ⟨ha, hcalls⟩

theorem not_tool_head (post : List Message)
    (hpost : ∀ m, post.head? = some m → m.Role ≠ go "tool") :
    ∀ m, post.head? = some m → isTool m = false := by
  intro m hm
  simpa [isTool] using hpost m hm

theorem answered_of_answeredOnce (a : Message) (run : List Message)
    (h : answeredOnce a run) : answered a run := by
  intro tc htc
  have h1 := h tc htc
  have hpos : 0 < (run.filter (fun t => decide (t.ToolCallID = tc.ID))).length := by
    rw [h1]; exact Nat.one_pos
  obtain ⟨t, ht⟩ := List.exists_mem_of_length_pos hpos
  rw [List.mem_filter] at ht
  exact ⟨t, ht.1, by simpa using ht.2⟩

/-- Splitting a history at an assistant message with invocations whose
tool-role run is `run`. -/
theorem sanitizeHistory_block (pre run post : List Message) (a : Message)
    (ha : hasCalls a = true) (hrun : ∀ m ∈ run, isTool m = true)
    (hpost : ∀ m, post.head? = some m → isTool m = false) :
    sanitizeHistory (pre ++ [a] ++ run ++ post)
      = sanitizeHistory pre ++ sanitizeHistory (a :: (run ++ post))
    ∧ (run ++ post).takeWhile isTool = run ∧ (run ++ post).dropWhile isTool = post := by
  have h1 : pre ++ [a] ++ run ++ post = pre ++ (a :: (run ++ post)) := by simp
  have h2 : ∀ m, (a :: (run ++ post)).head? = some m → isTool m = false := by
    intro m hm
    simp only [List.head?_cons, Option.some.injEq] at hm
    subst hm
    exact hasCalls_not_tool _ ha
  rw [h1, sanitizeHistory_append pre _ h2]
  exact ⟨rfl, takeWhile_run_append run post hrun hpost⟩

/-- C1: in a history `pre ++ [a] ++ run ++ post`, where `a` is an assistant
message with at least one tool invocation, `run` is the whole run of tool-role
messages that follows it (`post` is empty or starts with a message that is not
tool-role) and some id declared by `a` is the `ToolCallID` of no message of
`run`, neither `a` nor any message of `run` is emitted: the result is
`sanitizeHistory pre ++ sanitizeHistory post`. -/
theorem sanitizeHistory_incomplete_block (pre run post : List Message) (a : Message)
    (ha : a.Role = go "assistant") (hcalls : a.ToolCalls.length > 0)
    (hrun : ∀ m ∈ run, m.Role = go "tool")
    (hpost : ∀ m, post.head? = some m → m.Role ≠ go "tool")
    (hmiss : ∃ tc ∈ a.ToolCalls, ∀ m ∈ run, m.ToolCallID ≠ tc.ID) :
    sanitizeHistory (pre ++ [a] ++ run ++ post)
      = sanitizeHistory pre ++ sanitizeHistory post := by
  have hc := hasCalls_of_role a ha hcalls
  obtain ⟨h1, h2, h3⟩ := sanitizeHistory_block pre run post a hc
    (fun m hm => isTool_of_role m (hrun m hm)) (not_tool_head post hpost)
  have hno : ¬ answered a ((run ++ post).takeWhile isTool) := by
    rw [h2]
    intro hans
    obtain ⟨tc, htc, hne⟩ := hmiss
    obtain ⟨t, ht, e⟩ := hans tc htc
    exact hne t ht e
  rw [h1, sanitizeHistory_drop a _ hc hno, h3]

/-- C1, the example of the specification: `[user, assistant(tool_calls=[A,B]),
tool(A)]`, where `B` is never answered, sanitises to `[user]`. -/
theorem sanitizeHistory_incomplete_block_witness :
    (∃ tc ∈ (mkAssistant [go "A", go "B"]).ToolCalls,
        ∀ m ∈ [mkTool (go "A")], m.ToolCallID ≠ tc.ID)
    ∧ sanitizeHistory ([mkUser (go "hi")] ++ [mkAssistant [go "A", go "B"]]
        ++ [mkTool (go "A")] ++ []) = [mkUser (go "hi")] := by
  have hmiss : ∃ tc ∈ (mkAssistant [go "A", go "B"]).ToolCalls,
      ∀ m ∈ [mkTool (go "A")], m.ToolCallID ≠ tc.ID := by decide
  refine ⟨hmiss, ?_⟩
  rw [sanitizeHistory_incomplete_block [mkUser (go "hi")] [mkTool (go "A")] []
    (mkAssistant [go "A", go "B"]) (by decide) (by decide) (by decide) (by decide) hmiss]
  decide

/-- C2: in a history `pre ++ [a] ++ run ++ post`, where `a` is an assistant
message with at least one tool invocation, `run` is the whole run of tool-role
messages that follows it and every id declared by `a` is the `ToolCallID` of
exactly one message of `run`, the block is emitted unchanged, in order and
contiguous: the result is `sanitizeHistory pre ++ [a] ++ run ++ sanitizeHistory post`. -/
theorem sanitizeHistory_complete_block (pre run post : List Message) (a : Message)
    (ha : a.Role = go "assistant") (hcalls : a.ToolCalls.length > 0)
    (hrun : ∀ m ∈ run, m.Role = go "tool")
    (hpost : ∀ m, post.head? = some m → m.Role ≠ go "tool")
    (honce : answeredOnce a run) :
    sanitizeHistory (pre ++ [a] ++ run ++ post)
      = sanitizeHistory pre ++ [a] ++ run ++ sanitizeHistory post := by
  have hc := hasCalls_of_role a ha hcalls
  obtain ⟨h1, h2, h3⟩ := sanitizeHistory_block pre run post a hc
    (fun m hm => isTool_of_role m (hrun m hm)) (not_tool_head post hpost)
  have hans : answered a ((run ++ post).takeWhile isTool) := by
    rw [h2]
    exact answered_of_answeredOnce a run honce
  rw [h1, sanitizeHistory_keep a _ hc hans, h2, h3]
  simp

/-- C2 at `[user, assistant(tool_calls=[A,B]), tool(B), tool(A), user]`: the
block is complete (answers in any order) and the history is returned as it is. -/
theorem sanitizeHistory_complete_block_witness :
    answeredOnce (mkAssistant [go "A", go "B"]) [mkTool (go "B"), mkTool (go "A")]
    ∧ sanitizeHistory ([mkUser (go "hi")] ++ [mkAssistant [go "A", go "B"]]
        ++ [mkTool (go "B"), mkTool (go "A")] ++ [mkUser (go "more")])
      = [mkUser (go "hi"), mkAssistant [go "A", go "B"], mkTool (go "B"), mkTool (go "A"),
          mkUser (go "more")] := by
  have honce : answeredOnce (mkAssistant [go "A", go "B"])
      [mkTool (go "B"), mkTool (go "A")] := by
    unfold answeredOnce
    decide
  refine ⟨honce, ?_⟩
  rw [sanitizeHistory_complete_block [mkUser (go "hi")] [mkTool (go "B"), mkTool (go "A")]
    [mkUser (go "more")] (mkAssistant [go "A", go "B"]) (by decide) (by decide) (by decide)
    (by decide) honce]
  decide

/-- C3: the history `[assistant(tool_calls=[A]), tool(A), tool(Z)]` is returned
whole: the tool message answering `Z` is emitted although the assistant message
heading its run declares only `A`. -/
theorem sanitizeHistory_keeps_undeclared_answer :
    sanitizeHistory [mkAssistant [go "A"], mkTool (go "A"), mkTool (go "Z")]
      = [mkAssistant [go "A"], mkTool (go "A"), mkTool (go "Z")]
    ∧ ∀ tc ∈ (mkAssistant [go "A"]).ToolCalls, (mkTool (go "Z")).ToolCallID ≠ tc.ID := by
  decide

theorem takeWhile_append_run (run out : List Message) (hrun : ∀ m ∈ run, isTool m = true) :
    (run ++ out).takeWhile isTool = run ++ out.takeWhile isTool := by
  induction run with
  | nil => rfl
  | cons x xs ih =>
    have hx := hrun x (List.mem_cons_self _ _)
    rw [List.cons_append, List.takeWhile_cons, hx, if_pos rfl,
      ih (fun m hm => hrun m (List.mem_cons_of_mem _ hm))]
    rfl

/-- Where a non-tool message sits in `run ++ out`, for a tool-role `run`. -/
theorem split_after_run (run out l1 l2 : List Message) (a : Message)
    (hrun : ∀ m ∈ run, isTool m = true) (ha : isTool a = false)
    (h : run ++ out = l1 ++ a :: l2) :
    ∃ c, l1 = run ++ c ∧ out = c ++ a :: l2 := by
  rcases List.append_eq_append_iff.1 h with ⟨c, h1, h2⟩ | ⟨c, h1, h2⟩
  · exact ⟨c, h1, h2⟩
  · cases c with
    | nil =>
      refine ⟨[], ?_, ?_⟩
      · simpa using h1.symm
      · simpa using h2.symm
    | cons x c' =>
      simp only [List.cons_append, List.cons.injEq] at h2
      have hx : x ∈ run := by rw [h1]; simp
      have := hrun x hx
      rw [← h2.1, ha] at this
      exact absurd this (by decide)

/-- C4, as the code has it: whenever an assistant message carrying tool
invocations appears in `sanitizeHistory history`, each id it declares is the
`ToolCallID` of at least one tool message in the contiguous tool-role run that
immediately follows it in the output. -/
theorem sanitizeHistory_blocks_answered (history l1 l2 : List Message) (a : Message)
    (hout : sanitizeHistory history = l1 ++ a :: l2) (ha : hasCalls a = true) :
    answered a (l2.takeWhile isTool) := by
  have key := sanitizeHistory_induction
    (fun _ out => ∀ l1 a l2, out = l1 ++ a :: l2 → hasCalls a = true →
      answered a (l2.takeWhile isTool))
    (by intro l1 a l2 h; simp at h)
    (fun _ _ _ _ ih => ih)
    (by
      intro m rest out _ hc ih l1 a l2 h ha
      cases l1 with
      | nil =>
        simp only [List.nil_append, List.cons.injEq] at h
        rw [h.1, ha] at hc
        exact absurd hc (by decide)
      | cons x l1' =>
        simp only [List.cons_append, List.cons.injEq] at h
        exact ih l1' a l2 h.2 ha)
    (by
      intro a0 run rest out _ hrun _ hans ih l1 a l2 h ha
      cases l1 with
      | nil =>
        simp only [List.nil_append, List.cons.injEq] at h
        rw [← h.1, ← h.2, takeWhile_append_run run out hrun]
        intro tc htc
        obtain ⟨t, ht, e⟩ := hans tc htc
        exact ⟨t, List.mem_append_left _ ht, e⟩
      | cons x l1' =>
        simp only [List.cons_append, List.cons.injEq] at h
        obtain ⟨c, _, h2⟩ := split_after_run run out l1' l2 a hrun
          (hasCalls_not_tool a ha) h.2
        exact ih c a l2 h2 ha)
    (fun _ _ _ _ _ _ _ _ ih => ih)
    history
  exact key l1 a l2 hout ha

/-- C4 at `[assistant(tool_calls=[A]), tool(A), tool(A)]`: the declared id is
answered in the run that follows the assistant message in the output. -/
theorem sanitizeHistory_blocks_answered_witness :
    answered (mkAssistant [go "A"]) ([mkTool (go "A"), mkTool (go "A")].takeWhile isTool) :=
  sanitizeHistory_blocks_answered [mkAssistant [go "A"], mkTool (go "A"), mkTool (go "A")]
    [] [mkTool (go "A"), mkTool (go "A")] (mkAssistant [go "A"]) (by decide) (by decide)

/-- C4 as stated fails: `[assistant(tool_calls=[A]), tool(A), tool(A)]` is
returned whole, and the id `A` is then the `ToolCallID` of two messages of
the run, not of exactly one. -/
theorem sanitizeHistory_repeated_answer_kept :
    ¬ (∀ l1 a l2,
        sanitizeHistory [mkAssistant [go "A"], mkTool (go "A"), mkTool (go "A")]
          = l1 ++ a :: l2 →
        hasCalls a = true → answeredOnce a (l2.takeWhile isTool)) := by
  intro H
  have h := H [] (mkAssistant [go "A"]) [mkTool (go "A"), mkTool (go "A")]
    (by decide) (by decide)
  have h1 := h { ID := go "A", Name := go "exec", Arguments := go "ls" } (by decide)
  revert h1
  decide

/-! ### Orphaned tool messages -/

theorem endsInBlock_cons (m : Message) (l : List Message) (h : endsInBlock l) :
    endsInBlock (m :: l) := by
  obtain ⟨p, a, r, h1, h2, h3⟩ := h
  exact ⟨m :: p, a, r, by rw [h1]; rfl, h2, h3⟩

theorem endsInBlock_append (pre l : List Message) (h : endsInBlock l) :
    endsInBlock (pre ++ l) := by
  obtain ⟨p, a, r, h1, h2, h3⟩ := h
  exact ⟨pre ++ p, a, r, by rw [h1]; simp, h2, h3⟩

/-- Every tool-role message of the output sits in a tool-role run headed by
an assistant message with invocations. -/
theorem sanitizeHistory_tool_in_block (history l1 l2 : List Message) (t : Message)
    (hout : sanitizeHistory history = l1 ++ t :: l2) (ht : isTool t = true) :
    endsInBlock l1 := by
  have key := sanitizeHistory_induction
    (fun _ out => ∀ l1 t l2, out = l1 ++ t :: l2 → isTool t = true → endsInBlock l1)
    (by intro l1 t l2 h; simp at h)
    (fun _ _ _ _ ih => ih)
    (by
      intro m rest out hm _ ih l1 t l2 h ht
      cases l1 with
      | nil =>
        simp only [List.nil_append, List.cons.injEq] at h
        rw [h.1, ht] at hm
        exact absurd hm (by decide)
      | cons x l1' =>
        simp only [List.cons_append, List.cons.injEq] at h
        exact endsInBlock_cons x l1' (ih l1' t l2 h.2 ht))
    (by
      intro a0 run rest out ha0 hrun _ _ ih l1 t l2 h ht
      cases l1 with
      | nil =>
        simp only [List.nil_append, List.cons.injEq] at h
        have := hasCalls_not_tool a0 ha0
        rw [h.1, ht] at this
        exact absurd this (by decide)
      | cons x l1' =>
        simp only [List.cons_append, List.cons.injEq] at h
        rcases List.append_eq_append_iff.1 h.2 with ⟨c, h1, h2⟩ | ⟨c, h1, _⟩
        · have hc := ih c t l2 h2 ht
          have := endsInBlock_append (a0 :: run) c hc
          rw [h1, ← h.1]
          simpa using this
        · refine ⟨[], a0, l1', by rw [h.1]; rfl, ha0, ?_⟩
          intro m hm
          exact hrun m (by rw [h1]; exact List.mem_append_left _ hm))
    (fun _ _ _ _ _ _ _ _ ih => ih)
    history
  exact key l1 t l2 hout ht

/-- A tool-role message that does not lie in the tool-role run directly after
an assistant message with invocations has no part in the output: the history
sanitises as it does with that message deleted. -/
theorem sanitizeHistory_orphan (l1 l2 : List Message) (t : Message)
    (ht : isTool t = true) (hl1 : ¬ endsInBlock l1) :
    sanitizeHistory (l1 ++ t :: l2) = sanitizeHistory (l1 ++ l2) := by
  generalize hn : l1.length = n
  induction n using Nat.strong_induction_on generalizing l1 with
  | _ n ih =>
    cases l1 with
    | nil => exact sanitizeHistory_tool t l2 ht
    | cons m l1' =>
      subst hn
      by_cases hm : isTool m = true
      · rw [List.cons_append, List.cons_append, sanitizeHistory_tool m _ hm,
          sanitizeHistory_tool m _ hm]
        exact ih l1'.length (by simp) l1' (fun h => hl1 (endsInBlock_cons m l1' h)) rfl
      · have hm' : isTool m = false := by simpa using hm
        by_cases hc : hasCalls m = true
        · have hd : l1'.dropWhile isTool ≠ [] := by
            intro hnil
            apply hl1
            refine ⟨[], m, l1', rfl, hc, ?_⟩
            intro x hx
            have hall : l1'.takeWhile isTool = l1' := by
              have := List.takeWhile_append_dropWhile isTool l1'
              rw [hnil, List.append_nil] at this
              exact this
            rw [← hall] at hx
            exact List.mem_takeWhile_imp hx
          have hhead : ∀ (y : List Message) x, (l1'.dropWhile isTool ++ y).head? = some x →
              isTool x = false := by
            intro y x hx
            cases hdw : l1'.dropWhile isTool with
            | nil => exact absurd hdw hd
            | cons z zs =>
              rw [hdw] at hx
              exact head_dropWhile l1' x (by rw [hdw]; exact hx)
          have hsplit : ∀ y : List Message,
              (l1' ++ y).takeWhile isTool = l1'.takeWhile isTool
              ∧ (l1' ++ y).dropWhile isTool = l1'.dropWhile isTool ++ y := by
            intro y
            have e : l1' ++ y = l1'.takeWhile isTool ++ (l1'.dropWhile isTool ++ y) := by
              rw [← List.append_assoc, List.takeWhile_append_dropWhile]
            have := takeWhile_run_append (l1'.takeWhile isTool) (l1'.dropWhile isTool ++ y)
              (fun x hx => List.mem_takeWhile_imp hx) (hhead y)
            rw [← e] at this
            exact this
          have hlen : (l1'.dropWhile isTool).length < (m :: l1').length := by
            have := length_dropWhile_le isTool l1'
            simp only [List.length_cons]
            omega
          have hnb : ¬ endsInBlock (l1'.dropWhile isTool) := by
            intro h
            apply hl1
            have := endsInBlock_append (m :: l1'.takeWhile isTool) _ h
            rw [List.cons_append, List.takeWhile_append_dropWhile] at this
            exact this
          have hrec := ih _ hlen (l1'.dropWhile isTool) hnb rfl
          by_cases hans : answered m (l1'.takeWhile isTool)
          · rw [List.cons_append, List.cons_append,
              sanitizeHistory_keep m _ hc (by rw [(hsplit _).1]; exact hans),
              sanitizeHistory_keep m _ hc (by rw [(hsplit _).1]; exact hans),
              (hsplit _).1, (hsplit _).2, (hsplit _).1, (hsplit _).2, hrec]
          · rw [List.cons_append, List.cons_append,
              sanitizeHistory_drop m _ hc (by rw [(hsplit _).1]; exact hans),
              sanitizeHistory_drop m _ hc (by rw [(hsplit _).1]; exact hans),
              (hsplit _).2, (hsplit _).2, hrec]
        · have hc' : hasCalls m = false := by simpa using hc
          rw [List.cons_append, List.cons_append, sanitizeHistory_plain m _ hm' hc',
            sanitizeHistory_plain m _ hm' hc']
          rw [ih l1'.length (by simp) l1' (fun h => hl1 (endsInBlock_cons m l1' h)) rfl]

/-- C5: every tool-role message of `sanitizeHistory history` lies in a
contiguous run of tool-role messages that directly follows, in the output, an
assistant message with at least one tool invocation; a tool-role message of
the input that does not lie in the tool-role run directly after such an
assistant message is removed (the history sanitises as if it were deleted);
the output never starts with a tool message; and `[tool(orphan)]` sanitises
to `[]`. -/
theorem sanitizeHistory_orphans_removed :
    (∀ (history l1 l2 : List Message) (t : Message),
        sanitizeHistory history = l1 ++ t :: l2 → isTool t = true → endsInBlock l1)
    ∧ (∀ (l1 l2 : List Message) (t : Message), isTool t = true → ¬ endsInBlock l1 →
        sanitizeHistory (l1 ++ t :: l2) = sanitizeHistory (l1 ++ l2))
    ∧ (∀ (history : List Message) (m : Message),
        (sanitizeHistory history).head? = some m → isTool m = false)
    ∧ (∀ t : Message, isTool t = true → sanitizeHistory [t] = []) := by
  refine ⟨sanitizeHistory_tool_in_block, ?_, ?_, ?_⟩
  · intro l1 l2 t ht h
    exact sanitizeHistory_orphan l1 l2 t ht h
  · intro history m hm
    cases hout : sanitizeHistory history with
    | nil => rw [hout] at hm; simp at hm
    | cons x xs =>
      rw [hout] at hm
      simp only [List.head?_cons, Option.some.injEq] at hm
      subst hm
      by_contra hx
      have hx' : isTool x = true := by simpa using hx
      obtain ⟨p, a, r, h1, _, _⟩ := sanitizeHistory_tool_in_block history [] xs x hout hx'
      simp at h1
  · intro t ht
    rw [sanitizeHistory_tool t [] ht]
    rfl

/-- C5 at the example of the specification: `[tool(orphan)]` sanitises to `[]`. -/
theorem sanitizeHistory_orphans_removed_witness :
    isTool (mkTool (go "orphan")) = true ∧ sanitizeHistory [mkTool (go "orphan")] = [] :=
  ⟨by decide, sanitizeHistory_orphans_removed.2.2.2 (mkTool (go "orphan")) (by decide)⟩

/-- C6: `sanitizeHistory history` is a subsequence of `history` (messages
unmodified, in their original relative order), and the messages that are
neither tool-role nor assistant messages with invocations are all kept:
filtering input and output down to those messages gives the same list. -/
theorem sanitizeHistory_sublist_and_plain_kept (history : List Message) :
    (sanitizeHistory history).Sublist history
    ∧ (sanitizeHistory history).filter isPlain = history.filter isPlain := by
  have hrunf : ∀ run : List Message, (∀ m ∈ run, isTool m = true) →
      run.filter isPlain = [] := by
    intro run hrun
    rw [List.filter_eq_nil_iff]
    intro m hm
    simp [isPlain, hrun m hm]
  have hblock : ∀ a : Message, hasCalls a = true → isPlain a = false := by
    intro a ha
    simp [isPlain, ha]
  exact sanitizeHistory_induction
    (fun h out => out.Sublist h ∧ out.filter isPlain = h.filter isPlain)
    ⟨List.Sublist.refl _, rfl⟩
    (by
      intro m rest out hm ih
      refine ⟨List.Sublist.cons m ih.1, ?_⟩
      have : isPlain m = false := by simp [isPlain, hm]
      rw [List.filter_cons, this, ih.2]
      simp)
    (by
      intro m rest out hm hc ih
      refine ⟨List.Sublist.cons₂ m ih.1, ?_⟩
      have : isPlain m = true := by simp [isPlain, hm, hc]
      rw [List.filter_cons, List.filter_cons, this, ih.2])
    (by
      intro a run rest out ha hrun _ _ ih
      refine ⟨List.Sublist.cons₂ a (List.Sublist.append (List.Sublist.refl run) ih.1), ?_⟩
      rw [List.filter_cons, List.filter_cons, hblock a ha, List.filter_append,
        List.filter_append, hrunf run hrun, ih.2])
    (by
      intro a run rest out ha hrun _ _ ih
      refine ⟨List.Sublist.cons a
        (List.Sublist.trans ih.1 (List.sublist_append_right run rest)), ?_⟩
      rw [List.filter_cons, hblock a ha, List.filter_append, hrunf run hrun, ih.2]
      simp)
    history

/-! ### `BuildMessages` -/

theorem buildParts_fold (media : List GoString) (acc : List ContentPart) :
    media.foldl
      (fun parts dataURI =>
        if HasPrefix dataURI (go "data:image/") then parts ++ [imagePart dataURI] else parts)
      acc
    = acc ++ (media.filter (fun d => HasPrefix d (go "data:image/"))).map imagePart := by
  induction media generalizing acc with
  | nil => simp
  | cons d rest ih =>
    rw [List.foldl_cons, ih]
    by_cases hd : HasPrefix d (go "data:image/") = true
    · simp [hd, List.filter_cons]
    · simp [hd, List.filter_cons]

/-- C7: `BuildMessages` returns exactly `[s] ++ sanitizeHistory history ++ [u]`,
where `s` has role `system` and a content that begins with the system prompt,
and `u` has role `user` and content `currentMessage`; the result has length
`len(sanitizeHistory history) + 2`. -/
theorem BuildMessages_shape (cb : ContextBuilder) (history : List Message)
    (summary currentMessage : GoString) (media : List GoString) (channel chatID : GoString) :
    ∃ s u : Message,
      BuildMessages cb history summary currentMessage media channel chatID
        = [s] ++ sanitizeHistory history ++ [u]
      ∧ s.Role = go "system"
      ∧ (∃ footer, s.Content = BuildSystemPrompt cb ++ footer)
      ∧ u.Role = go "user"
      ∧ u.Content = currentMessage
      ∧ (BuildMessages cb history summary currentMessage media channel chatID).length
          = (sanitizeHistory history).length + 2 := by
  refine ⟨_, _, rfl, rfl, ?_, ?_, ?_, ?_⟩
  · dsimp only
    by_cases h1 : channel ≠ [] ∧ chatID ≠ [] <;> by_cases h2 : summary ≠ []
    · rw [if_pos h1, if_pos h2]
      exact ⟨_, by rw [List.append_assoc, List.append_assoc]⟩
    · rw [if_pos h1, if_neg h2]
      exact ⟨_, rfl⟩
    · rw [if_neg h1, if_pos h2]
      exact ⟨_, by rw [List.append_assoc]⟩
    · rw [if_neg h1, if_neg h2]
      exact ⟨[], by simp⟩
  · dsimp only
    split <;> rfl
  · dsimp only
    split <;> rfl
  · simp [BuildMessages]

/-- C8: for a non-empty media list the user message built by `BuildMessages` (the last message
of the result) has as `Parts` one part of type `text` holding `currentMessage`, followed by one
part of type `image_url` with the item as URL and the detail `auto` for each media item that
starts with `data:image/`, in the order of the media list, and nothing for the other items;
for an empty media list it has no `Parts`. -/
theorem BuildMessages_user_parts (cb : ContextBuilder) (history : List Message)
    (summary currentMessage : GoString) (media : List GoString) (channel chatID : GoString) :
    ∃ u : Message,
      (BuildMessages cb history summary currentMessage media channel chatID).getLast? = some u
      ∧ u.Parts =
          if media.length > 0 then
            { Typ := go "text", Text := currentMessage, ImageURL := none }
              :: (media.filter (fun d => (go "data:image/").isPrefixOf d)).map
                  (fun d => { Typ := go "image_url", Text := [],
                              ImageURL := some { URL := d, Detail := go "auto" } })
          else [] := by
  refine ⟨if media.length > 0 then
      { Role := go "user", Content := currentMessage, Parts := buildParts currentMessage media,
        ToolCalls := [], ToolCallID := [] }
    else
      { Role := go "user", Content := currentMessage, Parts := [], ToolCalls := [],
        ToolCallID := [] }, ?_, ?_⟩
  · simp only [BuildMessages, List.getLast?_append, List.getLast?_singleton]
    rfl
  · by_cases hm : media.length > 0
    · rw [if_pos hm, if_pos hm]
      show buildParts currentMessage media = _
      rw [buildParts, buildParts_fold]
      rfl
    · rw [if_neg hm, if_neg hm]

/-- C8 at a media list of an image, a voice file and another image: the parts are the text and
the two images, in that order; and at an empty media list. -/
theorem BuildMessages_user_parts_witness :
    (∃ u : Message,
      (BuildMessages soulOnlyBuilder [] [] (go "mira") [go "data:image/png;base64,AAA",
          go "/tmp/voz.ogg", go "data:image/jpeg;base64,BB"] (go "telegram") (go "7")).getLast?
        = some u
      ∧ u.Parts =
          [{ Typ := go "text", Text := go "mira", ImageURL := none },
           { Typ := go "image_url", Text := [],
             ImageURL := some { URL := go "data:image/png;base64,AAA", Detail := go "auto" } },
           { Typ := go "image_url", Text := [],
             ImageURL := some { URL := go "data:image/jpeg;base64,BB", Detail := go "auto" } }])
    ∧ ∃ u : Message,
      (BuildMessages soulOnlyBuilder [] [] (go "mira") [] (go "telegram") (go "7")).getLast?
        = some u
      ∧ u.Parts = [] := by
  constructor
  · obtain ⟨u, h1, h2⟩ := BuildMessages_user_parts soulOnlyBuilder [] [] (go "mira")
      [go "data:image/png;base64,AAA", go "/tmp/voz.ogg", go "data:image/jpeg;base64,BB"]
      (go "telegram") (go "7")
    exact ⟨u, h1, h2.trans (by decide)⟩
  · obtain ⟨u, h1, h2⟩ := BuildMessages_user_parts soulOnlyBuilder [] [] (go "mira") []
      (go "telegram") (go "7")
    exact ⟨u, h1, h2.trans (by decide)⟩

/-! ### White space and `strings.TrimSpace` -/

theorem spaceEncodings_ne_nil : ∀ e ∈ spaceEncodings, 0 < e.length := by decide

theorem spaceEncodings_unambiguous :
    ∀ e₁ ∈ spaceEncodings, ∀ e₂ ∈ spaceEncodings, e₁.isPrefixOf e₂ = true → e₁ = e₂ := by
  decide

theorem leadingSpace_some (s e : GoString) (h : leadingSpace s = some e) :
    e ∈ spaceEncodings ∧ s = e ++ s.drop e.length := by
  unfold leadingSpace at h
  have h1 := List.mem_of_find?_eq_some h
  have h2 := List.find?_some h
  rw [List.isPrefixOf_iff_prefix] at h2
  obtain ⟨r, hr⟩ := h2
  refine ⟨h1, ?_⟩
  rw [← hr]
  simp

theorem leadingSpace_none (s : GoString) (h : leadingSpace s = none) :
    ∀ e ∈ spaceEncodings, ¬ e <+: s := by
  unfold leadingSpace at h
  rw [List.find?_eq_none] at h
  intro e he hp
  exact h e he (List.isPrefixOf_iff_prefix.2 hp)

/-- The encodings are a prefix code: the white-space rune at the head of a
string is determined by the string. -/
theorem leadingSpace_of_head (s e : GoString) (he : e ∈ spaceEncodings) (hp : e <+: s) :
    leadingSpace s = some e := by
  cases hls : leadingSpace s with
  | none => exact absurd hp (leadingSpace_none s hls e he)
  | some e' =>
    obtain ⟨he', hs⟩ := leadingSpace_some s e' hls
    have hp' : e' <+: s := ⟨_, hs.symm⟩
    rcases Nat.le_total e.length e'.length with hle | hle
    · have := List.prefix_of_prefix_length_le hp hp' hle
      rw [spaceEncodings_unambiguous e he e' he' (List.isPrefixOf_iff_prefix.2 this)]
    · have := List.prefix_of_prefix_length_le hp' hp hle
      rw [spaceEncodings_unambiguous e' he' e he (List.isPrefixOf_iff_prefix.2 this)]

theorem trailingSpace_some (s e : GoString) (h : trailingSpace s = some e) :
    e ∈ spaceEncodings ∧ s = s.take (s.length - e.length) ++ e := by
  unfold trailingSpace at h
  have h1 := List.mem_of_find?_eq_some h
  have h2 := List.find?_some h
  rw [List.isSuffixOf_iff_suffix] at h2
  obtain ⟨r, hr⟩ := h2
  refine ⟨h1, ?_⟩
  rw [← hr]
  simp

theorem SpaceRun_nil : SpaceRun [] := ⟨[], by simp, rfl⟩

theorem SpaceRun_single (e : GoString) (he : e ∈ spaceEncodings) : SpaceRun e :=
  ⟨[e], by simpa using he, by simp⟩

theorem SpaceRun_append (g₁ g₂ : GoString) (h₁ : SpaceRun g₁) (h₂ : SpaceRun g₂) :
    SpaceRun (g₁ ++ g₂) := by
  obtain ⟨es₁, a₁, b₁⟩ := h₁
  obtain ⟨es₂, a₂, b₂⟩ := h₂
  refine ⟨es₁ ++ es₂, ?_, by rw [b₁, b₂, List.flatten_append]⟩
  intro e he
  rcases List.mem_append.1 he with h | h
  · exact a₁ e h
  · exact a₂ e h

theorem trimLeftAux_spec (n : Nat) (s : GoString) :
    ∃ g, SpaceRun g ∧ s = g ++ trimLeftAux n s := by
  induction n generalizing s with
  | zero => exact ⟨[], SpaceRun_nil, rfl⟩
  | succ n ih =>
    unfold trimLeftAux
    cases hls : leadingSpace s with
    | none => exact ⟨[], SpaceRun_nil, rfl⟩
    | some e =>
      obtain ⟨he, hs⟩ := leadingSpace_some s e hls
      obtain ⟨g, hg, hd⟩ := ih (s.drop e.length)
      refine ⟨e ++ g, SpaceRun_append _ _ (SpaceRun_single e he) hg, ?_⟩
      dsimp only
      rw [List.append_assoc, ← hd, ← hs]

theorem trimRightAux_spec (n : Nat) (s : GoString) :
    ∃ g, SpaceRun g ∧ s = trimRightAux n s ++ g := by
  induction n generalizing s with
  | zero => exact ⟨[], SpaceRun_nil, by simp [trimRightAux]⟩
  | succ n ih =>
    unfold trimRightAux
    cases hts : trailingSpace s with
    | none => exact ⟨[], SpaceRun_nil, by simp⟩
    | some e =>
      obtain ⟨he, hs⟩ := trailingSpace_some s e hts
      obtain ⟨g, hg, hd⟩ := ih (s.take (s.length - e.length))
      refine ⟨g ++ e, SpaceRun_append _ _ hg (SpaceRun_single e he), ?_⟩
      dsimp only
      rw [← List.append_assoc, ← hd, ← hs]

/-- `TrimSpace` removes a run of white space at each end and nothing else. -/
theorem TrimSpace_spec (s : GoString) :
    ∃ gl gr, SpaceRun gl ∧ SpaceRun gr ∧ s = gl ++ TrimSpace s ++ gr := by
  obtain ⟨gl, hgl, hl⟩ := trimLeftAux_spec s.length s
  obtain ⟨gr, hgr, hr⟩ := trimRightAux_spec (trimLeftAux s.length s).length
    (trimLeftAux s.length s)
  refine ⟨gl, gr, hgl, hgr, ?_⟩
  unfold TrimSpace
  dsimp only
  rw [List.append_assoc, ← hr, ← hl]

theorem TrimSpace_length_le (s : GoString) : (TrimSpace s).length ≤ s.length := by
  obtain ⟨gl, gr, _, _, h⟩ := TrimSpace_spec s
  have := congrArg List.length h
  simp only [List.length_append] at this
  omega

/-- A string that starts with a white-space rune gets shorter when trimmed. -/
theorem TrimSpace_length_lt (s e : GoString) (h : leadingSpace s = some e) :
    (TrimSpace s).length < s.length := by
  obtain ⟨he, hs⟩ := leadingSpace_some s e h
  have hpos := spaceEncodings_ne_nil e he
  have hlen : 0 < s.length := by
    have := congrArg List.length hs
    simp only [List.length_append] at this
    omega
  obtain ⟨k, hk⟩ : ∃ k, s.length = k + 1 := ⟨s.length - 1, by omega⟩
  obtain ⟨g, _, hd⟩ := trimLeftAux_spec k (s.drop e.length)
  obtain ⟨gr, _, hr⟩ := trimRightAux_spec (trimLeftAux s.length s).length
    (trimLeftAux s.length s)
  have h1 : trimLeftAux s.length s = trimLeftAux k (s.drop e.length) := by
    rw [hk]
    simp only [trimLeftAux, h]
  have h2 : (trimLeftAux k (s.drop e.length)).length ≤ s.length - e.length := by
    have := congrArg List.length hd
    simp only [List.length_append, List.length_drop] at this
    omega
  have h3 : (TrimSpace s).length ≤ (trimLeftAux s.length s).length := by
    have := congrArg List.length hr
    simp only [List.length_append] at this
    unfold TrimSpace
    dsimp only
    omega
  rw [h1] at h3
  omega

/-! ### `strings.LastIndex` and the cut position -/

theorem LastIndex_cases (s sub : GoString) :
    LastIndex s sub = -1
    ∨ ∃ i : Nat, LastIndex s sub = (i : Int) ∧ i ≤ s.length ∧ sub <+: s.drop i := by
  unfold LastIndex
  cases h : (List.range (s.length + 1)).reverse.find? (fun i => sub.isPrefixOf (s.drop i)) with
  | none => exact Or.inl rfl
  | some i =>
    right
    have h1 := List.mem_of_find?_eq_some h
    have h2 := List.find?_some h
    rw [List.mem_reverse, List.mem_range] at h1
    exact ⟨i, rfl, by omega, List.isPrefixOf_iff_prefix.1 h2⟩

/-- The cut position computed by one iteration of the loop of `splitMessage`. -/
theorem splitAt_bounds (text : GoString) (maxLen : Nat) (hm : 1 ≤ maxLen)
    (hlen : maxLen < text.length) (splitAt : Int)
    (hs : splitAt =
      (if (if LastIndex (text.take maxLen) (go "\n\n") < ((maxLen / 2 : Nat) : Int)
            then LastIndex (text.take maxLen) (go "\n")
            else LastIndex (text.take maxLen) (go "\n\n")) < ((maxLen / 4 : Nat) : Int)
        then (maxLen : Int)
        else (if LastIndex (text.take maxLen) (go "\n\n") < ((maxLen / 2 : Nat) : Int)
            then LastIndex (text.take maxLen) (go "\n")
            else LastIndex (text.take maxLen) (go "\n\n")))) :
    splitAt.toNat ≤ maxLen
    ∧ (splitAt.toNat = 0 → leadingSpace text = some [10]) := by
  have hchunk : (text.take maxLen).length = maxLen := by
    rw [List.length_take]; omega
  have hstart : ∀ sub : GoString, sub = go "\n\n" ∨ sub = go "\n" →
      sub <+: (text.take maxLen).drop 0 → leadingSpace text = some [10] := by
    intro sub hsub hp
    apply leadingSpace_of_head text [10] (by decide)
    have h10 : [10] <+: sub := by
      rcases hsub with h | h <;> rw [h] <;> exact List.isPrefixOf_iff_prefix.1 (by decide)
    exact List.IsPrefix.trans h10 (List.IsPrefix.trans hp (List.take_prefix _ _))
  have key : ∀ sub : GoString, sub = go "\n\n" ∨ sub = go "\n" →
      -1 ≤ LastIndex (text.take maxLen) sub
      ∧ LastIndex (text.take maxLen) sub ≤ (maxLen : Int)
      ∧ (LastIndex (text.take maxLen) sub = 0 → leadingSpace text = some [10]) := by
    intro sub hsub
    rcases LastIndex_cases (text.take maxLen) sub with h | ⟨i, h1, h2, h3⟩
    · rw [h]
      refine ⟨by omega, by omega, by omega⟩
    · rw [h1]
      refine ⟨by omega, by omega, ?_⟩
      intro h0
      have : i = 0 := by omega
      subst this
      exact hstart sub hsub h3
  obtain ⟨a1, a2, a3⟩ := key (go "\n\n") (Or.inl rfl)
  obtain ⟨b1, b2, b3⟩ := key (go "\n") (Or.inr rfl)
  clear key hstart
  generalize LastIndex (text.take maxLen) (go "\n\n") = a at *
  generalize LastIndex (text.take maxLen) (go "\n") = b at *
  subst hs
  by_cases c1 : a < ((maxLen / 2 : Nat) : Int)
  · simp only [c1, if_true]
    by_cases c2 : b < ((maxLen / 4 : Nat) : Int)
    · rw [if_pos c2]
      exact ⟨by simp, by intro h; simp at h; omega⟩
    · rw [if_neg c2]
      exact ⟨by omega, fun h => b3 (by omega)⟩
  · simp only [c1, if_false]
    by_cases c2 : a < ((maxLen / 4 : Nat) : Int)
    · rw [if_pos c2]
      exact ⟨by simp, by intro h; simp at h; omega⟩
    · rw [if_neg c2]
      exact ⟨by omega, fun h => a3 (by omega)⟩

/-! ### The chunks of `splitMessage` -/

theorem Gapped_prepend (cs : List GoString) (g text : GoString) (hg : SpaceRun g)
    (h : Gapped cs text) : Gapped cs (g ++ text) := by
  cases cs with
  | nil => exact SpaceRun_append _ _ hg h
  | cons c cs =>
    obtain ⟨g', rest, hg', ht, hr⟩ := h
    exact ⟨g ++ g', rest, SpaceRun_append _ _ hg hg', by rw [ht]; simp, hr⟩

theorem Gapped_append (cs : List GoString) (g text : GoString) (hg : SpaceRun g)
    (h : Gapped cs text) : Gapped cs (text ++ g) := by
  induction cs generalizing text with
  | nil => exact SpaceRun_append _ _ h hg
  | cons c cs ih =>
    obtain ⟨g', rest, hg', ht, hr⟩ := h
    exact ⟨g', rest ++ g, hg', by rw [ht]; simp, ih rest hr⟩

/-- The loop of `splitMessage` ends, for a limit of at least one, within
`len(text) + 1` iterations; it appends chunks of at most `maxLen` bytes, and
`text` is these chunks with white space between and around them. -/
theorem splitLoop_spec (maxLen : Nat) (hm : 1 ≤ maxLen) (fuel : Nat) (text : GoString)
    (acc : List GoString) (hf : text.length < fuel) :
    ∃ new, splitLoop fuel text maxLen acc = some (acc ++ new)
      ∧ Gapped new text ∧ ∀ c ∈ new, c.length ≤ maxLen := by
  induction fuel generalizing text acc with
  | zero => omega
  | succ n ih =>
    unfold splitLoop
    by_cases h0 : text.length > 0
    · rw [if_pos h0]
      by_cases h1 : text.length ≤ maxLen
      · rw [if_pos h1]
        refine ⟨[text], rfl, ⟨[], [], SpaceRun_nil, by simp, SpaceRun_nil⟩, ?_⟩
        intro c hc
        rw [List.mem_singleton] at hc
        rw [hc]; exact h1
      · rw [if_neg h1]
        dsimp only
        generalize hs : (if (if LastIndex (text.take maxLen) (go "\n\n") < ((maxLen / 2 : Nat) : Int)
            then LastIndex (text.take maxLen) (go "\n")
            else LastIndex (text.take maxLen) (go "\n\n")) < ((maxLen / 4 : Nat) : Int)
          then (maxLen : Int)
          else (if LastIndex (text.take maxLen) (go "\n\n") < ((maxLen / 2 : Nat) : Int)
            then LastIndex (text.take maxLen) (go "\n")
            else LastIndex (text.take maxLen) (go "\n\n"))) = splitAt
        obtain ⟨hk, hz⟩ := splitAt_bounds text maxLen hm (by omega) splitAt hs.symm
        have hshort : (TrimSpace (text.drop splitAt.toNat)).length < n := by
          by_cases hk0 : splitAt.toNat = 0
          · rw [hk0, List.drop_zero]
            have := TrimSpace_length_lt text [10] (hz hk0)
            omega
          · have := TrimSpace_length_le (text.drop splitAt.toNat)
            rw [List.length_drop] at this
            omega
        obtain ⟨new, e1, e2, e3⟩ := ih (TrimSpace (text.drop splitAt.toNat))
          (acc ++ [TrimSpace (text.take splitAt.toNat)]) hshort
        refine ⟨TrimSpace (text.take splitAt.toNat) :: new, ?_, ?_, ?_⟩
        · rw [e1]; simp
        · obtain ⟨gl, gr, hgl, hgr, hA⟩ := TrimSpace_spec (text.take splitAt.toNat)
          obtain ⟨hl, hr, hhl, hhr, hB⟩ := TrimSpace_spec (text.drop splitAt.toNat)
          refine ⟨gl, gr ++ text.drop splitAt.toNat, hgl, ?_, ?_⟩
          · have := List.take_append_drop splitAt.toNat text
            rw [← List.append_assoc, ← hA, this]
          · apply Gapped_prepend _ _ _ hgr
            rw [hB, List.append_assoc]
            exact Gapped_prepend _ _ _ hhl (Gapped_append _ _ _ hhr e2)
        · intro c hc
          rcases List.mem_cons.1 hc with h | h
          · rw [h]
            have := TrimSpace_length_le (text.take splitAt.toNat)
            rw [List.length_take] at this
            omega
          · exact e3 c h
    · rw [if_neg h0]
      have : text = [] := List.eq_nil_of_length_eq_zero (by omega)
      subst this
      exact ⟨[], by simp, SpaceRun_nil, by simp⟩

/-- What `splitMessage` returns for a limit of at least one. -/
theorem splitMessage_spec (text : GoString) (limit : Nat) (hl : 1 ≤ limit) :
    ∃ chunks, splitMessage text limit = some chunks
      ∧ Gapped chunks text ∧ ∀ c ∈ chunks, c.length ≤ limit := by
  unfold splitMessage
  by_cases h1 : text.length ≤ limit
  · rw [if_pos h1]
    refine ⟨[text], rfl, ⟨[], [], SpaceRun_nil, by simp, SpaceRun_nil⟩, ?_⟩
    intro c hc
    rw [List.mem_singleton] at hc
    rw [hc]; exact h1
  · rw [if_neg h1]
    obtain ⟨new, e1, e2, e3⟩ := splitLoop_spec limit hl (text.length + 1) text [] (by omega)
    exact ⟨new, by rw [e1]; simp, e2, e3⟩

/-- C9: for every text and every limit of at least one, `splitMessage text
limit` returns, and every chunk it returns has length at most `limit`. -/
theorem splitMessage_chunk_length (text : GoString) (limit : Nat) (hl : 1 ≤ limit) :
    ∃ chunks, splitMessage text limit = some chunks ∧ ∀ c ∈ chunks, c.length ≤ limit := by
  obtain ⟨chunks, h1, _, h3⟩ := splitMessage_spec text limit hl
  exact ⟨chunks, h1, h3⟩

/-- C9 at the text `hello world\n\nthis is\na test  ` and the limit 10: four
chunks, of 10, 1, 7 and 6 bytes. -/
theorem splitMessage_chunk_length_witness :
    splitMessage (go "hello world\n\nthis is\na test  ") 10
      = some [go "hello worl", go "d", go "this is", go "a test"]
    ∧ ∃ chunks, splitMessage (go "hello world\n\nthis is\na test  ") 10 = some chunks
        ∧ ∀ c ∈ chunks, c.length ≤ 10 :=
  ⟨by decide, splitMessage_chunk_length (go "hello world\n\nthis is\na test  ") 10 (by decide)⟩

/-! ### Deleting white space -/

theorem deleteSpaceAux_fuel (n m : Nat) (s : GoString) (hn : s.length ≤ n) (hm : s.length ≤ m) :
    deleteSpaceAux n s = deleteSpaceAux m s := by
  induction n generalizing m s with
  | zero =>
    have : s = [] := List.eq_nil_of_length_eq_zero (Nat.le_zero.1 hn)
    subst this
    cases m <;> simp [deleteSpaceAux]
  | succ n ih =>
    cases s with
    | nil => cases m <;> simp [deleteSpaceAux]
    | cons b r =>
      cases m with
      | zero => simp at hm
      | succ m =>
        simp only [List.length_cons, Nat.add_le_add_iff_right] at hn hm
        simp only [deleteSpaceAux]
        cases hls : leadingSpace (b :: r) with
        | none =>
          dsimp only
          rw [ih m r hn hm]
        | some e =>
          dsimp only
          have hpos := spaceEncodings_ne_nil e (leadingSpace_some _ e hls).1
          have hlen : ((b :: r).drop e.length).length ≤ r.length := by
            rw [List.length_drop, List.length_cons]
            omega
          exact ih m _ (Nat.le_trans hlen hn) (Nat.le_trans hlen hm)

theorem deleteSpace_nil : deleteSpace [] = [] := rfl

/-- A white-space rune at the head is deleted. -/
theorem deleteSpace_space (s e : GoString) (h : leadingSpace s = some e) :
    deleteSpace s = deleteSpace (s.drop e.length) := by
  have hpos := spaceEncodings_ne_nil e (leadingSpace_some _ e h).1
  cases s with
  | nil =>
    have := (leadingSpace_some _ e h).2
    simp at this
    rw [this] at hpos
    simp at hpos
  | cons b r =>
    unfold deleteSpace
    rw [List.length_cons]
    simp only [deleteSpaceAux, h]
    apply deleteSpaceAux_fuel
    · rw [List.length_drop, List.length_cons]
      omega
    · exact Nat.le_refl _

/-- A byte at which no white-space rune starts is kept. -/
theorem deleteSpace_byte (b : Nat) (r : GoString) (h : leadingSpace (b :: r) = none) :
    deleteSpace (b :: r) = b :: deleteSpace r := by
  unfold deleteSpace
  rw [List.length_cons]
  simp only [deleteSpaceAux, h]

/-! ### Truncated encodings -/

theorem truncated_of_proper (e : GoString) (he : e ∈ spaceEncodings) :
    ∀ k ∈ List.range e.length, 0 < k → e.take k ∈ spacePartials := by
  revert e
  decide

theorem truncated_take (p : GoString) (hp : p ∈ spacePartials) :
    ∀ k ∈ List.range 3, 0 < k → p.take k ∈ spacePartials := by
  revert p
  decide

theorem truncated_length (p : GoString) (hp : p ∈ spacePartials) : p.length < 3 := by
  revert p
  decide

/-- A non-empty proper beginning of a white-space encoding is a truncated
encoding. -/
theorem truncated_of_start (x e : GoString) (he : e ∈ spaceEncodings) (hx : x ≠ [])
    (hpre : x <+: e) (hlt : x.length < e.length) : x ∈ spacePartials := by
  have h1 : x = e.take x.length := by
    obtain ⟨r, hr⟩ := hpre
    rw [← hr]
    simp
  have hpos : 0 < x.length := List.length_pos.2 hx
  rw [h1]
  exact truncated_of_proper e he x.length (List.mem_range.2 hlt) hpos

theorem truncated_of_truncated_start (x p : GoString) (hp : p ∈ spacePartials) (hx : x ≠ [])
    (hpre : x <+: p) : x ∈ spacePartials := by
  have h1 : x = p.take x.length := by
    obtain ⟨r, hr⟩ := hpre
    rw [← hr]
    simp
  have hpos : 0 < x.length := List.length_pos.2 hx
  have hle : x.length ≤ p.length := hpre.length_le
  have := truncated_length p hp
  rw [h1]
  exact truncated_take p hp x.length (List.mem_range.2 (by omega)) hpos

theorem badAt_of_truncated (p e y : GoString) (hp : p ∈ spacePartials)
    (he : e ∈ spaceEncodings) : badAt (p ++ e ++ y) = true := by
  unfold badAt
  rw [List.any_eq_true]
  refine ⟨p, hp, ?_⟩
  rw [List.any_eq_true]
  refine ⟨e, he, ?_⟩
  rw [List.isPrefixOf_iff_prefix, List.append_assoc]
  refine (List.prefix_append_right_inj p).2 ?_
  exact List.IsPrefix.trans (List.take_prefix 1 e) (List.prefix_append e y)

theorem badAt_true (t : GoString) (h : badAt t = true) :
    ∃ p ∈ spacePartials, ∃ e ∈ spaceEncodings, (p ++ e.take 1) <+: t := by
  unfold badAt at h
  rw [List.any_eq_true] at h
  obtain ⟨p, hp, h⟩ := h
  rw [List.any_eq_true] at h
  obtain ⟨e, he, h⟩ := h
  exact ⟨p, hp, e, he, List.isPrefixOf_iff_prefix.1 h⟩

theorem NoBroken_drop (s : GoString) (k : Nat) (h : NoBroken s) : NoBroken (s.drop k) := by
  intro i
  rw [List.drop_drop]
  exact h _

theorem NoBroken_head (s : GoString) (h : NoBroken s) : badAt s = false := by
  have := h 0
  simpa using this

/-- Deleting one white-space rune from a string without truncated encodings
before white space does not change what is left after all white space is
deleted. -/
theorem deleteSpace_remove (x e y : GoString) (he : e ∈ spaceEncodings)
    (hnb : NoBroken (x ++ e ++ y)) :
    deleteSpace (x ++ e ++ y) = deleteSpace (x ++ y) := by
  generalize hn : x.length = n
  induction n using Nat.strong_induction_on generalizing x with
  | _ n ih =>
    cases x with
    | nil =>
      have h1 : leadingSpace ([] ++ e ++ y) = some e :=
        leadingSpace_of_head _ e he (by simp)
      rw [deleteSpace_space _ e h1]
      simp
    | cons b x' =>
      subst hn
      have hxs1 : (b :: x') <+: (b :: x') ++ e ++ y := by
        rw [List.append_assoc]; exact List.prefix_append _ _
      have hxs2 : (b :: x') <+: (b :: x') ++ y := List.prefix_append _ _
      have hbad : ∀ e' ∈ spaceEncodings, (b :: x') <+: e' → (b :: x').length < e'.length →
          False := by
        intro e' he' hpre hlt
        have hp := truncated_of_start (b :: x') e' he' (by simp) hpre hlt
        have := badAt_of_truncated (b :: x') e y hp he
        rw [NoBroken_head _ hnb] at this
        exact absurd this (by decide)
      cases hls : leadingSpace ((b :: x') ++ e ++ y) with
      | some e' =>
        obtain ⟨he', hs⟩ := leadingSpace_some _ e' hls
        have hp1 : e' <+: (b :: x') ++ e ++ y := ⟨_, hs.symm⟩
        have hle : e'.length ≤ (b :: x').length := by
          by_contra hgt
          exact hbad e' he' (List.prefix_of_prefix_length_le hxs1 hp1 (by omega)) (by omega)
        obtain ⟨x'', hx''⟩ := List.prefix_of_prefix_length_le hp1 hxs1 hle
        have hpos := spaceEncodings_ne_nil e' he'
        have hls2 : leadingSpace ((b :: x') ++ y) = some e' :=
          leadingSpace_of_head _ e' he' (List.IsPrefix.trans ⟨x'', hx''⟩ hxs2)
        rw [deleteSpace_space _ e' hls, deleteSpace_space _ e' hls2, ← hx'']
        have hlen : x''.length < (b :: x').length := by
          have := congrArg List.length hx''
          simp only [List.length_append] at this
          omega
        have hd1 : (e' ++ x'' ++ e ++ y).drop e'.length = x'' ++ e ++ y := by
          simp [List.append_assoc]
        have hd2 : (e' ++ x'' ++ y).drop e'.length = x'' ++ y := by
          simp [List.append_assoc]
        rw [hd1, hd2]
        apply ih x''.length hlen x'' _ rfl
        have := NoBroken_drop _ e'.length hnb
        rw [← hx'', hd1] at this
        exact this
      | none =>
        have hls2 : leadingSpace ((b :: x') ++ y) = none := by
          cases h2 : leadingSpace ((b :: x') ++ y) with
          | none => rfl
          | some e'' =>
            exfalso
            obtain ⟨he'', hs⟩ := leadingSpace_some _ e'' h2
            have hp2 : e'' <+: (b :: x') ++ y := ⟨_, hs.symm⟩
            by_cases hle : e''.length ≤ (b :: x').length
            · have := List.prefix_of_prefix_length_le hp2 hxs2 hle
              exact leadingSpace_none _ hls e'' he'' (List.IsPrefix.trans this hxs1)
            · exact hbad e'' he'' (List.prefix_of_prefix_length_le hxs2 hp2 (by omega))
                (by omega)
        rw [List.cons_append, List.cons_append] at hls
        rw [List.cons_append] at hls2
        rw [List.cons_append, List.cons_append, List.cons_append,
          deleteSpace_byte _ _ hls, deleteSpace_byte _ _ hls2]
        congr 1
        apply ih x'.length (by simp) x' _ rfl
        have := NoBroken_drop _ 1 hnb
        simpa using this

theorem badAt_of_start (p e t : GoString) (hp : p ∈ spacePartials) (he : e ∈ spaceEncodings)
    (h : (p ++ e.take 1) <+: t) : badAt t = true := by
  unfold badAt
  rw [List.any_eq_true]
  refine ⟨p, hp, ?_⟩
  rw [List.any_eq_true]
  exact ⟨e, he, List.isPrefixOf_iff_prefix.2 h⟩

theorem take_one_length (e : GoString) (he : e ∈ spaceEncodings) : (e.take 1).length = 1 := by
  revert e
  decide

/-- Deleting one white-space rune does not bring a truncated encoding
before white space. -/
theorem NoBroken_remove (x e y : GoString) (he : e ∈ spaceEncodings)
    (hnb : NoBroken (x ++ e ++ y)) : NoBroken (x ++ y) := by
  intro i
  by_cases hi : x.length ≤ i
  · have h1 := hnb (i + e.length)
    have e1 : (x ++ e ++ y).drop (i + e.length) = y.drop (i - x.length) := by
      rw [List.append_assoc, List.drop_append_eq_append_drop, List.drop_append_eq_append_drop,
        List.drop_eq_nil_of_le (by omega), List.drop_eq_nil_of_le (by omega)]
      simp only [List.nil_append]
      congr 1
      omega
    have e2 : (x ++ y).drop i = y.drop (i - x.length) := by
      rw [List.drop_append_eq_append_drop, List.drop_eq_nil_of_le hi]
      rfl
    rw [e2, ← e1]
    exact h1
  · have hlt : i < x.length := by omega
    have e2 : (x ++ y).drop i = x.drop i ++ y := List.drop_append_of_le_length (by omega)
    have e1 : (x ++ e ++ y).drop i = x.drop i ++ e ++ y := by
      rw [List.append_assoc, List.drop_append_of_le_length (by omega), List.append_assoc]
    have hne : x.drop i ≠ [] := by
      intro h
      have := congrArg List.length h
      rw [List.length_drop] at this
      simp at this
      omega
    have h1 := hnb i
    rw [e1] at h1
    rw [e2]
    cases hb : badAt (x.drop i ++ y) with
    | false => rfl
    | true =>
      exfalso
      obtain ⟨p, hp, e₂, he₂, hpre⟩ := badAt_true _ hb
      have hxi : x.drop i <+: x.drop i ++ y := List.prefix_append _ _
      have hxi' : x.drop i <+: x.drop i ++ e ++ y := by
        rw [List.append_assoc]; exact List.prefix_append _ _
      by_cases hle : (p ++ e₂.take 1).length ≤ (x.drop i).length
      · have h2 := List.prefix_of_prefix_length_le hpre hxi hle
        have := badAt_of_start p e₂ _ hp he₂ (List.IsPrefix.trans h2 hxi')
        rw [h1] at this
        exact absurd this (by decide)
      · have hl1 := take_one_length e₂ he₂
        rw [List.length_append, hl1] at hle
        have h2 : x.drop i <+: p ++ e₂.take 1 :=
          List.prefix_of_prefix_length_le hxi hpre (by rw [List.length_append]; omega)
        have h3 : x.drop i <+: p :=
          List.prefix_of_prefix_length_le h2 (List.prefix_append _ _) (by omega)
        have hp' := truncated_of_truncated_start _ p hp hne h3
        have := badAt_of_truncated _ e y hp' he
        rw [h1] at this
        exact absurd this (by decide)

/-- Deleting a run of white space. -/
theorem deleteSpace_remove_run (x g y : GoString) (hg : SpaceRun g)
    (hnb : NoBroken (x ++ g ++ y)) :
    deleteSpace (x ++ g ++ y) = deleteSpace (x ++ y) ∧ NoBroken (x ++ y) := by
  obtain ⟨es, hes, hflat⟩ := hg
  subst hflat
  induction es with
  | nil => simpa using hnb
  | cons e es ih =>
    have he := hes e (List.mem_cons_self _ _)
    have e1 : x ++ (e :: es).flatten ++ y = x ++ e ++ (es.flatten ++ y) := by simp
    rw [e1] at hnb ⊢
    have h1 := deleteSpace_remove x e _ he hnb
    have h2 := NoBroken_remove x e _ he hnb
    rw [← List.append_assoc] at h2
    obtain ⟨h3, h4⟩ := ih (fun e' h' => hes e' (List.mem_cons_of_mem _ h')) h2
    refine ⟨?_, h4⟩
    rw [h1, ← List.append_assoc, h3]

/-- If `text` is the chunks with white space between and around them, and no
truncated encoding stands before white space, the chunks concatenated and
`text` are the same up to white space, also after a common beginning `pre`. -/
theorem deleteSpace_gapped (chunks : List GoString) (pre text : GoString)
    (hnb : NoBroken (pre ++ text)) (hg : Gapped chunks text) :
    deleteSpace (pre ++ chunks.flatten) = deleteSpace (pre ++ text) := by
  induction chunks generalizing pre text with
  | nil =>
    have := deleteSpace_remove_run pre text [] hg (by simpa using hnb)
    simpa using this.1.symm
  | cons c cs ih =>
    obtain ⟨g, rest, hgs, ht, hr⟩ := hg
    subst ht
    have e1 : pre ++ (g ++ c ++ rest) = pre ++ g ++ (c ++ rest) := by simp
    rw [e1] at hnb ⊢
    obtain ⟨h1, h2⟩ := deleteSpace_remove_run pre g (c ++ rest) hgs hnb
    rw [h1, List.flatten_cons, ← List.append_assoc, ← List.append_assoc]
    apply ih
    · rw [List.append_assoc]; exact h2
    · exact hr

/-! ### Valid UTF-8 has no truncated encodings -/

theorem starter_not_cont (e : GoString) (he : e ∈ spaceEncodings) :
    ∀ b ∈ e.take 1, isCont b = false := by
  revert e
  decide

theorem truncated_head_not_cont (p : GoString) (hp : p ∈ spacePartials) :
    ∀ b ∈ p.take 1, isCont b = false := by
  revert p
  decide

theorem truncated_ne_nil (p : GoString) (hp : p ∈ spacePartials) : 0 < p.length := by
  revert p
  decide

/-- No well-formed sequence starts where a truncated encoding is followed by
the first byte of a white-space rune. -/
theorem runeWidth_of_badAt (t : GoString) (h : badAt t = true) : runeWidth t = 0 := by
  obtain ⟨p, hp, e, he, ⟨rest, hrest⟩⟩ := badAt_true t h
  have hlen := take_one_length e he
  obtain ⟨b, hb⟩ : ∃ b, e.take 1 = [b] := by
    cases hte : e.take 1 with
    | nil => rw [hte] at hlen; simp at hlen
    | cons b tl =>
      cases tl with
      | nil => exact ⟨b, rfl⟩
      | cons c tl' => rw [hte] at hlen; simp at hlen
  have hnc : isCont b = false := starter_not_cont e he b (by rw [hb]; simp)
  rw [hb] at hrest
  subst hrest
  simp only [spacePartials, List.mem_cons, List.mem_singleton, List.not_mem_nil, or_false] at hp
  rcases hp with rfl | rfl | rfl | rfl | rfl | rfl | rfl | rfl <;>
    cases rest <;> simp [runeWidth, hnc]

/-- Inside a well-formed sequence every byte after the first is a
continuation byte. -/
theorem runeWidth_cont (t : GoString) (i : Nat) (h0 : 0 < i) (hi : i < runeWidth t) :
    ∃ c rest, t.drop i = c :: rest ∧ isCont c = true := by
  match t with
  | [] => simp [runeWidth] at hi
  | [b0] =>
    simp only [runeWidth] at hi
    split_ifs at hi <;> omega
  | [b0, b1] =>
    simp only [runeWidth] at hi
    split_ifs at hi with h1 h2 h3 h4 h5
    · omega
    · have : i = 1 := by omega
      subst this
      exact ⟨b1, [], rfl, h3⟩
    · omega
    · omega
    · omega
    · omega
  | [b0, b1, b2] =>
    simp only [runeWidth] at hi
    split_ifs at hi with h1 h2 h3 h4 h5 h6
    · omega
    · have : i = 1 := by omega
      subst this
      exact ⟨b1, [b2], rfl, h3⟩
    · omega
    · have : i = 1 ∨ i = 2 := by omega
      rcases this with rfl | rfl
      · exact ⟨b1, [b2], rfl, h5.1⟩
      · exact ⟨b2, [], rfl, h5.2.1⟩
    · omega
    · omega
    · omega
  | b0 :: b1 :: b2 :: b3 :: rest =>
    simp only [runeWidth] at hi
    split_ifs at hi with h1 h2 h3 h4 h5 h6 h7
    · omega
    · have : i = 1 := by omega
      subst this
      exact ⟨b1, b2 :: b3 :: rest, rfl, h3⟩
    · omega
    · have : i = 1 ∨ i = 2 := by omega
      rcases this with rfl | rfl
      · exact ⟨b1, b2 :: b3 :: rest, rfl, h5.1⟩
      · exact ⟨b2, b3 :: rest, rfl, h5.2.1⟩
    · omega
    · have : i = 1 ∨ i = 2 ∨ i = 3 := by omega
      rcases this with rfl | rfl | rfl
      · exact ⟨b1, b2 :: b3 :: rest, rfl, h7.1⟩
      · exact ⟨b2, b3 :: rest, rfl, h7.2.1⟩
      · exact ⟨b3, rest, rfl, h7.2.2.1⟩
    · omega
    · omega

theorem badAt_head (t : GoString) (h : badAt t = true) :
    ∃ c rest, t = c :: rest ∧ isCont c = false := by
  obtain ⟨p, hp, e, he, ⟨rest, hrest⟩⟩ := badAt_true t h
  have hpos := truncated_ne_nil p hp
  cases p with
  | nil => simp at hpos
  | cons c tl =>
    refine ⟨c, tl ++ e.take 1 ++ rest, by rw [← hrest]; simp, ?_⟩
    exact truncated_head_not_cont (c :: tl) hp c (by simp)

theorem NoBroken_of_validAux (n : Nat) (s : GoString) (h : validAux n s = true) :
    NoBroken s := by
  induction n generalizing s with
  | zero =>
    cases s with
    | nil => intro i; simp [badAt]; decide
    | cons b r => simp [validAux] at h
  | succ n ih =>
    cases s with
    | nil => intro i; simp [badAt]; decide
    | cons b r =>
      simp only [validAux, Bool.and_eq_true, decide_eq_true_eq] at h
      obtain ⟨hw, hv⟩ := h
      have hrec := ih _ hv
      intro i
      cases hb : badAt ((b :: r).drop i) with
      | false => rfl
      | true =>
        exfalso
        by_cases hi0 : i = 0
        · subst hi0
          exact hw (runeWidth_of_badAt _ hb)
        · by_cases hiw : i < runeWidth (b :: r)
          · obtain ⟨c, rest, h1, h2⟩ := runeWidth_cont (b :: r) i (by omega) hiw
            obtain ⟨c', rest', h3, h4⟩ := badAt_head _ hb
            rw [h1] at h3
            simp only [List.cons.injEq] at h3
            rw [h3.1, h4] at h2
            exact absurd h2 (by decide)
          · have := hrec (i - runeWidth (b :: r))
            rw [List.drop_drop] at this
            have e : runeWidth (b :: r) + (i - runeWidth (b :: r)) = i := by omega
            rw [e, hb] at this
            exact absurd this (by decide)

/-- A valid UTF-8 string has no truncated white-space encoding before white space. -/
theorem NoBroken_of_valid (s : GoString) (h : validUTF8 s = true) : NoBroken s :=
  NoBroken_of_validAux s.length s h

/-- C10, as the code has it: for every text that is valid UTF-8 and every
limit of at least one, `splitMessage text limit` returns, and deleting all
white space from the concatenation of the chunks, in order, gives the same
string as deleting all white space from `text`. -/
theorem splitMessage_content_kept (text : GoString) (limit : Nat)
    (hv : validUTF8 text = true) (hl : 1 ≤ limit) :
    ∃ chunks, splitMessage text limit = some chunks
      ∧ deleteSpace chunks.flatten = deleteSpace text := by
  obtain ⟨chunks, h1, h2, _⟩ := splitMessage_spec text limit hl
  refine ⟨chunks, h1, ?_⟩
  have := deleteSpace_gapped chunks [] text (by simpa using NoBroken_of_valid text hv) h2
  simpa using this

/-- C10 at the text `héllo wörld\n\nfoo  bar` and the limit 8. -/
theorem splitMessage_content_kept_witness :
    validUTF8 (go "héllo wörld\n\nfoo  bar") = true
    ∧ ∃ chunks, splitMessage (go "héllo wörld\n\nfoo  bar") 8 = some chunks
        ∧ deleteSpace chunks.flatten = deleteSpace (go "héllo wörld\n\nfoo  bar") :=
  ⟨by decide, splitMessage_content_kept (go "héllo wörld\n\nfoo  bar") 8 (by decide) (by decide)⟩

/-- C10 as stated fails on the four bytes `C2 20 A0 62` (not valid UTF-8) with
the limit 2: the chunks are `C2` and `A0 62`; concatenated they read as a
no-break space followed by `b`, so that deleting white space leaves `b`, while
deleting white space from the text leaves `C2 A0 62`. -/
theorem splitMessage_joins_truncated_space :
    splitMessage [0xC2, 0x20, 0xA0, 0x62] 2 = some [[0xC2], [0xA0, 0x62]]
    ∧ deleteSpace ([[0xC2], [0xA0, 0x62]] : List GoString).flatten = [0x62]
    ∧ deleteSpace [0xC2, 0x20, 0xA0, 0x62] = [0xC2, 0xA0, 0x62]
    ∧ ¬ (∃ chunks, splitMessage [0xC2, 0x20, 0xA0, 0x62] 2 = some chunks
          ∧ deleteSpace chunks.flatten = deleteSpace [0xC2, 0x20, 0xA0, 0x62]) := by
  refine ⟨by decide, by decide, by decide, ?_⟩
  rintro ⟨chunks, h1, h2⟩
  have h3 : splitMessage [0xC2, 0x20, 0xA0, 0x62] 2 = some [[0xC2], [0xA0, 0x62]] := by decide
  rw [h3] at h1
  simp only [Option.some.injEq] at h1
  subst h1
  revert h2
  decide

/-! ### `BuildSystemPrompt` and `LoadBootstrapFiles` -/

/-- C18: `BuildSystemPrompt` returns the sections joined by the separator
`\n\n---\n\n`, the sections being, in this order, the identity block (always),
the bootstrap text if it is not empty, the heading `# Skills` and the fixed
introduction followed by the skills summary if the summary is not empty, and
`# Memory` followed by the memory context if the context is not empty; an empty
bootstrap text, summary or context contributes neither a section nor a
separator. The second equation writes the joined string out. -/
theorem BuildSystemPrompt_sections (cb : ContextBuilder) :
    BuildSystemPrompt cb
      = (go "\n\n---\n\n").intercalate ([cb.identity]
          ++ (if LoadBootstrapFiles cb ≠ [] then [LoadBootstrapFiles cb] else [])
          ++ (if cb.skillsSummary ≠ [] then
                [go "# Skills\n\nThe following skills extend your capabilities. To use a skill, read its SKILL.md file using the read_file tool.\n\n"
                  ++ cb.skillsSummary]
              else [])
          ++ (if cb.memoryContext ≠ [] then [go "# Memory\n\n" ++ cb.memoryContext] else []))
    ∧ BuildSystemPrompt cb
      = cb.identity
          ++ (if LoadBootstrapFiles cb ≠ [] then go "\n\n---\n\n" ++ LoadBootstrapFiles cb
              else [])
          ++ (if cb.skillsSummary ≠ [] then
                go "\n\n---\n\n" ++
                  (go "# Skills\n\nThe following skills extend your capabilities. To use a skill, read its SKILL.md file using the read_file tool.\n\n"
                    ++ cb.skillsSummary)
              else [])
          ++ (if cb.memoryContext ≠ [] then
                go "\n\n---\n\n" ++ (go "# Memory\n\n" ++ cb.memoryContext)
              else []) := by
  unfold BuildSystemPrompt Join skillsIntro sectionSeparator
  by_cases hb : LoadBootstrapFiles cb ≠ [] <;> by_cases hs : cb.skillsSummary ≠ [] <;>
    by_cases hm : cb.memoryContext ≠ [] <;>
    simp [hb, hs, hm, List.intercalate, List.intersperse]

/-- C18 at a builder with an identity, one bootstrap file and a memory context, and no skills:
three sections and two separators. -/
theorem BuildSystemPrompt_sections_witness :
    BuildSystemPrompt memoryBuilder
      = go "# picoclaw\n\n---\n\n## SOUL.md\n\nbe kind\n\n\n\n---\n\n# Memory\n\nlikes tea"
    ∧ BuildSystemPrompt skillsBuilder
      = go "# picoclaw\n\n---\n\n# Skills\n\nThe following skills extend your capabilities. To use a skill, read its SKILL.md file using the read_file tool.\n\n- weather" := by
  constructor
  · rw [(BuildSystemPrompt_sections memoryBuilder).2]
    decide
  · rw [(BuildSystemPrompt_sections skillsBuilder).2]
    decide

theorem LoadBootstrapFiles_fold (cb : ContextBuilder) (names : List GoString)
    (acc : GoString) :
    names.foldl
      (fun result filename =>
        match cb.readFile filename with
        | some data => result ++ (go "## " ++ filename ++ go "\n\n" ++ data ++ go "\n\n")
        | none => result)
      acc
    = acc ++ (names.map (bootstrapSection cb)).flatten := by
  induction names generalizing acc with
  | nil => simp
  | cons n rest ih =>
    rw [List.foldl_cons, ih]
    cases h : cb.readFile n <;> simp [bootstrapSection, h]

/-- C19: `LoadBootstrapFiles` returns the concatenation, over `AGENTS.md`,
`SOUL.md`, `USER.md`, `IDENTITY.md` in this order, of `## name\n\ncontent\n\n`
for each file that can be read; a file that cannot be read contributes
nothing, and if none can be read the result is the empty string. -/
theorem LoadBootstrapFiles_sections (cb : ContextBuilder) :
    LoadBootstrapFiles cb
      = bootstrapSection cb (go "AGENTS.md") ++ bootstrapSection cb (go "SOUL.md")
          ++ bootstrapSection cb (go "USER.md") ++ bootstrapSection cb (go "IDENTITY.md")
    ∧ ((∀ name ∈ bootstrapFiles, cb.readFile name = none) → LoadBootstrapFiles cb = []) := by
  have h : LoadBootstrapFiles cb = [] ++ (bootstrapFiles.map (bootstrapSection cb)).flatten :=
    LoadBootstrapFiles_fold cb bootstrapFiles []
  constructor
  · rw [h]
    simp [bootstrapFiles]
  · intro hnone
    rw [h]
    simp only [List.nil_append, List.flatten_eq_nil_iff, List.mem_map]
    rintro l ⟨name, hname, rfl⟩
    simp [bootstrapSection, hnone name hname]

/-- C19 at a workspace where only `SOUL.md` can be read, and at one where no
file can be read. -/
theorem LoadBootstrapFiles_sections_witness :
    LoadBootstrapFiles soulOnlyBuilder = go "## SOUL.md\n\nbe kind\n\n"
    ∧ LoadBootstrapFiles { soulOnlyBuilder with readFile := fun _ => none } = [] := by
  constructor
  · rw [(LoadBootstrapFiles_sections soulOnlyBuilder).1]
    decide
  · exact (LoadBootstrapFiles_sections { soulOnlyBuilder with readFile := fun _ => none }).2
      (fun _ _ => rfl)

/-! ### The first cut of `splitMessage` -/

/-- `LastIndex` returns an occurrence with no occurrence after it. -/
theorem LastIndex_last (s sub : GoString) (i : Nat) (h : LastIndex s sub = (i : Int)) :
    sub <+: s.drop i ∧ ∀ j, i < j → j ≤ s.length → ¬ sub <+: s.drop j := by
  unfold LastIndex at h
  cases hf : (List.range (s.length + 1)).reverse.find? (fun i => sub.isPrefixOf (s.drop i)) with
  | none => rw [hf] at h; simp at h
  | some k =>
    rw [hf] at h
    have hk : k = i := by simpa using h
    subst hk
    obtain ⟨hp, as, bs, hsplit, has⟩ := List.find?_eq_some.1 hf
    refine ⟨List.isPrefixOf_iff_prefix.1 hp, ?_⟩
    intro j hij hj hpre
    have hmem : j ∈ (List.range (s.length + 1)).reverse := by
      rw [List.mem_reverse, List.mem_range]; omega
    have hpw : List.Pairwise (fun a b => a > b) (List.range (s.length + 1)).reverse := by
      rw [List.pairwise_reverse]
      exact List.pairwise_lt_range _
    rw [hsplit] at hmem hpw
    rcases List.mem_append.1 hmem with h1 | h1
    · have := has j h1
      rw [List.isPrefixOf_iff_prefix.2 hpre] at this
      simp at this
    · rcases List.mem_cons.1 h1 with h2 | h2
      · omega
      · have := (List.pairwise_cons.1 (List.pairwise_append.1 hpw).2.1).1 j h2
        omega

/-- The cut position computed by the loop is the first cut with thresholds. -/
theorem firstCut_eq (text : GoString) (limit : Nat) :
    (if (if LastIndex (text.take limit) (go "\n\n") < ((limit / 2 : Nat) : Int)
          then LastIndex (text.take limit) (go "\n")
          else LastIndex (text.take limit) (go "\n\n")) < ((limit / 4 : Nat) : Int)
      then (limit : Int)
      else (if LastIndex (text.take limit) (go "\n\n") < ((limit / 2 : Nat) : Int)
          then LastIndex (text.take limit) (go "\n")
          else LastIndex (text.take limit) (go "\n\n"))).toNat
    = firstCut text limit := by
  unfold firstCut
  generalize LastIndex (text.take limit) (go "\n\n") = a
  generalize LastIndex (text.take limit) (go "\n") = b
  by_cases c1 : a < ((limit / 2 : Nat) : Int)
  · have c1' : ¬ ((limit / 2 : Nat) : Int) ≤ a := by omega
    rw [if_pos c1, if_neg c1']
    by_cases c2 : b < ((limit / 4 : Nat) : Int)
    · have c2' : ¬ ((limit / 4 : Nat) : Int) ≤ b := by omega
      rw [if_pos c2, if_neg c2']
      rfl
    · have c2' : ((limit / 4 : Nat) : Int) ≤ b := by omega
      rw [if_neg c2, if_pos c2']
  · have c1' : ((limit / 2 : Nat) : Int) ≤ a := by omega
    have c2 : ¬ a < ((limit / 4 : Nat) : Int) := by omega
    rw [if_neg c1, if_neg c2, if_pos c1']

/-- C11, as the code has it: for a limit of at least one and a text longer than
the limit, the first cut is at the last paragraph break inside the first
`limit` bytes if its index is at least `limit / 2`, otherwise at the last line
break inside them if its index is at least `limit / 4`, otherwise at byte
`limit`; the first chunk is the text before the cut with its boundary white
space trimmed. -/
theorem splitMessage_first_cut (text : GoString) (limit : Nat) (hl : 1 ≤ limit)
    (hlong : limit < text.length) :
    ∃ rest, splitMessage text limit
      = some (TrimSpace (text.take (firstCut text limit)) :: rest) := by
  unfold splitMessage
  rw [if_neg (by omega)]
  unfold splitLoop
  rw [if_pos (by omega), if_neg (by omega)]
  dsimp only
  rw [firstCut_eq]
  have hb := splitAt_bounds text limit hl hlong _ rfl
  rw [firstCut_eq] at hb
  obtain ⟨hk, hz⟩ := hb
  have hshort : (TrimSpace (text.drop (firstCut text limit))).length < text.length := by
    by_cases hk0 : firstCut text limit = 0
    · rw [hk0, List.drop_zero]
      exact TrimSpace_length_lt text [10] (hz hk0)
    · have := TrimSpace_length_le (text.drop (firstCut text limit))
      rw [List.length_drop] at this
      omega
  obtain ⟨new, e1, _, _⟩ := splitLoop_spec limit hl text.length
    (TrimSpace (text.drop (firstCut text limit)))
    ([] ++ [TrimSpace (text.take (firstCut text limit))]) hshort
  exact ⟨new, by rw [e1]; simp⟩

/-- C11 at a text with a paragraph break past the middle of the first ten
bytes: the cut is at the paragraph break, index 6. -/
theorem splitMessage_first_cut_witness :
    firstCut (go "hello,\n\nworld and more") 10 = 6
    ∧ ∃ rest, splitMessage (go "hello,\n\nworld and more") 10
        = some (TrimSpace ((go "hello,\n\nworld and more").take
            (firstCut (go "hello,\n\nworld and more") 10)) :: rest) :=
  ⟨by decide,
    splitMessage_first_cut (go "hello,\n\nworld and more") 10 (by decide) (by decide)⟩

/-- C11 as stated fails: in `a\n\nbcdefghijklmnopqrstu` with the limit 16 the
first 16 bytes hold a paragraph break at index 1, which is below `16 / 2`, and a
last line break at index 2, which is below `16 / 4`; the cut is made at byte
16 and the first chunk is the first 16 bytes, not `a`. -/
theorem splitMessage_early_break_ignored :
    firstCutStated (go "a\n\nbcdefghijklmnopqrstu") 16 = 1
    ∧ splitMessage (go "a\n\nbcdefghijklmnopqrstu") 16
        = some [go "a\n\nbcdefghijklmn", go "opqrstu"]
    ∧ ¬ ∃ rest, splitMessage (go "a\n\nbcdefghijklmnopqrstu") 16
        = some (TrimSpace ((go "a\n\nbcdefghijklmnopqrstu").take
            (firstCutStated (go "a\n\nbcdefghijklmnopqrstu") 16)) :: rest) := by
  have h1 : firstCutStated (go "a\n\nbcdefghijklmnopqrstu") 16 = 1 := by decide
  have h2 : splitMessage (go "a\n\nbcdefghijklmnopqrstu") 16
      = some [go "a\n\nbcdefghijklmn", go "opqrstu"] := by decide
  refine ⟨h1, h2, ?_⟩
  rintro ⟨rest, hr⟩
  rw [h2, h1] at hr
  simp only [Option.some.injEq, List.cons.injEq] at hr
  have := hr.1
  revert this
  decide

/-! ### The backoff of `reconnectPolling` -/

theorem statedWait_one : statedWait 1 = baseBackoff := by decide

theorem wrapInt64_id (x : Int) (h0 : -9223372036854775808 ≤ x) (h1 : x < 9223372036854775808) :
    wrapInt64 x = x := by
  unfold wrapInt64
  rw [Int.emod_eq_of_lt (by omega) (by omega)]
  omega

theorem nextBackoff_statedWait (n : Nat) (hn : 1 ≤ n) :
    nextBackoff (statedWait n) = statedWait (n + 1) := by
  obtain ⟨k, rfl⟩ : ∃ k, n = k + 1 := ⟨n - 1, by omega⟩
  have hmax : maxBackoff = 300000000000 := by decide
  unfold nextBackoff statedWait Second
  simp only [Nat.add_sub_cancel]
  rw [pow_succ, hmax]
  have hp : (1 : Int) ≤ 2 ^ k := one_le_pow₀ (by norm_num)
  generalize (2 : Int) ^ k = p at hp
  have hb : 0 ≤ min (2 * p * 1000000000) (300 * 1000000000)
      ∧ min (2 * p * 1000000000) (300 * 1000000000) ≤ 300000000000 := by
    rw [min_def]
    split_ifs <;> omega
  rw [wrapInt64_id _ (by omega) (by omega)]
  rw [min_def, min_def]
  split_ifs <;> omega

/-- The loop keeps the invariant: the waits completed so far and the current
value of `backoff` follow the stated sequence. -/
theorem reconnectLoop_waits (cancelled startFails : Nat → Bool) (fuel n : Nat)
    (waits : List Int) (hlen : waits.length = n)
    (hw : ∀ i w, waits[i]? = some w → w = statedWait (i + 1)) :
    ∀ i w, (reconnectLoop cancelled startFails fuel n (statedWait (n + 1)) waits).1[i]? = some w →
      w = statedWait (i + 1) := by
  induction fuel generalizing n waits with
  | zero => simpa [reconnectLoop] using hw
  | succ fuel ih =>
    have hw' : ∀ i w, (waits ++ [statedWait (n + 1)])[i]? = some w → w = statedWait (i + 1) := by
      intro i w hi
      by_cases h : i < waits.length
      · rw [List.getElem?_append_left h] at hi
        exact hw i w hi
      · rw [List.getElem?_append_right (by omega)] at hi
        have h0 : i - waits.length = 0 := by
          by_contra hne
          rw [List.getElem?_eq_none (by simp; omega)] at hi
          exact absurd hi (by simp)
        rw [h0] at hi
        simp only [List.getElem?_cons_zero, Option.some.injEq] at hi
        have : i = n := by omega
        rw [← hi, this]
    unfold reconnectLoop
    by_cases hc : cancelled n = true
    · rw [if_pos hc]
      exact hw
    · rw [if_neg hc]
      dsimp only
      by_cases hf : startFails n = true
      · rw [if_pos hf, nextBackoff_statedWait (n + 1) (by omega)]
        exact ih (n + 1) _ (by rw [List.length_append, hlen]; rfl) hw'
      · rw [if_neg hf]
        exact hw'

/-- As long as the reconnect attempts fail and the context is not cancelled,
the next wait takes place. -/
theorem reconnectLoop_progress (cancelled startFails : Nat → Bool) (fuel n m : Nat)
    (backoff : Int) (waits : List Int) (hlen : waits.length = n) (hnm : n ≤ m)
    (hfail : ∀ k, n ≤ k → k < m → cancelled k = false ∧ startFails k = true)
    (hlast : cancelled m = false) (hfuel : m - n < fuel) :
    m < (reconnectLoop cancelled startFails fuel n backoff waits).1.length := by
  induction fuel generalizing n backoff waits with
  | zero => omega
  | succ fuel ih =>
    unfold reconnectLoop
    by_cases hnm' : n = m
    · subst hnm'
      rw [if_neg (by simp [hlast])]
      dsimp only
      have hmono : ∀ (f k : Nat) (b : Int) (ws : List Int),
          ws.length ≤ (reconnectLoop cancelled startFails f k b ws).1.length := by
        intro f
        induction f with
        | zero => intro k b ws; simp [reconnectLoop]
        | succ f ihf =>
          intro k b ws
          unfold reconnectLoop
          split
          · exact Nat.le_refl _
          · dsimp only
            split
            · exact Nat.le_trans (by simp) (ihf _ _ _)
            · simp
      split
      · exact Nat.lt_of_lt_of_le (by simp [hlen]) (hmono _ _ _ _)
      · simp [hlen]
    · obtain ⟨h1, h2⟩ := hfail n (Nat.le_refl _) (by omega)
      rw [if_neg (by simp [h1])]
      dsimp only
      rw [if_pos h2]
      exact ih (n + 1) _ _ (by rw [List.length_append, hlen]; rfl) (by omega)
        (fun k hk hkm => hfail k (by omega) hkm) (by omega)

/-- C17: in every call of `reconnectPolling`, the wait before the `n`-th
consecutive reconnect attempt (`n` from one) is `min(2 * 2^(n-1) s, 300 s)`,
and that wait takes place whenever the `n - 1` attempts before it failed and
the context was not cancelled; so the wait starts at 2 s in every episode,
never exceeds 5 minutes and never decreases. -/
theorem reconnectPolling_backoff (cancelled startFails : Nat → Bool) (fuel n : Nat)
    (hn : 1 ≤ n) :
    (∀ w, (reconnectPolling cancelled startFails fuel).1[n - 1]? = some w → w = statedWait n)
    ∧ ((∀ k, k < n - 1 → cancelled k = false ∧ startFails k = true) →
        cancelled (n - 1) = false → n ≤ fuel →
        (reconnectPolling cancelled startFails fuel).1[n - 1]? = some (statedWait n))
    ∧ statedWait 1 = 2 * Second
    ∧ statedWait n ≤ 5 * Minute
    ∧ statedWait n ≤ statedWait (n + 1) := by
  have hclosed : ∀ i w, (reconnectPolling cancelled startFails fuel).1[i]? = some w →
      w = statedWait (i + 1) := by
    unfold reconnectPolling
    rw [← statedWait_one]
    exact reconnectLoop_waits cancelled startFails fuel 0 [] rfl (by simp)
  have hn1 : n - 1 + 1 = n := by omega
  refine ⟨?_, ?_, by decide, ?_, ?_⟩
  · intro w hw
    have := hclosed (n - 1) w hw
    rwa [hn1] at this
  · intro hfail hlast hfuel
    have hlt : n - 1 < (reconnectPolling cancelled startFails fuel).1.length :=
      reconnectLoop_progress cancelled startFails fuel 0 (n - 1) baseBackoff [] rfl
        (Nat.zero_le _) (fun k _ hk => hfail k hk) hlast (by omega)
    rw [List.getElem?_eq_getElem hlt]
    have := hclosed (n - 1) _ (List.getElem?_eq_getElem hlt)
    rw [hn1] at this
    rw [this]
  · unfold statedWait Minute
    have : (300 : Int) * Second = 5 * (60 * Second) := by unfold Second; norm_num
    rw [this]
    exact min_le_right _ _
  · obtain ⟨k, rfl⟩ : ∃ k, n = k + 1 := ⟨n - 1, by omega⟩
    unfold statedWait Second
    simp only [Nat.add_sub_cancel]
    rw [pow_succ]
    have hp : (1 : Int) ≤ 2 ^ k := one_le_pow₀ (by norm_num)
    generalize (2 : Int) ^ k = p at hp
    rw [min_def, min_def]
    split_ifs <;> omega

/-- C17 for an episode whose first nine attempts fail: the waits are 2, 4, 8,
16, 32, 64, 128, 256, 300 and 300 seconds. -/
theorem reconnectPolling_backoff_witness :
    (reconnectPolling (fun _ => false) (fun k => decide (k < 9)) 20).1
      = [2 * Second, 4 * Second, 8 * Second, 16 * Second, 32 * Second, 64 * Second,
          128 * Second, 256 * Second, 300 * Second, 300 * Second]
    ∧ (reconnectPolling (fun _ => false) (fun k => decide (k < 9)) 20).1[9 - 1]?
        = some (statedWait 9) :=
  ⟨by decide,
    (reconnectPolling_backoff (fun _ => false) (fun k => decide (k < 9)) 20 9 (by decide)).2.1
      (fun k hk => ⟨rfl, by
        have : k < 9 := by omega
        simp [this]⟩)
      rfl (by decide)⟩

/-! ### `Deliberate`: the loop -/

/-- The turn of one member when the deadline has not expired. -/
theorem deliberateLoop_single (c : CouncilWorld) (question : GoString) (m : Member) (k : Nat)
    (R : List MemberResponse) (T : List CouncilEvent) (hd : c.deadline k = none) :
    deliberateLoop c question [m] k R T
      = { responses := R ++ [entryOf m (c.chat k (memberMessages m question R) m.Model)],
          err := none,
          trace := T ++ eventsOf m (memberMessages m question R)
            (c.chat k (memberMessages m question R) m.Model) } := by
  simp only [deliberateLoop, hd]
  cases c.chat k (memberMessages m question R) m.Model <;>
    simp [deliberateLoop, entryOf, eventsOf]

/-- The loop over a concatenation: the second part runs from the state the
first part leaves, unless the first part stopped at the deadline. -/
theorem deliberateLoop_append (c : CouncilWorld) (question : GoString)
    (pre post : List Member) (k : Nat) (R : List MemberResponse) (T : List CouncilEvent) :
    deliberateLoop c question (pre ++ post) k R T
      = match (deliberateLoop c question pre k R T).err with
        | some _ => deliberateLoop c question pre k R T
        | none => deliberateLoop c question post (k + pre.length)
            (deliberateLoop c question pre k R T).responses
            (deliberateLoop c question pre k R T).trace := by
  induction pre generalizing k R T with
  | nil => simp [deliberateLoop]
  | cons m rest ih =>
    simp only [List.cons_append, deliberateLoop, List.length_cons]
    cases hd : c.deadline k with
    | some err => rfl
    | none =>
      dsimp only
      have e : k + (rest.length + 1) = k + 1 + rest.length := by omega
      cases c.chat k (memberMessages m question R) m.Model with
      | error err => dsimp only; rw [List.append_eq, ih, e]
      | ok content => dsimp only; rw [List.append_eq, ih, e]

/-- The loop only appends to the transcript and to the trace. -/
theorem deliberateLoop_extends (c : CouncilWorld) (question : GoString) (ms : List Member)
    (k : Nat) (R : List MemberResponse) (T : List CouncilEvent) :
    ∃ R' T', (deliberateLoop c question ms k R T).responses = R ++ R'
      ∧ (deliberateLoop c question ms k R T).trace = T ++ T' := by
  induction ms generalizing k R T with
  | nil => exact ⟨[], [], by simp [deliberateLoop], by simp [deliberateLoop]⟩
  | cons m rest ih =>
    simp only [deliberateLoop]
    cases c.deadline k with
    | some err => exact ⟨[], [], by simp, by simp⟩
    | none =>
      dsimp only
      cases c.chat k (memberMessages m question R) m.Model with
      | error err =>
        dsimp only
        obtain ⟨R', T', h1, h2⟩ := ih (k + 1)
          (R ++ [{ Name := m.Name, Response := go "[Error: " ++ err ++ go "]" }])
          (T ++ [CouncilEvent.chat m.Model (memberMessages m question R)])
        exact ⟨_, _, by rw [h1, List.append_assoc], by rw [h2, List.append_assoc]⟩
      | ok content =>
        dsimp only
        obtain ⟨R', T', h1, h2⟩ := ih (k + 1)
          (R ++ [{ Name := m.Name, Response := TrimSpace content }])
          (T ++ [CouncilEvent.chat m.Model (memberMessages m question R)]
            ++ [CouncilEvent.post m (TrimSpace content)])
        exact ⟨_, _, by rw [h1, List.append_assoc],
          by rw [h2, List.append_assoc, List.append_assoc]⟩

/-- A run in which the deadline does not expire: the transcript has one entry
per member and the trace one turn per member, in configuration order. -/
theorem Deliberate_run (c : CouncilWorld) (question : GoString) (ms : List Member)
    (hd : ∀ k, k < ms.length → c.deadline k = none) :
    (Deliberate c ms question).err = none
    ∧ (Deliberate c ms question).responses
        = ms.enum.map (fun p =>
            entryOf p.2 (outcomeOf c question (Deliberate c ms question).responses p))
    ∧ (Deliberate c ms question).trace
        = (ms.enum.map (fun p =>
            eventsOf p.2
              (memberMessages p.2 question ((Deliberate c ms question).responses.take p.1))
              (outcomeOf c question (Deliberate c ms question).responses p))).flatten := by
  induction ms using List.reverseRecOn with
  | nil => simp [Deliberate, deliberateLoop]
  | append_singleton ms m ih =>
    obtain ⟨h1, h2, h3⟩ := ih (fun k hk => hd k (by rw [List.length_append]; omega))
    have hdm : c.deadline (0 + ms.length) = none :=
      hd _ (by rw [List.length_append, List.length_singleton]; omega)
    have hlen : (Deliberate c ms question).responses.length = ms.length := by
      have := congrArg List.length h2
      simpa using this
    have hrun : Deliberate c (ms ++ [m]) question
        = { responses := (Deliberate c ms question).responses ++
              [entryOf m (c.chat (0 + ms.length)
                (memberMessages m question (Deliberate c ms question).responses) m.Model)],
            err := none,
            trace := (Deliberate c ms question).trace ++
              eventsOf m (memberMessages m question (Deliberate c ms question).responses)
                (c.chat (0 + ms.length)
                  (memberMessages m question (Deliberate c ms question).responses) m.Model) } := by
      unfold Deliberate at h1 ⊢
      rw [deliberateLoop_append, h1]
      dsimp only
      rw [deliberateLoop_single _ _ _ _ _ _ hdm]
    rw [Nat.zero_add] at hrun
    generalize hrs : (Deliberate c ms question).responses = rs at *
    generalize htr : (Deliberate c ms question).trace = tr at *
    generalize he : entryOf m (c.chat ms.length (memberMessages m question rs) m.Model) = e at *
    have htake : ∀ p ∈ ms.enum, (rs ++ [e]).take p.1 = rs.take p.1 := by
      intro p hp
      have := List.fst_lt_of_mem_enum hp
      exact List.take_append_of_le_length (by omega)
    have hlast : (rs ++ [e]).take ms.length = rs := by
      rw [← hlen]
      exact List.take_left _ _
    rw [hrun]
    dsimp only
    refine ⟨rfl, ?_, ?_⟩
    · rw [List.enum_append, List.map_append, List.enumFrom_singleton]
      have A : ms.enum.map (fun p => entryOf p.2 (outcomeOf c question (rs ++ [e]) p)) = rs := by
        nth_rewrite 2 [h2]
        apply List.map_congr_left
        intro p hp
        simp only [outcomeOf, htake p hp]
      have B : [(ms.length, m)].map
          (fun p => entryOf p.2 (outcomeOf c question (rs ++ [e]) p)) = [e] := by
        simp only [List.map_cons, List.map_nil, outcomeOf, hlast, he]
      rw [A, B]
    · rw [List.enum_append, List.map_append, List.enumFrom_singleton, List.flatten_append]
      have A : (ms.enum.map (fun p =>
          eventsOf p.2 (memberMessages p.2 question ((rs ++ [e]).take p.1))
            (outcomeOf c question (rs ++ [e]) p))).flatten = tr := by
        rw [h3]
        congr 1
        apply List.map_congr_left
        intro p hp
        simp only [outcomeOf, htake p hp]
      have B : ([(ms.length, m)].map (fun p =>
          eventsOf p.2 (memberMessages p.2 question ((rs ++ [e]).take p.1))
            (outcomeOf c question (rs ++ [e]) p))).flatten
          = eventsOf m (memberMessages m question rs)
              (c.chat ms.length (memberMessages m question rs) m.Model) := by
        simp only [List.map_cons, List.map_nil, outcomeOf, hlast, List.flatten_cons,
          List.flatten_nil, List.append_nil]
      rw [A, B]

/-! ### `Deliberate`: transcript, calls and posts -/

theorem callsOf_append (a b : List CouncilEvent) : callsOf (a ++ b) = callsOf a ++ callsOf b := by
  simp [callsOf, List.filterMap_append]

theorem postsOf_append (a b : List CouncilEvent) : postsOf (a ++ b) = postsOf a ++ postsOf b := by
  simp [postsOf, List.filterMap_append]

theorem callsOf_eventsOf (m : Member) (msgs : List Message) (o : Except GoString GoString) :
    callsOf (eventsOf m msgs o) = [(m.Model, msgs)] := by
  cases o <;> simp [callsOf, eventsOf]

theorem postsOf_eventsOf (m : Member) (msgs : List Message) (o : Except GoString GoString) :
    postsOf (eventsOf m msgs o) = (postOf m o).toList := by
  cases o <;> simp [postsOf, eventsOf, postOf]

theorem callsOf_turns {α : Type} (l : List α) (f : α → List CouncilEvent)
    (g : α → GoString × List Message) (h : ∀ a, callsOf (f a) = [g a]) :
    callsOf (l.map f).flatten = l.map g := by
  induction l with
  | nil => simp [callsOf]
  | cons a t ih => rw [List.map_cons, List.flatten_cons, callsOf_append, h, ih]; rfl

theorem postsOf_turns {α : Type} (l : List α) (f : α → List CouncilEvent)
    (g : α → Option (Member × GoString)) (h : ∀ a, postsOf (f a) = (g a).toList) :
    postsOf (l.map f).flatten = l.filterMap g := by
  induction l with
  | nil => simp [postsOf]
  | cons a t ih =>
    rw [List.map_cons, List.flatten_cons, postsOf_append, h, ih, List.filterMap_cons]
    cases g a <;> simp

theorem userContent_fold (rs : List MemberResponse) (acc : GoString) :
    rs.foldl
      (fun userContent r => userContent ++ (go "\n\n**" ++ r.Name ++ go "**:\n" ++ r.Response))
      acc
    = acc ++ (rs.map (fun r => go "\n\n**" ++ r.Name ++ go "**:\n" ++ r.Response)).flatten := by
  induction rs generalizing acc with
  | nil => simp
  | cons r t ih => rw [List.foldl_cons, ih]; simp

theorem userContent_eq (question : GoString) (rs : List MemberResponse) :
    userContent question rs = statedUserContent question rs := by
  unfold userContent statedUserContent
  dsimp only
  split
  · rw [userContent_fold]; simp
  · simp

/-- A run in which the deadline is found expired at the check before the
member of index `k` is the run over the first `k` members, with the timeout
error. -/
theorem Deliberate_stop (c : CouncilWorld) (question : GoString) (members : List Member)
    (k : Nat) (err : GoString) (hk : k < members.length)
    (hbefore : ∀ j, j < k → c.deadline j = none) (hat : c.deadline k = some err) :
    Deliberate c members question
      = { responses := (Deliberate c (members.take k) question).responses,
          err := some err,
          trace := (Deliberate c (members.take k) question).trace } := by
  have hlen : (members.take k).length = k := by rw [List.length_take]; omega
  have hrun := Deliberate_run c question (members.take k) (fun j hj => hbefore j (by omega))
  obtain ⟨m, rest, hdrop⟩ : ∃ m rest, members.drop k = m :: rest := by
    cases hd : members.drop k with
    | nil =>
      have := congrArg List.length hd
      rw [List.length_drop] at this
      simp at this
      omega
    | cons m rest => exact ⟨m, rest, rfl⟩
  have e : members = members.take k ++ members.drop k := (List.take_append_drop k _).symm
  unfold Deliberate at hrun ⊢
  nth_rewrite 1 [e]
  rw [deliberateLoop_append, hrun.1, hdrop]
  dsimp only
  rw [hlen, Nat.zero_add]
  simp only [deliberateLoop, hat]

/-- C13: if the deadline of the run does not expire, `Deliberate` returns a nil
error and exactly one entry per member, in configuration order; entry `i`
carries the name of member `i`, and its response is the placeholder
`[Error: <err>]` if the provider call of member `i` failed and the trimmed
content otherwise. A failed call removes no entry. -/
theorem Deliberate_entries (c : CouncilWorld) (members : List Member) (question : GoString)
    (hd : ∀ k, k < members.length → c.deadline k = none) :
    (Deliberate c members question).err = none
    ∧ (Deliberate c members question).responses.length = members.length
    ∧ (Deliberate c members question).responses.map (fun r => r.Name)
        = members.map (fun m => m.Name)
    ∧ ∀ i (hi : i < members.length),
        (Deliberate c members question).responses[i]? = some
          (match c.chat i
              (memberMessages members[i] question
                ((Deliberate c members question).responses.take i))
              members[i].Model with
           | Except.error err =>
             { Name := members[i].Name, Response := go "[Error: " ++ err ++ go "]" }
           | Except.ok content =>
             { Name := members[i].Name, Response := TrimSpace content }) := by
  obtain ⟨h1, h2, _⟩ := Deliberate_run c question members hd
  have hlen : (Deliberate c members question).responses.length = members.length := by
    have := congrArg List.length h2
    simpa using this
  refine ⟨h1, hlen, ?_, ?_⟩
  · nth_rewrite 1 [h2]
    rw [List.map_map]
    have : ((fun r : MemberResponse => r.Name) ∘ fun p : Nat × Member =>
        entryOf p.2 (outcomeOf c question (Deliberate c members question).responses p))
        = (fun m : Member => m.Name) ∘ Prod.snd := by
      funext p
      simp only [Function.comp, entryOf]
      cases outcomeOf c question (Deliberate c members question).responses p <;> rfl
    rw [this, ← List.map_map, List.enum_map_snd]
  · intro i hi
    nth_rewrite 1 [h2]
    rw [List.getElem?_map, List.getElem?_enum, List.getElem?_eq_getElem hi]
    simp only [Option.map_some', entryOf, outcomeOf]

/-- C13 at the example of the specification: three members, the call of the
second fails; three entries, the second the placeholder, the others real text. -/
theorem Deliberate_entries_witness :
    (Deliberate secondFails threeMembers (go "q")).responses
      = [{ Name := go "Ana", Response := go "de acuerdo" },
         { Name := go "Beto", Response := go "[Error: boom]" },
         { Name := go "Caro", Response := go "de acuerdo" }]
    ∧ (Deliberate secondFails threeMembers (go "q")).err = none
    ∧ (Deliberate secondFails threeMembers (go "q")).responses.length = threeMembers.length :=
  ⟨by decide,
    (Deliberate_entries secondFails threeMembers (go "q") (fun _ _ => rfl)).1,
    (Deliberate_entries secondFails threeMembers (go "q") (fun _ _ => rfl)).2.1⟩

/-- C14: if the deadline is first found expired at the check before the member
of index `k` (after `k` members finished), `Deliberate` returns the `k` entries
collected so far with the timeout error, and makes no provider call and no
post for the later members: transcript and trace are those of the run over the
first `k` members. -/
theorem Deliberate_deadline (c : CouncilWorld) (members : List Member) (question : GoString)
    (k : Nat) (err : GoString) (hk : k < members.length)
    (hbefore : ∀ j, j < k → c.deadline j = none) (hat : c.deadline k = some err) :
    (Deliberate c members question).err = some err
    ∧ (Deliberate c members question).responses.length = k
    ∧ (Deliberate c members question).responses
        = (Deliberate c (members.take k) question).responses
    ∧ (Deliberate c members question).trace = (Deliberate c (members.take k) question).trace
    ∧ (callsOf (Deliberate c members question).trace).length = k
    ∧ ∀ p ∈ postsOf (Deliberate c members question).trace, p.1 ∈ members.take k := by
  have hlen : (members.take k).length = k := by rw [List.length_take]; omega
  have hstop := Deliberate_stop c question members k err hk hbefore hat
  obtain ⟨_, h2, h3⟩ := Deliberate_run c question (members.take k)
    (fun j hj => hbefore j (by omega))
  rw [hstop]
  dsimp only
  refine ⟨rfl, ?_, rfl, rfl, ?_, ?_⟩
  · have := congrArg List.length h2
    simpa [hlen] using this
  · rw [h3, callsOf_turns _ _
      (fun p => (p.2.Model, memberMessages p.2 question
        ((Deliberate c (members.take k) question).responses.take p.1)))
      (fun p => callsOf_eventsOf _ _ _)]
    simp [hlen]
  · intro p hp
    rw [h3, postsOf_turns _ _
      (fun p => postOf p.2 (outcomeOf c question
        (Deliberate c (members.take k) question).responses p))
      (fun p => postsOf_eventsOf _ _ _)] at hp
    obtain ⟨q, hq, hqp⟩ := List.mem_filterMap.1 hp
    have hmem : q.2 ∈ members.take k := by
      have := List.mem_enum_iff_getElem?.1 hq
      exact List.getElem?_mem this
    cases ho : outcomeOf c question (Deliberate c (members.take k) question).responses q with
    | error e => rw [ho] at hqp; simp [postOf] at hqp
    | ok content =>
      rw [ho] at hqp
      simp only [postOf, Option.some.injEq] at hqp
      rw [← hqp]
      exact hmem

/-- C14 at the example of the specification: three members, the deadline found
expired before the second; one entry, a timeout error, one call, one post. -/
theorem Deliberate_deadline_witness :
    (Deliberate expiresAfterFirst threeMembers (go "q")).responses
      = [{ Name := go "Ana", Response := go "de acuerdo" }]
    ∧ (Deliberate expiresAfterFirst threeMembers (go "q")).err
        = some (go "context deadline exceeded")
    ∧ (Deliberate expiresAfterFirst threeMembers (go "q")).responses.length = 1
    ∧ (callsOf (Deliberate expiresAfterFirst threeMembers (go "q")).trace).length = 1 := by
  have h := Deliberate_deadline expiresAfterFirst threeMembers (go "q") 1
    (go "context deadline exceeded") (by decide)
    (fun j hj => by
      have : j = 0 := by omega
      subst this
      rfl)
    rfl
  exact ⟨by decide, h.1, h.2.1, h.2.2.2.2.1⟩

/-- A run as far as the member of index `i`: the run over the first `i + 1`
members, extended. -/
theorem Deliberate_upto (c : CouncilWorld) (members : List Member) (question : GoString)
    (i : Nat) (hi : i < members.length) (hd : ∀ j, j ≤ i → c.deadline j = none) :
    ∃ R' T',
      (Deliberate c members question).responses
        = (Deliberate c (members.take (i + 1)) question).responses ++ R'
      ∧ (Deliberate c members question).trace
        = (Deliberate c (members.take (i + 1)) question).trace ++ T' := by
  have hlen : (members.take (i + 1)).length = i + 1 := by rw [List.length_take]; omega
  have hrun := Deliberate_run c question (members.take (i + 1))
    (fun j hj => hd j (by omega))
  have key : Deliberate c members question
      = deliberateLoop c question (members.drop (i + 1)) (0 + (members.take (i + 1)).length)
          (Deliberate c (members.take (i + 1)) question).responses
          (Deliberate c (members.take (i + 1)) question).trace := by
    have happ := deliberateLoop_append c question (members.take (i + 1))
      (members.drop (i + 1)) 0 [] []
    rw [List.take_append_drop] at happ
    unfold Deliberate at hrun ⊢
    rw [happ, hrun.1]
  rw [key]
  exact deliberateLoop_extends c question _ _ _ _

/-- C15: the provider call made for the member of index `i` (the `i + 1`-th
member) uses that member's model and two messages: a system message that
starts with the member's personality text, and a user message equal to
`PREGUNTA: ` followed by the question and, if and only if `i > 0`, by
`\n\nRESPUESTAS ANTERIORES:` and then, for every entry already in the
transcript (all `i` earlier members, in order, error placeholders included),
`\n\n**name**:\n` followed by the response. -/
theorem Deliberate_call_input (c : CouncilWorld) (members : List Member) (question : GoString)
    (i : Nat) (hi : i < members.length) (hd : ∀ j, j ≤ i → c.deadline j = none) :
    (callsOf (Deliberate c members question).trace)[i]? = some
        (members[i].Model,
          [{ Role := go "system", Content := deliberationPrompt members[i], Parts := [],
             ToolCalls := [], ToolCallID := [] },
           { Role := go "user",
             Content := statedUserContent question
               ((Deliberate c members question).responses.take i),
             Parts := [], ToolCalls := [], ToolCallID := [] }])
    ∧ members[i].Personality <+: deliberationPrompt members[i]
    ∧ ((Deliberate c members question).responses.take i).length = i
    ∧ ((∀ k, k < members.length → c.deadline k = none) →
        (callsOf (Deliberate c members question).trace).length = members.length) := by
  have hlen : (members.take (i + 1)).length = i + 1 := by rw [List.length_take]; omega
  obtain ⟨_, h2, h3⟩ := Deliberate_run c question (members.take (i + 1))
    (fun j hj => hd j (by omega))
  obtain ⟨R', T', e1, e2⟩ := Deliberate_upto c members question i hi hd
  have hrlen : (Deliberate c (members.take (i + 1)) question).responses.length = i + 1 := by
    have := congrArg List.length h2
    simpa [hlen] using this
  have htake : (Deliberate c members question).responses.take i
      = (Deliberate c (members.take (i + 1)) question).responses.take i := by
    rw [e1]
    exact List.take_append_of_le_length (by omega)
  have hcalls : callsOf (Deliberate c (members.take (i + 1)) question).trace
      = (members.take (i + 1)).enum.map (fun p => (p.2.Model, memberMessages p.2 question
          ((Deliberate c (members.take (i + 1)) question).responses.take p.1))) := by
    rw [h3]
    exact callsOf_turns _ _ _ (fun p => callsOf_eventsOf _ _ _)
  refine ⟨?_, ?_, ?_, ?_⟩
  · rw [e2, callsOf_append, List.getElem?_append_left (by rw [hcalls]; simp [hlen]), hcalls,
      List.getElem?_map, List.getElem?_enum, List.getElem?_take_of_lt (by omega),
      List.getElem?_eq_getElem hi]
    simp only [Option.map_some', memberMessages, userContent_eq, htake]
  · unfold deliberationPrompt
    simp only [List.append_assoc]
    exact List.prefix_append _ _
  · rw [htake, List.length_take, hrlen]
    omega
  · intro hall
    obtain ⟨_, _, h3'⟩ := Deliberate_run c question members hall
    rw [h3', callsOf_turns _ _
      (fun p => (p.2.Model, memberMessages p.2 question
        ((Deliberate c members question).responses.take p.1)))
      (fun p => callsOf_eventsOf _ _ _)]
    simp

/-- C15 for the third of three members when the call of the second failed:
the user message lists the first member's answer and the second member's
error placeholder. -/
theorem Deliberate_call_input_witness :
    statedUserContent (go "q") ((Deliberate secondFails threeMembers (go "q")).responses.take 2)
      = go "PREGUNTA: q\n\nRESPUESTAS ANTERIORES:\n\n**Ana**:\nde acuerdo\n\n**Beto**:\n[Error: boom]"
    ∧ (callsOf (Deliberate secondFails threeMembers (go "q")).trace)[2]?
      = some (threeMembers[2].Model,
          [{ Role := go "system", Content := deliberationPrompt threeMembers[2], Parts := [],
             ToolCalls := [], ToolCallID := [] },
           { Role := go "user",
             Content := statedUserContent (go "q")
               ((Deliberate secondFails threeMembers (go "q")).responses.take 2),
             Parts := [], ToolCalls := [], ToolCallID := [] }]) :=
  ⟨by decide,
    (Deliberate_call_input secondFails threeMembers (go "q") 2 (by decide)
      (fun _ _ => rfl)).1⟩

/-- The calls of a run that completes the turns of the first `k` members (all of
them, or those before the deadline was found expired): the trace is, member by
member in configuration order, the provider call followed, exactly when it
succeeded, by the call of `postToGroup` with that member's trimmed response. -/
theorem Deliberate_turns (c : CouncilWorld) (members : List Member) (question : GoString)
    (k : Nat) (hk : k ≤ members.length) (hbefore : ∀ j, j < k → c.deadline j = none)
    (hstop : k < members.length → c.deadline k ≠ none) :
    (Deliberate c members question).trace
      = ((members.take k).enum.map (fun p =>
          eventsOf p.2
            (memberMessages p.2 question ((Deliberate c members question).responses.take p.1))
            (outcomeOf c question (Deliberate c members question).responses p))).flatten
    ∧ postsOf (Deliberate c members question).trace
      = (members.take k).enum.filterMap (fun p =>
          postOf p.2 (outcomeOf c question (Deliberate c members question).responses p)) := by
  have hlen : (members.take k).length = k := by rw [List.length_take]; omega
  obtain ⟨_, _, h3⟩ := Deliberate_run c question (members.take k)
    (fun j hj => hbefore j (by omega))
  have hsame : (Deliberate c members question).responses
        = (Deliberate c (members.take k) question).responses
      ∧ (Deliberate c members question).trace
        = (Deliberate c (members.take k) question).trace := by
    by_cases hkl : k = members.length
    · subst hkl
      rw [List.take_length]
      exact ⟨rfl, rfl⟩
    · have hlt : k < members.length := by omega
      cases hdk : c.deadline k with
      | none => exact absurd hdk (hstop hlt)
      | some err =>
        rw [Deliberate_stop c question members k err hlt hbefore hdk]
        exact ⟨rfl, rfl⟩
  have htrace : (Deliberate c members question).trace
      = ((members.take k).enum.map (fun p =>
          eventsOf p.2
            (memberMessages p.2 question ((Deliberate c members question).responses.take p.1))
            (outcomeOf c question (Deliberate c members question).responses p))).flatten := by
    rw [hsame.1, hsame.2]
    exact h3
  refine ⟨htrace, ?_⟩
  nth_rewrite 1 [htrace]
  exact postsOf_turns _ _ _ (fun p => postsOf_eventsOf _ _ _)

/-! ### Matching -/

/-- A repetition that may take no further byte goes on with the rest of the
pattern. -/
theorem repMatch_done {R : Type} (cls : Nat → Bool) (greedy : Bool)
    (k : Option Nat → GoString → Option R) (prev : Option Nat) (input : GoString) :
    repMatch cls greedy k 0 (some 0) prev input = k prev input := by
  cases input with
  | nil => simp [repMatch]
  | cons b t =>
    cases greedy
    · simp only [repMatch, ne_eq, not_true_eq_false, and_false, if_false, if_true]
      cases k prev (b :: t) <;> rfl
    · simp only [repMatch, ne_eq, not_true_eq_false, and_false, if_false, if_true]

/-- A literal byte in a pattern. -/
theorem matchItems_lit (c : Nat) (rest : Regex) (st : MatchState) (prev : Option Nat)
    (b : Nat) (t : GoString) :
    matchItems (lit c :: rest) st prev (b :: t)
      = if b = c then matchItems rest st (some b) t else none := by
  simp only [lit, matchItems, repMatch, isByte, decide_eq_true_eq, ne_eq, Option.some.injEq,
    Nat.succ_ne_zero, not_false_eq_true, and_true, Nat.sub_self, Option.map_some', if_true,
    if_false, one_ne_zero]
  by_cases h : b = c
  · rw [if_pos h, if_pos h, repMatch_done]
    cases matchItems rest st (some b) t <;> rfl
  · rw [if_neg h, if_neg h]

theorem matchItems_lit_nil (c : Nat) (rest : Regex) (st : MatchState) (prev : Option Nat) :
    matchItems (lit c :: rest) st prev [] = none := by
  simp [lit, matchItems, repMatch]

theorem lastOr_cons (prev : Option Nat) (x : Nat) (xs : GoString) :
    lastOr prev (x :: xs) = lastOr (some x) xs := by
  cases xs with
  | nil => rfl
  | cons y ys =>
    simp only [lastOr, List.getLast?_cons_cons]
    cases h : (y :: ys).getLast? with
    | some b => rfl
    | none => simp at h

/-- A greedy repetition without bounds reads all the bytes of its class that
lie ahead, if the rest of the pattern matches after them. -/
theorem repMatch_greedy_all {R : Type} (cls : Nat → Bool) (k : Option Nat → GoString → Option R)
    (xs rest : GoString) (prev : Option Nat) (r : R)
    (hxs : ∀ b ∈ xs, cls b = true) (hrest : ∀ b, rest.head? = some b → cls b = false)
    (hk : k (lastOr prev xs) rest = some r) :
    repMatch cls true k 0 none prev (xs ++ rest) = some r := by
  induction xs generalizing prev with
  | nil =>
    cases rest with
    | nil => simpa [repMatch, lastOr] using hk
    | cons b t =>
      have hb := hrest b rfl
      simp only [List.nil_append, repMatch, hb, Bool.false_eq_true, false_and, if_false,
        if_true]
      simpa [lastOr] using hk
  | cons x xs ih =>
    have hx := hxs x (List.mem_cons_self _ _)
    have := ih (some x) (fun b hb => hxs b (List.mem_cons_of_mem _ hb))
      (by rw [← lastOr_cons]; exact hk)
    simp only [List.cons_append, repMatch, hx, ne_eq, not_false_eq_true, and_self, if_true,
      Nat.zero_sub, Option.map_none', List.append_eq, this, reduceCtorEq]

/-- A lazy repetition without bounds reads on as long as the rest of the
pattern does not match, and stops where it does. -/
theorem repMatch_lazy_until {R : Type} (cls : Nat → Bool) (k : Option Nat → GoString → Option R)
    (xs rest : GoString) (prev : Option Nat) (r : R)
    (hxs : ∀ b ∈ xs, cls b = true)
    (hfail : ∀ p b t, b ∈ xs → k p (b :: t) = none)
    (hk : k (lastOr prev xs) rest = some r) :
    repMatch cls false k 0 none prev (xs ++ rest) = some r := by
  induction xs generalizing prev with
  | nil =>
    cases rest with
    | nil => simpa [repMatch, lastOr] using hk
    | cons b t =>
      have hk' : k prev (b :: t) = some r := by simpa [lastOr] using hk
      simp only [List.nil_append, repMatch, if_true, hk', Bool.false_eq_true, if_false]
  | cons x xs ih =>
    have hx := hxs x (List.mem_cons_self _ _)
    have hno := hfail prev x (xs ++ rest) (List.mem_cons_self _ _)
    have := ih (some x) (fun b hb => hxs b (List.mem_cons_of_mem _ hb))
      (fun p b t hb => hfail p b t (List.mem_cons_of_mem _ hb))
      (by rw [← lastOr_cons]; exact hk)
    simp only [List.cons_append, repMatch, hx, ne_eq, not_false_eq_true, and_self, if_true,
      Nat.zero_sub, Option.map_none', List.append_eq, this, hno, Bool.false_eq_true, if_false,
      reduceCtorEq]

/-! ### A fenced code block -/

theorem matchItems_nil (st : MatchState) (prev : Option Nat) (input : GoString) :
    matchItems [] st prev input = some (input, st) := by
  rw [matchItems]

theorem matchItems_open (k : Nat) (rest : Regex) (st : MatchState) (prev : Option Nat)
    (input : GoString) :
    matchItems (RegexItem.openGroup k :: rest) st prev input
      = matchItems rest { st with starts := (k, input) :: st.starts } prev input := by
  rw [matchItems]

theorem matchItems_close (k : Nat) (rest : Regex) (st : MatchState) (prev : Option Nat)
    (input : GoString) :
    matchItems (RegexItem.closeGroup k :: rest) st prev input
      = matchItems rest
          { st with caps :=
              (k, ((st.starts.lookup k).getD input).take
                (((st.starts.lookup k).getD input).length - input.length)) :: st.caps }
          prev input := by
  rw [matchItems]

theorem matchItems_rep (cls : Nat → Bool) (min : Nat) (max : Option Nat) (greedy : Bool)
    (rest : Regex) (st : MatchState) (prev : Option Nat) (input : GoString) :
    matchItems (RegexItem.rep cls min max greedy :: rest) st prev input
      = repMatch cls greedy (fun prev input => matchItems rest st prev input) min max prev
          input := by
  rw [matchItems]

/-- An optional item that finds its byte takes it, if the rest of the pattern
matches after it. -/
theorem repMatch_optional {R : Type} (cls : Nat → Bool) (k : Option Nat → GoString → Option R)
    (prev : Option Nat) (b : Nat) (t : GoString) (r : R) (hb : cls b = true)
    (hk : k (some b) t = some r) :
    repMatch cls true k 0 (some 1) prev (b :: t) = some r := by
  simp only [repMatch, hb, ne_eq, Option.some.injEq, one_ne_zero, not_false_eq_true, and_self,
    if_true, Nat.zero_sub, Option.map_some', Nat.sub_self, repMatch_done, hk]

/-- The closing fence and the end of the group, as the rest of the pattern
after the lazy repetition: it does not match at a byte that is no backtick. -/
theorem fence_close_fails (st : MatchState) (p : Option Nat) (b : Nat) (t : GoString)
    (hb : b ≠ backtick) :
    matchItems [RegexItem.closeGroup 1, lit backtick, lit backtick, lit backtick] st p (b :: t)
      = none := by
  rw [matchItems_close, matchItems_lit, if_neg hb]

/-- The pattern of `extractCodeBlocks` on a block with a language tag, a line
break and a content without backticks: the match is the whole block, and the
group is the content. -/
theorem reCodeBlockCap_match (lang c : GoString) (hlang : ∀ b ∈ lang, isWord b = true)
    (hc : ∀ b ∈ c, b ≠ backtick) :
    ∃ st, matchItems reCodeBlockCap { starts := [], caps := [] } none
        (go "```" ++ lang ++ go "\n" ++ c ++ go "```") = some ([], st)
      ∧ st.caps = [(1, c)] := by
  have h3 : go "```" = [backtick, backtick, backtick] := by decide
  have hn : go "\n" = [10] := by decide
  refine ⟨{ starts := [(1, c ++ [backtick, backtick, backtick])], caps := [(1, c)] }, ?_, rfl⟩
  rw [h3, hn]
  have hshape : [backtick, backtick, backtick] ++ lang ++ [10] ++ c
        ++ [backtick, backtick, backtick]
      = backtick :: backtick :: backtick ::
          (lang ++ (10 :: (c ++ [backtick, backtick, backtick]))) := by
    simp
  rw [hshape]
  unfold reCodeBlockCap
  rw [matchItems_lit, if_pos rfl, matchItems_lit, if_pos rfl, matchItems_lit, if_pos rfl,
    matchItems_rep]
  apply repMatch_greedy_all isWord _ lang _ (some backtick) _ hlang
  · intro b hb
    simp only [List.head?_cons, Option.some.injEq] at hb
    rw [← hb]
    decide
  · show matchItems _ _ _ _ = _
    rw [matchItems_rep]
    apply repMatch_optional _ _ _ _ _ _ (by decide)
    show matchItems _ _ _ _ = _
    rw [matchItems_open, matchItems_rep]
    apply repMatch_lazy_until anyByte _ c _ (some 10) _ (fun _ _ => rfl)
    · intro p b t hb
      exact fence_close_fails _ p b t (hc b hb)
    · show matchItems _ _ _ _ = _
      rw [matchItems_close, matchItems_lit, if_pos rfl, matchItems_lit, if_pos rfl,
        matchItems_lit, if_pos rfl, matchItems_nil]
      simp [List.lookup]

/-- A text that the pattern matches from its first to its last byte is one
piece. -/
theorem scan_whole (re : Regex) (input : GoString) (st : MatchState) (hne : input ≠ [])
    (hm : matchItems re { starts := [], caps := [] } none input = some ([], st)) :
    scan re input = [Piece.hit input st.caps] := by
  cases input with
  | nil => exact absurd rfl hne
  | cons b t =>
    unfold scan
    rw [List.length_cons]
    simp only [scanAux, hm, List.length_nil, List.length_cons, Nat.zero_lt_succ, if_true,
      Nat.sub_zero]
    have htake : (b :: t).take (t.length + 1) = b :: t := by
      rw [← List.length_cons b t]; exact List.take_length _
    rw [htake]
    cases t.length <;> simp [scanAux]

/-- The placeholder of the first code block. -/
theorem placeholder_zero : go "\x00CB" ++ decimal 0 ++ go "\x00" = [0, 67, 66, 48, 0] := by
  decide

/-- `extractCodeBlocks` on a single fenced block: the text becomes the
placeholder of index 0 and the content is the only code. -/
theorem extractCodeBlocks_block (lang c : GoString) (hlang : ∀ b ∈ lang, isWord b = true)
    (hc : ∀ b ∈ c, b ≠ backtick) :
    (extractCodeBlocks (go "```" ++ lang ++ go "\n" ++ c ++ go "```")).text = [0, 67, 66, 48, 0]
    ∧ (extractCodeBlocks (go "```" ++ lang ++ go "\n" ++ c ++ go "```")).codes = [c] := by
  obtain ⟨st, hm, hcaps⟩ := reCodeBlockCap_match lang c hlang hc
  have hne : go "```" ++ lang ++ go "\n" ++ c ++ go "```" ≠ [] := by
    have h3 : go "```" = [backtick, backtick, backtick] := by decide
    rw [h3]
    simp
  have hscan := scan_whole reCodeBlockCap _ st hne hm
  unfold extractCodeBlocks
  dsimp only
  constructor
  · unfold ReplaceAllStringFunc
    rw [hscan]
    simp only [List.foldl_cons, List.foldl_nil, List.nil_append]
    exact placeholder_zero
  · unfold FindAllStringSubmatch
    rw [hscan, hcaps]
    simp [group, List.lookup]

/-- Replacing a string that is all of the text. -/
theorem ReplaceAll_self (s new : GoString) (hs : s ≠ []) : ReplaceAll s s new = new := by
  cases s with
  | nil => exact absurd rfl hs
  | cons b t =>
    unfold ReplaceAll
    rw [List.length_cons]
    have hp : (b :: t).isPrefixOf (b :: t) = true := List.isPrefixOf_iff_prefix.2 (List.prefix_refl _)
    have hd : (b :: t).drop (b :: t).length = [] := List.drop_length _
    simp only [replaceAllAux, hp, if_true, hd]
    cases t.length <;> simp [replaceAllAux]

/-- The rendering of a text whose only code is one code block and whose rest
is nothing: the block in `<pre><code>`, its content escaped. -/
theorem markdownToTelegramHTML_single_block (text code : GoString) (hne : text ≠ [])
    (htext : (extractCodeBlocks text).text = [0, 67, 66, 48, 0])
    (hcodes : (extractCodeBlocks text).codes = [code]) :
    markdownToTelegramHTML text = go "<pre><code>" ++ escapeHTML code ++ go "</code></pre>" := by
  have e1 : (extractInlineCodes [0, 67, 66, 48, 0]).text = [0, 67, 66, 48, 0] := by decide
  have e2 : (extractInlineCodes [0, 67, 66, 48, 0]).codes = [] := by decide
  have e3 : ReplaceAllString reHeading [0, 67, 66, 48, 0] [TemplatePart.ref 1]
      = [0, 67, 66, 48, 0] := by decide
  have e4 : ReplaceAllString reBlockquote [0, 67, 66, 48, 0] [TemplatePart.ref 1]
      = [0, 67, 66, 48, 0] := by decide
  have e5 : escapeHTML [0, 67, 66, 48, 0] = [0, 67, 66, 48, 0] := by decide
  have e6 : ReplaceAllString reLink [0, 67, 66, 48, 0]
      [TemplatePart.text (go "<a href=\""), TemplatePart.ref 2, TemplatePart.text (go "\">"),
       TemplatePart.ref 1, TemplatePart.text (go "</a>")] = [0, 67, 66, 48, 0] := by decide
  have e7 : ReplaceAllString reBold [0, 67, 66, 48, 0]
      [TemplatePart.text (go "<b>"), TemplatePart.ref 1, TemplatePart.text (go "</b>")]
      = [0, 67, 66, 48, 0] := by decide
  have e8 : ReplaceAllString reUnderBold [0, 67, 66, 48, 0]
      [TemplatePart.text (go "<b>"), TemplatePart.ref 1, TemplatePart.text (go "</b>")]
      = [0, 67, 66, 48, 0] := by decide
  have e9 : ReplaceAllStringFunc reItalic [0, 67, 66, 48, 0] (fun _ s =>
      match FindStringSubmatch reItalic s with
      | none => s
      | some m => go "<i>" ++ group m 1 ++ go "</i>") = [0, 67, 66, 48, 0] := by decide
  have e10 : ReplaceAllString reStrike [0, 67, 66, 48, 0]
      [TemplatePart.text (go "<s>"), TemplatePart.ref 1, TemplatePart.text (go "</s>")]
      = [0, 67, 66, 48, 0] := by decide
  have e11 : ReplaceAllString reListItem [0, 67, 66, 48, 0] [TemplatePart.text (go "• ")]
      = [0, 67, 66, 48, 0] := by decide
  have e12 : go "\x00" ++ go "CB" ++ decimal 0 ++ go "\x00" = [0, 67, 66, 48, 0] := by decide
  unfold markdownToTelegramHTML
  rw [if_neg hne]
  simp only [htext, hcodes, e1, e2, e3, e4, e5, e6, e7, e8, e9, e10, e11, restoreCodes, e12]
  exact ReplaceAll_self _ _ (by simp)

/-! ### `escapeHTML` -/

theorem replaceAllAux_byte (x : Nat) (new s : GoString) (fuel : Nat) (hf : s.length ≤ fuel) :
    replaceAllAux [x] new fuel s = s.flatMap (fun b => if b = x then new else [b]) := by
  induction s generalizing fuel with
  | nil => cases fuel <;> simp [replaceAllAux]
  | cons b t ih =>
    cases fuel with
    | zero => simp at hf
    | succ fuel =>
      simp only [List.length_cons, Nat.add_le_add_iff_right] at hf
      have hp : ([x] : GoString).isPrefixOf (b :: t) = decide (x = b) := by
        simp only [List.isPrefixOf, Bool.and_true]
        by_cases h : x = b <;> simp [h]
      simp only [replaceAllAux, hp, decide_eq_true_eq, List.length_singleton, List.drop_succ_cons,
        List.drop_zero, List.flatMap_cons, ih fuel hf]
      by_cases h : x = b
      · rw [if_pos h, if_pos h.symm]
      · rw [if_neg h, if_neg (fun e => h e.symm)]
        rfl

/-- Replacing one byte throughout a string. -/
theorem ReplaceAll_byte (x : Nat) (new s : GoString) :
    ReplaceAll s [x] new = s.flatMap (fun b => if b = x then new else [b]) :=
  replaceAllAux_byte x new s s.length (Nat.le_refl _)

/-- `escapeHTML` works byte by byte: only `&`, `<` and `>` are changed. -/
theorem escapeHTML_bytes (s : GoString) : escapeHTML s = s.flatMap escapeByte := by
  have ha : go "&" = [38] := by decide
  have hl : go "<" = [60] := by decide
  have hg : go ">" = [62] := by decide
  unfold escapeHTML
  dsimp only
  rw [ha, hl, hg, ReplaceAll_byte, ReplaceAll_byte, ReplaceAll_byte, List.flatMap_assoc,
    List.flatMap_assoc]
  apply List.flatMap_congr
  intro b _
  unfold escapeByte
  by_cases h1 : b = 38
  · subst h1; decide
  · by_cases h2 : b = 60
    · subst h2; decide
    · by_cases h3 : b = 62
      · subst h3; decide
      · simp [h1, h2, h3]

/-- C12: for every language tag made of word characters (possibly empty) and
every code content without a backtick, a fenced block with the tag, a line
break and the content renders as the content in `<pre><code>`, with only `&`,
`<` and `>` escaped and every other byte, such as `*`, `_`, `~`, `[`, `]`,
`(`, `)`, `#` or `-`, as it is; no rule for bold, italic, strike, link,
heading or list applies to it. The content may also hold NUL bytes. -/
theorem markdownToTelegramHTML_code_block (lang c : GoString)
    (hlang : ∀ b ∈ lang, isWord b = true) (hc : ∀ b ∈ c, b ≠ backtick) :
    markdownToTelegramHTML (go "```" ++ lang ++ go "\n" ++ c ++ go "```")
      = go "<pre><code>" ++ escapeHTML c ++ go "</code></pre>"
    ∧ escapeHTML c = c.flatMap escapeByte := by
  obtain ⟨h1, h2⟩ := extractCodeBlocks_block lang c hlang hc
  have hne : go "```" ++ lang ++ go "\n" ++ c ++ go "```" ≠ [] := by
    have h3 : go "```" = [backtick, backtick, backtick] := by decide
    rw [h3]
    simp
  exact ⟨markdownToTelegramHTML_single_block _ c hne h1 h2, escapeHTML_bytes c⟩

/-- C12 at a Go block whose content has markdown characters and `<`, `>`, `&`. -/
theorem markdownToTelegramHTML_code_block_witness :
    markdownToTelegramHTML (go "```" ++ go "go" ++ go "\n" ++ go "a*b _c_ ~~d~~ [e](f) <g> & # -"
        ++ go "```")
      = go "<pre><code>a*b _c_ ~~d~~ [e](f) &lt;g&gt; &amp; # -</code></pre>" := by
  rw [(markdownToTelegramHTML_code_block (go "go") (go "a*b _c_ ~~d~~ [e](f) <g> & # -")
    (by decide) (by decide)).1]
  decide

/-! ### The voice stage of `Send` -/

theorem voiceCalls_append (a b : List SendEvent) :
    voiceCalls (a ++ b) = voiceCalls a ++ voiceCalls b := by
  simp [voiceCalls, List.filterMap_append]

theorem voiceCalls_stopThinkingStage (c : TelegramChannel) (msg : OutboundMessage) :
    voiceCalls (stopThinkingStage c msg).2 = [] := by
  unfold stopThinkingStage
  cases c.stopThinking msg.ChatID with
  | none => rfl
  | some stop => cases stop <;> rfl

theorem voiceCalls_placeholderStage (w : BotWorld) (chatID : Int) (c : TelegramChannel)
    (msg : OutboundMessage) : voiceCalls (placeholderStage w chatID c msg).2 = [] := by
  unfold placeholderStage
  cases c.placeholders msg.ChatID <;> rfl

theorem voiceCalls_mediaStage (w : BotWorld) (chatID : Int) (msg : OutboundMessage) :
    voiceCalls (mediaStage w chatID msg).2 = [] := by
  unfold mediaStage
  cases msg.Media with
  | nil => rfl
  | cons mediaURL rest =>
    dsimp only
    split
    · cases w.SendPhoto chatID mediaURL
        (if msg.Content ≠ [] then some (markdownToTelegramHTML msg.Content) else none) <;> rfl
    · cases w.SendDocument chatID mediaURL
        (if msg.Content ≠ [] then some (markdownToTelegramHTML msg.Content) else none) <;> rfl

theorem voiceCalls_sendChunks (w : BotWorld) (chatID : Int) (chunks : List GoString) :
    ∀ i : Nat, voiceCalls (sendChunks w chatID i chunks).2 = [] := by
  induction chunks with
  | nil => intro i; rfl
  | cons chunk rest ih =>
    intro i
    rw [sendChunks]
    cases w.SendMessage i chatID chunk true with
    | none => exact ih (i + 1)
    | some e =>
      cases w.SendMessage i chatID chunk false with
      | none => exact ih (i + 1)
      | some e2 => rfl

theorem voiceCalls_textStage (w : BotWorld) (chatID : Int) (msg : OutboundMessage) :
    voiceCalls (textStage w chatID msg).2 = [] :=
  voiceCalls_sendChunks w chatID _ 0

theorem voiceInput_stopThinkingStage (c : TelegramChannel) (msg : OutboundMessage) :
    (stopThinkingStage c msg).1.voiceInput = c.voiceInput := by
  unfold stopThinkingStage
  cases c.stopThinking msg.ChatID <;> rfl

theorem voiceInput_placeholderStage (w : BotWorld) (chatID : Int) (c : TelegramChannel)
    (msg : OutboundMessage) : (placeholderStage w chatID c msg).1.voiceInput = c.voiceInput := by
  unfold placeholderStage
  cases c.placeholders msg.ChatID <;> rfl

/-- The voice stage calls `sendVoice` once, with the parsed chat id and the stripped text, when
the stated condition holds, and not at all otherwise. -/
theorem voiceStage_calls (w : BotWorld) (chatID : Int) (c : TelegramChannel)
    (msg : OutboundMessage) :
    (voiceStated c msg →
        voiceCalls (voiceStage w chatID c msg).2.2 = [(chatID, stripMarkdown msg.Content)]) ∧
      (¬ voiceStated c msg → voiceCalls (voiceStage w chatID c msg).2.2 = []) := by
  unfold voiceStage voiceStated ttsMaxChars
  cases hflag : c.voiceInput msg.ChatID with
  | none => simp [voiceCalls]
  | some flag =>
    dsimp only
    by_cases hcond : (stripMarkdown msg.Content).length > 0 ∧
        (stripMarkdown msg.Content).length ≤ 300 ∧ containsCode msg.Content = false
    · rw [if_pos hcond]
      refine ⟨fun _ => ?_, fun hn => absurd ⟨rfl, hcond.1, hcond.2.1, hcond.2.2⟩ hn⟩
      cases w.sendVoice chatID (stripMarkdown msg.Content) <;> rfl
    · rw [if_neg hcond]
      refine ⟨fun h => absurd ⟨h.2.1, h.2.2.1, h.2.2.2⟩ hcond, fun _ => rfl⟩

/-- After the voice stage the chat has no voice flag. -/
theorem voiceStage_flag (w : BotWorld) (chatID : Int) (c : TelegramChannel)
    (msg : OutboundMessage) : (voiceStage w chatID c msg).2.1.voiceInput msg.ChatID = none := by
  unfold voiceStage
  cases hflag : c.voiceInput msg.ChatID with
  | none => exact hflag
  | some flag =>
    dsimp only
    split
    · cases w.sendVoice chatID (stripMarkdown msg.Content) <;> simp [mapDelete]
    · simp [mapDelete]

/-- Past the two checks and the media stage, the channel and the calls of `sendVoice` that
`Send` leaves are those of the voice stage, run on the channel after the first two stages. -/
theorem Send_past_media (w : BotWorld) (c : TelegramChannel) (msg : OutboundMessage)
    (chatID : Int) (hrun : c.running = true) (hid : w.parseChatID msg.ChatID = Except.ok chatID)
    (hmedia : (mediaStage w chatID msg).1 = false) :
    (Send w c msg).channel =
        (voiceStage w chatID (placeholderStage w chatID (stopThinkingStage c msg).1 msg).1 msg).2.1 ∧
      voiceCalls (Send w c msg).trace = voiceCalls
        (voiceStage w chatID (placeholderStage w chatID (stopThinkingStage c msg).1 msg).1 msg).2.2 := by
  unfold Send
  rw [if_neg (by rw [hrun]; decide), hid]
  dsimp only
  rw [if_neg (by rw [hmedia]; decide)]
  split
  · refine ⟨rfl, ?_⟩
    simp only [voiceCalls_append, voiceCalls_stopThinkingStage, voiceCalls_placeholderStage,
      voiceCalls_mediaStage, List.nil_append]
  · refine ⟨rfl, ?_⟩
    simp only [voiceCalls_append, voiceCalls_stopThinkingStage, voiceCalls_placeholderStage,
      voiceCalls_mediaStage, voiceCalls_textStage, List.nil_append, List.append_nil]

/-- The stated condition reads the voice flag only, which the first two stages keep. -/
theorem voiceStated_stages (w : BotWorld) (chatID : Int) (c : TelegramChannel)
    (msg : OutboundMessage) :
    voiceStated (placeholderStage w chatID (stopThinkingStage c msg).1 msg).1 msg ↔
      voiceStated c msg := by
  unfold voiceStated
  rw [voiceInput_placeholderStage, voiceInput_stopThinkingStage]

/-- Claim C20: in a run of `Send` that passes the running check and the chat id check and does
not return from the media stage, `sendVoice` is called if and only if the chat has a voice
flag, the stripped content has between 1 and 300 bytes and the content has no code; it is then
called once, with the parsed chat id and the stripped content; and in every such run the chat
has no voice flag afterwards. -/
theorem Send_voice_reply (w : BotWorld) (c : TelegramChannel) (msg : OutboundMessage)
    (chatID : Int) (hrun : c.running = true) (hid : w.parseChatID msg.ChatID = Except.ok chatID)
    (hmedia : (mediaStage w chatID msg).1 = false) :
    (voiceCalls (Send w c msg).trace ≠ [] ↔ voiceStated c msg) ∧
      (voiceStated c msg →
        voiceCalls (Send w c msg).trace = [(chatID, stripMarkdown msg.Content)]) ∧
      (Send w c msg).channel.voiceInput msg.ChatID = none := by
  obtain ⟨hchan, hcalls⟩ := Send_past_media w c msg chatID hrun hid hmedia
  have hstage := voiceStage_calls w chatID
    (placeholderStage w chatID (stopThinkingStage c msg).1 msg).1 msg
  rw [voiceStated_stages] at hstage
  refine ⟨⟨fun hne => ?_, fun h => ?_⟩, fun h => ?_, ?_⟩
  · by_contra hn
    exact hne (hcalls.trans (hstage.2 hn))
  · rw [hcalls, hstage.1 h]
    exact List.cons_ne_nil _ _
  · rw [hcalls, hstage.1 h]
  · rw [hchan]
    exact voiceStage_flag w chatID _ msg

/-- C20 at a reply of four letters to a chat with a voice flag, where `sendVoice` fails and the
text is sent after it, and at a reply with inline code to the same chat. -/
theorem Send_voice_reply_witness :
    voiceCalls (Send voiceFails voiceChannel
        { ChatID := go "7", Content := go "hola", Media := [] }).trace = [(7, go "hola")]
      ∧ (Send voiceFails voiceChannel
        { ChatID := go "7", Content := go "hola", Media := [] }).channel.voiceInput (go "7") = none
      ∧ voiceCalls (Send voiceFails voiceChannel
        { ChatID := go "7", Content := go "run `ls`", Media := [] }).trace = []
      ∧ (Send voiceFails voiceChannel
        { ChatID := go "7", Content := go "run `ls`", Media := [] }).channel.voiceInput (go "7")
          = none := by
  have h1 := Send_voice_reply voiceFails voiceChannel
    { ChatID := go "7", Content := go "hola", Media := [] } 7 rfl rfl rfl
  have h2 := Send_voice_reply voiceFails voiceChannel
    { ChatID := go "7", Content := go "run `ls`", Media := [] } 7 rfl rfl rfl
  refine ⟨?_, h1.2.2, ?_, h2.2.2⟩
  · rw [h1.2.1 (by unfold voiceStated; decide)]
    decide
  · by_contra hne
    have hs := h2.1.1 hne
    unfold voiceStated at hs
    exact absurd hs.2.2.2 (by decide)

/-! ### The text stage of `Send` -/

theorem messageCalls_append (a b : List SendEvent) :
    messageCalls (a ++ b) = messageCalls a ++ messageCalls b := by
  simp [messageCalls, List.filterMap_append]

theorem messageCalls_stopThinkingStage (c : TelegramChannel) (msg : OutboundMessage) :
    messageCalls (stopThinkingStage c msg).2 = [] := by
  unfold stopThinkingStage
  cases c.stopThinking msg.ChatID with
  | none => rfl
  | some stop => cases stop <;> rfl

theorem messageCalls_placeholderStage (w : BotWorld) (chatID : Int) (c : TelegramChannel)
    (msg : OutboundMessage) : messageCalls (placeholderStage w chatID c msg).2 = [] := by
  unfold placeholderStage
  cases c.placeholders msg.ChatID <;> rfl

theorem messageCalls_mediaStage (w : BotWorld) (chatID : Int) (msg : OutboundMessage) :
    messageCalls (mediaStage w chatID msg).2 = [] := by
  unfold mediaStage
  cases msg.Media with
  | nil => rfl
  | cons mediaURL rest =>
    dsimp only
    split
    · cases w.SendPhoto chatID mediaURL
        (if msg.Content ≠ [] then some (markdownToTelegramHTML msg.Content) else none) <;> rfl
    · cases w.SendDocument chatID mediaURL
        (if msg.Content ≠ [] then some (markdownToTelegramHTML msg.Content) else none) <;> rfl

theorem messageCalls_voiceStage (w : BotWorld) (chatID : Int) (c : TelegramChannel)
    (msg : OutboundMessage) : messageCalls (voiceStage w chatID c msg).2.2 = [] := by
  unfold voiceStage
  cases c.voiceInput msg.ChatID with
  | none => rfl
  | some flag =>
    dsimp only
    split
    · cases w.sendVoice chatID (stripMarkdown msg.Content) <;> rfl
    · rfl

/-- The voice stage ends `Send` exactly when it calls `sendVoice` and the call succeeds. -/
theorem voiceStage_returns (w : BotWorld) (chatID : Int) (c : TelegramChannel)
    (msg : OutboundMessage) :
    (voiceStage w chatID c msg).1 = true ↔
      voiceStated c msg ∧ w.sendVoice chatID (stripMarkdown msg.Content) = none := by
  unfold voiceStage voiceStated ttsMaxChars
  cases hflag : c.voiceInput msg.ChatID with
  | none => simp
  | some flag =>
    dsimp only
    by_cases hcond : (stripMarkdown msg.Content).length > 0 ∧
        (stripMarkdown msg.Content).length ≤ 300 ∧ containsCode msg.Content = false
    · rw [if_pos hcond]
      cases hv : w.sendVoice chatID (stripMarkdown msg.Content) with
      | none => exact ⟨fun _ => ⟨⟨rfl, hcond.1, hcond.2.1, hcond.2.2⟩, rfl⟩, fun _ => rfl⟩
      | some e => exact ⟨fun h => by simp at h, fun h => by simp at h⟩
    · rw [if_neg hcond]
      exact ⟨fun h => by simp at h, fun h => absurd ⟨h.1.2.1, h.1.2.2.1, h.1.2.2.2⟩ hcond⟩

/-- The loop of the text stage when no chunk is rejected on both attempts. -/
theorem sendChunks_all (w : BotWorld) (chatID : Int) (chunks : List GoString) :
    ∀ i : Nat,
      (∀ j chunk, chunks[j]? = some chunk → rejectedTwice w chatID (i + j) chunk = false) →
      (sendChunks w chatID i chunks).1 = none ∧
        messageCalls (sendChunks w chatID i chunks).2 = attemptsOf w chatID i chunks := by
  induction chunks with
  | nil => intro i _; exact ⟨rfl, rfl⟩
  | cons chunk rest ih =>
    intro i hall
    have h0 := hall 0 chunk (by simp)
    have hrest := ih (i + 1) (fun j ch hj => by
      have := hall (j + 1) ch (by simpa using hj)
      rwa [show i + 1 + j = i + (j + 1) by omega])
    rw [sendChunks]
    unfold attemptsOf at hrest ⊢
    simp only [rejectedTwice, Nat.add_zero] at h0
    simp only [List.enumFrom_cons, List.map_cons, List.flatten_cons, statedAttempts]
    cases h1 : w.SendMessage i chatID chunk true with
    | none =>
      dsimp only
      refine ⟨hrest.1, ?_⟩
      simp only [messageCalls, List.filterMap_cons, Option.isSome_none, Bool.false_eq_true,
        if_false, List.singleton_append, List.cons.injEq, true_and]
      exact hrest.2
    | some e =>
      rw [h1] at h0
      cases h2 : w.SendMessage i chatID chunk false with
      | some e2 => rw [h2] at h0; simp at h0
      | none =>
        dsimp only
        refine ⟨hrest.1, ?_⟩
        simp only [messageCalls, List.filterMap_cons, Option.isSome_some, if_true,
          List.cons_append, List.nil_append, List.cons.injEq, true_and]
        exact hrest.2

/-- The loop of the text stage when chunk number `n` is the first that is rejected on both
attempts. -/
theorem sendChunks_stop (w : BotWorld) (chatID : Int) (chunks : List GoString) :
    ∀ (i n : Nat) (chunk : GoString), chunks[n]? = some chunk →
      (∀ j ch, j < n → chunks[j]? = some ch → rejectedTwice w chatID (i + j) ch = false) →
      rejectedTwice w chatID (i + n) chunk = true →
      (sendChunks w chatID i chunks).1 = w.SendMessage (i + n) chatID chunk false ∧
        messageCalls (sendChunks w chatID i chunks).2
          = attemptsOf w chatID i (chunks.take (n + 1)) := by
  induction chunks with
  | nil => intro i n chunk hn; simp at hn
  | cons c rest ih =>
    intro i n chunk hn hbefore hrej
    rw [sendChunks]
    cases n with
    | zero =>
      simp only [List.getElem?_cons_zero, Option.some.injEq] at hn
      subst hn
      simp only [rejectedTwice, Nat.add_zero, Bool.and_eq_true] at hrej
      obtain ⟨e, h1⟩ := Option.isSome_iff_exists.1 hrej.1
      obtain ⟨e2, h2⟩ := Option.isSome_iff_exists.1 hrej.2
      simp [h1, h2, attemptsOf, statedAttempts, messageCalls]
    | succ n =>
      have hrest := ih (i + 1) n chunk (by simpa using hn)
        (fun j ch hj hch => by
          have := hbefore (j + 1) ch (by omega) (by simpa using hch)
          rwa [show i + 1 + j = i + (j + 1) by omega])
        (by rwa [show i + 1 + n = i + (n + 1) by omega])
      rw [show i + 1 + n = i + (n + 1) by omega] at hrest
      have h0 := hbefore 0 c (by omega) (by simp)
      simp only [rejectedTwice, Nat.add_zero] at h0
      unfold attemptsOf at hrest ⊢
      simp only [List.take_succ_cons, List.enumFrom_cons, List.map_cons, List.flatten_cons,
        statedAttempts]
      cases h1 : w.SendMessage i chatID c true with
      | none =>
        dsimp only
        refine ⟨hrest.1, ?_⟩
        simp only [messageCalls, List.filterMap_cons, Option.isSome_none, Bool.false_eq_true,
          if_false, List.singleton_append, List.cons.injEq, true_and]
        exact hrest.2
      | some e =>
        rw [h1] at h0
        cases h2 : w.SendMessage i chatID c false with
        | some e2 => rw [h2] at h0; simp at h0
        | none =>
          dsimp only
          refine ⟨hrest.1, ?_⟩
          simp only [messageCalls, List.filterMap_cons, Option.isSome_some, if_true,
            List.cons_append, List.nil_append, List.cons.injEq, true_and]
          exact hrest.2

/-- The loop of the text stage returns an error exactly when some chunk is rejected on both
attempts. -/
theorem sendChunks_err (w : BotWorld) (chatID : Int) (chunks : List GoString) :
    ∀ i : Nat, (sendChunks w chatID i chunks).1 ≠ none ↔
      ∃ n chunk, chunks[n]? = some chunk ∧ rejectedTwice w chatID (i + n) chunk = true := by
  induction chunks with
  | nil => intro i; simp [sendChunks]
  | cons c rest ih =>
    intro i
    by_cases h0 : rejectedTwice w chatID i c = true
    · have := sendChunks_stop w chatID (c :: rest) i 0 c (by simp) (fun j _ hj => absurd hj (by omega)) h0
      rw [this.1]
      simp only [rejectedTwice, Bool.and_eq_true] at h0
      obtain ⟨e2, h2⟩ := Option.isSome_iff_exists.1 h0.2
      refine ⟨fun _ => ⟨0, c, by simp, by simp [rejectedTwice, h0]⟩, fun _ => ?_⟩
      simp only [Nat.add_zero, h2]
      simp
    · have hstep : (sendChunks w chatID i (c :: rest)).1 = (sendChunks w chatID (i + 1) rest).1 := by
        rw [sendChunks]
        simp only [rejectedTwice, Bool.and_eq_true, not_and, Bool.not_eq_true,
          Option.not_isSome, Option.isNone_iff_eq_none] at h0
        cases h1 : w.SendMessage i chatID c true with
        | none => rfl
        | some e =>
          have := h0 (by rw [h1]; rfl)
          cases h2 : w.SendMessage i chatID c false with
          | none => rfl
          | some e2 => rw [h2] at this; simp at this
      rw [hstep, ih (i + 1)]
      constructor
      · rintro ⟨n, chunk, hn, hr⟩
        exact ⟨n + 1, chunk, by simpa using hn, by rwa [show i + (n + 1) = i + 1 + n by omega]⟩
      · rintro ⟨n, chunk, hn, hr⟩
        cases n with
        | zero =>
          simp only [List.getElem?_cons_zero, Option.some.injEq] at hn
          subst hn
          exact absurd hr h0
        | succ n =>
          exact ⟨n, chunk, by simpa using hn, by rwa [show i + 1 + n = i + (n + 1) by omega]⟩
/-- When neither the media stage nor the voice stage ends `Send`, what `Send` returns and the
`SendMessage` calls it makes are those of the text stage. -/
theorem Send_text (w : BotWorld) (c : TelegramChannel) (msg : OutboundMessage)
    (chatID : Int) (hrun : c.running = true) (hid : w.parseChatID msg.ChatID = Except.ok chatID)
    (hmedia : (mediaStage w chatID msg).1 = false)
    (hvoice : ¬ (voiceStated c msg ∧ w.sendVoice chatID (stripMarkdown msg.Content) = none)) :
    (Send w c msg).err = (textStage w chatID msg).1 ∧
      messageCalls (Send w c msg).trace = messageCalls (textStage w chatID msg).2 := by
  have hv : ¬ (voiceStage w chatID
      (placeholderStage w chatID (stopThinkingStage c msg).1 msg).1 msg).1 = true := by
    rw [voiceStage_returns, voiceStated_stages]
    exact hvoice
  unfold Send
  rw [if_neg (by rw [hrun]; decide), hid]
  dsimp only
  rw [if_neg (by rw [hmedia]; decide), if_neg hv]
  refine ⟨rfl, ?_⟩
  simp only [messageCalls_append, messageCalls_stopThinkingStage, messageCalls_placeholderStage,
    messageCalls_mediaStage, messageCalls_voiceStage, List.nil_append]

/-- Claim C22: in a run of `Send` that reaches the text stage, the rendered content is split
into chunks and the `SendMessage` calls are, chunk by chunk in order, one with the HTML parse
mode and, only if that one is rejected, one more without a parse mode. If no chunk is rejected
on both attempts, all chunks are sent and `Send` returns nil. If chunk number `n` is the first
that is rejected on both attempts, `Send` returns the error of its second attempt and sends
nothing after it. So `Send` returns an error if and only if some chunk is rejected on both
attempts. -/
theorem Send_text_fallback (w : BotWorld) (c : TelegramChannel) (msg : OutboundMessage)
    (chatID : Int) (hrun : c.running = true) (hid : w.parseChatID msg.ChatID = Except.ok chatID)
    (hmedia : (mediaStage w chatID msg).1 = false)
    (hvoice : ¬ (voiceStated c msg ∧ w.sendVoice chatID (stripMarkdown msg.Content) = none)) :
    ∃ chunks, splitMessage (markdownToTelegramHTML msg.Content) 4096 = some chunks ∧
      ((∀ j chunk, chunks[j]? = some chunk → rejectedTwice w chatID j chunk = false) →
        (Send w c msg).err = none ∧
          messageCalls (Send w c msg).trace = attemptsOf w chatID 0 chunks) ∧
      (∀ n chunk, chunks[n]? = some chunk →
        (∀ j ch, j < n → chunks[j]? = some ch → rejectedTwice w chatID j ch = false) →
        rejectedTwice w chatID n chunk = true →
        (Send w c msg).err = w.SendMessage n chatID chunk false ∧
          (Send w c msg).err ≠ none ∧
          messageCalls (Send w c msg).trace = attemptsOf w chatID 0 (chunks.take (n + 1))) ∧
      ((Send w c msg).err ≠ none ↔
        ∃ n chunk, chunks[n]? = some chunk ∧ rejectedTwice w chatID n chunk = true) := by
  obtain ⟨chunks, hsplit, _, _⟩ :=
    splitMessage_spec (markdownToTelegramHTML msg.Content) 4096 (by decide)
  obtain ⟨herr, hcalls⟩ := Send_text w c msg chatID hrun hid hmedia hvoice
  have hstage : textStage w chatID msg = sendChunks w chatID 0 chunks := by
    unfold textStage
    dsimp only
    rw [hsplit]
    rfl
  rw [hstage] at herr hcalls
  refine ⟨chunks, hsplit, ?_, ?_, ?_⟩
  · intro hall
    have := sendChunks_all w chatID chunks 0 (fun j ch hj => by
      rw [Nat.zero_add]; exact hall j ch hj)
    rw [herr, hcalls]
    exact this
  · intro n chunk hn hbefore hrej
    have := sendChunks_stop w chatID chunks 0 n chunk hn
      (fun j ch hj hch => by rw [Nat.zero_add]; exact hbefore j ch hj hch)
      (by rw [Nat.zero_add]; exact hrej)
    rw [Nat.zero_add] at this
    rw [herr, hcalls]
    refine ⟨this.1, ?_, this.2⟩
    rw [this.1]
    simp only [rejectedTwice, Bool.and_eq_true] at hrej
    obtain ⟨e2, h2⟩ := Option.isSome_iff_exists.1 hrej.2
    rw [h2]
    simp
  · rw [herr, sendChunks_err w chatID chunks 0]
    simp only [Nat.zero_add]

/-- C22 at the reply `hola`, one chunk, in a world where the platform rejects both forms of
chunk number 0: the chunk is tried with the HTML parse mode and once more without, and `Send`
returns the error of the second attempt. -/
theorem Send_text_fallback_witness :
    (Send textRejected textChannel { ChatID := go "7", Content := go "hola", Media := [] }).err
        = some (go "chat not found") ∧
      messageCalls
        (Send textRejected textChannel { ChatID := go "7", Content := go "hola", Media := [] }).trace
        = [(go "hola", true), (go "hola", false)] := by
  obtain ⟨chunks, h1, _, h3, _⟩ := Send_text_fallback textRejected textChannel
    { ChatID := go "7", Content := go "hola", Media := [] } 7 rfl rfl rfl
    (fun h => by simp [voiceStated, textChannel] at h)
  have e : splitMessage (markdownToTelegramHTML (go "hola")) 4096 = some [go "hola"] := by decide
  have hc : chunks = [go "hola"] := by
    have := h1.symm.trans e
    exact Option.some.inj this
  subst hc
  have h := h3 0 (go "hola") (by simp) (fun j _ hj => absurd hj (by omega)) (by decide)
  exact ⟨h.1.trans (by decide), h.2.2.trans (by decide)⟩
/-! ### The pending indicator of a chat in `Send` -/

theorem stopThinkingStage_channel (c : TelegramChannel) (msg : OutboundMessage) :
    (stopThinkingStage c msg).1.stopThinking = mapDelete c.stopThinking msg.ChatID ∧
      (stopThinkingStage c msg).1.placeholders = c.placeholders := by
  unfold stopThinkingStage
  cases h : c.stopThinking msg.ChatID with
  | none =>
    refine ⟨?_, rfl⟩
    funext k
    unfold mapDelete
    by_cases hk : k = msg.ChatID
    · rw [if_pos hk, hk, h]
    · rw [if_neg hk]
  | some stop => exact ⟨rfl, rfl⟩

theorem placeholderStage_channel (w : BotWorld) (chatID : Int) (c : TelegramChannel)
    (msg : OutboundMessage) :
    (placeholderStage w chatID c msg).1.placeholders = mapDelete c.placeholders msg.ChatID ∧
      (placeholderStage w chatID c msg).1.stopThinking = c.stopThinking ∧
      (placeholderStage w chatID c msg).1.running = c.running := by
  unfold placeholderStage
  cases h : c.placeholders msg.ChatID with
  | none =>
    refine ⟨?_, rfl, rfl⟩
    funext k
    unfold mapDelete
    by_cases hk : k = msg.ChatID
    · rw [if_pos hk, hk, h]
    · rw [if_neg hk]
  | some pID => exact ⟨rfl, rfl, rfl⟩

theorem voiceStage_channel (w : BotWorld) (chatID : Int) (c : TelegramChannel)
    (msg : OutboundMessage) :
    (voiceStage w chatID c msg).2.1.placeholders = c.placeholders ∧
      (voiceStage w chatID c msg).2.1.stopThinking = c.stopThinking ∧
      (voiceStage w chatID c msg).2.1.voiceInput = mapDelete c.voiceInput msg.ChatID := by
  unfold voiceStage
  cases h : c.voiceInput msg.ChatID with
  | none =>
    refine ⟨rfl, rfl, ?_⟩
    funext k
    unfold mapDelete
    by_cases hk : k = msg.ChatID
    · rw [if_pos hk, hk, h]
    · rw [if_neg hk]
  | some flag =>
    dsimp only
    split
    · cases w.sendVoice chatID (stripMarkdown msg.Content) <;> exact ⟨rfl, rfl, rfl⟩
    · exact ⟨rfl, rfl, rfl⟩

/-- The channel that `Send` leaves after its two checks: the placeholder and the thinking entry
of the chat are deleted; the voice flag of the chat is deleted unless the media stage ends
`Send`. -/
theorem Send_channel (w : BotWorld) (c : TelegramChannel) (msg : OutboundMessage)
    (chatID : Int) (hrun : c.running = true) (hid : w.parseChatID msg.ChatID = Except.ok chatID) :
    (Send w c msg).channel.placeholders = mapDelete c.placeholders msg.ChatID ∧
      (Send w c msg).channel.stopThinking = mapDelete c.stopThinking msg.ChatID ∧
      (Send w c msg).channel.voiceInput =
        if (mediaStage w chatID msg).1 = true then c.voiceInput
        else mapDelete c.voiceInput msg.ChatID := by
  obtain ⟨s1, s2⟩ := stopThinkingStage_channel c msg
  obtain ⟨p1, p2, _⟩ := placeholderStage_channel w chatID (stopThinkingStage c msg).1 msg
  obtain ⟨v1, v2, v3⟩ := voiceStage_channel w chatID
    (placeholderStage w chatID (stopThinkingStage c msg).1 msg).1 msg
  have hvi := voiceInput_placeholderStage w chatID (stopThinkingStage c msg).1 msg
  have hvs := voiceInput_stopThinkingStage c msg
  unfold Send
  rw [if_neg (by rw [hrun]; decide), hid]
  dsimp only
  by_cases hm : (mediaStage w chatID msg).1 = true
  · rw [if_pos hm, if_pos hm]
    exact ⟨by rw [p1, s2], by rw [p2, s1], by rw [hvi, hvs]⟩
  · rw [if_neg hm, if_neg hm]
    split
    · exact ⟨by rw [v1, p1, s2], by rw [v2, p2, s1], by rw [v3, hvi, hvs]⟩
    · exact ⟨by rw [v1, p1, s2], by rw [v2, p2, s1], by rw [v3, hvi, hvs]⟩

/-- The events of `Send` start with those of the first two stages. -/
theorem Send_trace_start (w : BotWorld) (c : TelegramChannel) (msg : OutboundMessage)
    (chatID : Int) (hrun : c.running = true) (hid : w.parseChatID msg.ChatID = Except.ok chatID) :
    ∃ later, (Send w c msg).trace = (stopThinkingStage c msg).2 ++
      (placeholderStage w chatID (stopThinkingStage c msg).1 msg).2 ++ later := by
  unfold Send
  rw [if_neg (by rw [hrun]; decide), hid]
  dsimp only
  split
  · exact ⟨_, rfl⟩
  · split
    · exact ⟨(mediaStage w chatID msg).2 ++ (voiceStage w chatID
        (placeholderStage w chatID (stopThinkingStage c msg).1 msg).1 msg).2.2,
        by simp only [List.append_assoc]⟩
    · exact ⟨(mediaStage w chatID msg).2 ++ (voiceStage w chatID
        (placeholderStage w chatID (stopThinkingStage c msg).1 msg).1 msg).2.2 ++
        (textStage w chatID msg).2, by simp only [List.append_assoc]⟩

theorem sendChunks_answer (w : BotWorld) (answer : Int → Int → Option GoString) (chatID : Int)
    (chunks : List GoString) : ∀ i : Nat,
    sendChunks { w with DeleteMessage := answer } chatID i chunks = sendChunks w chatID i chunks := by
  induction chunks with
  | nil => intro i; rfl
  | cons chunk rest ih =>
    intro i
    rw [sendChunks, sendChunks, ih]

/-- What `Send` returns and the channel it leaves do not depend on what `DeleteMessage`
answers. -/
theorem Send_answer (w : BotWorld) (answer : Int → Int → Option GoString) (c : TelegramChannel)
    (msg : OutboundMessage) :
    (Send { w with DeleteMessage := answer } c msg).err = (Send w c msg).err ∧
      (Send { w with DeleteMessage := answer } c msg).channel = (Send w c msg).channel := by
  have hp : ∀ (chatID : Int) (c1 : TelegramChannel),
      (placeholderStage { w with DeleteMessage := answer } chatID c1 msg).1
        = (placeholderStage w chatID c1 msg).1 := by
    intro chatID c1
    unfold placeholderStage
    cases c1.placeholders msg.ChatID <;> rfl
  have hm : ∀ chatID : Int,
      mediaStage { w with DeleteMessage := answer } chatID msg = mediaStage w chatID msg :=
    fun _ => rfl
  have hv : ∀ (chatID : Int) (c1 : TelegramChannel),
      voiceStage { w with DeleteMessage := answer } chatID c1 msg = voiceStage w chatID c1 msg :=
    fun _ _ => rfl
  have ht : ∀ chatID : Int,
      textStage { w with DeleteMessage := answer } chatID msg = textStage w chatID msg := by
    intro chatID
    unfold textStage
    exact sendChunks_answer w answer chatID _ 0
  unfold Send
  by_cases hrun : c.running = false
  · rw [if_pos hrun, if_pos hrun]
    exact ⟨rfl, rfl⟩
  · rw [if_neg hrun, if_neg hrun]
    dsimp only
    cases w.parseChatID msg.ChatID with
    | error e => exact ⟨rfl, rfl⟩
    | ok chatID =>
      dsimp only
      rw [hm, hp, hv, ht]
      split
      · exact ⟨rfl, rfl⟩
      · split
        · exact ⟨rfl, rfl⟩
        · exact ⟨rfl, rfl⟩

/-- Claim C23: in a run of `Send` that passes the running check and the chat id check, the chat
of the message has afterwards no stored placeholder and no stored thinking entry; a stored
cancel function was called and the deletion of a stored placeholder message was asked for; and
whatever `DeleteMessage` answers, `Send` returns the same value and leaves the same channel. -/
theorem Send_clears_pending (w : BotWorld) (c : TelegramChannel) (msg : OutboundMessage)
    (chatID : Int) (hrun : c.running = true) (hid : w.parseChatID msg.ChatID = Except.ok chatID) :
    (Send w c msg).channel.placeholders msg.ChatID = none ∧
      (Send w c msg).channel.stopThinking msg.ChatID = none ∧
      (∀ token, c.stopThinking msg.ChatID = some (some token) →
        SendEvent.cancel token ∈ (Send w c msg).trace) ∧
      (∀ pID, c.placeholders msg.ChatID = some pID →
        SendEvent.deleteMessage chatID pID (w.DeleteMessage chatID pID) ∈ (Send w c msg).trace) ∧
      ∀ answer : Int → Int → Option GoString,
        (Send { w with DeleteMessage := answer } c msg).err = (Send w c msg).err ∧
          (Send { w with DeleteMessage := answer } c msg).channel = (Send w c msg).channel := by
  obtain ⟨h1, h2, _⟩ := Send_channel w c msg chatID hrun hid
  obtain ⟨later, ht⟩ := Send_trace_start w c msg chatID hrun hid
  refine ⟨by rw [h1]; simp [mapDelete], by rw [h2]; simp [mapDelete], ?_, ?_,
    fun answer => Send_answer w answer c msg⟩
  · intro token htok
    rw [ht]
    apply List.mem_append_left
    apply List.mem_append_left
    unfold stopThinkingStage
    rw [htok]
    exact List.mem_singleton.2 rfl
  · intro pID hp
    rw [ht]
    apply List.mem_append_left
    apply List.mem_append_right
    unfold placeholderStage
    rw [(stopThinkingStage_channel c msg).2, hp]
    exact List.mem_singleton.2 rfl

/-- C23 at a chat with a placeholder and a thinking entry, in a world where the deletion of
the placeholder message fails: both entries are gone, token 3 was cancelled, and `Send` returns
what it returns in the world where the deletion succeeds. -/
theorem Send_clears_pending_witness :
    (Send textRejected textChannel
        { ChatID := go "7", Content := go "hola", Media := [] }).channel.placeholders (go "7")
        = none ∧
      (Send textRejected textChannel
        { ChatID := go "7", Content := go "hola", Media := [] }).channel.stopThinking (go "7")
        = none ∧
      SendEvent.cancel 3 ∈ (Send textRejected textChannel
        { ChatID := go "7", Content := go "hola", Media := [] }).trace ∧
      (Send { textRejected with DeleteMessage := fun _ _ => none } textChannel
        { ChatID := go "7", Content := go "hola", Media := [] }).err
        = (Send textRejected textChannel
            { ChatID := go "7", Content := go "hola", Media := [] }).err := by
  have h := Send_clears_pending textRejected textChannel
    { ChatID := go "7", Content := go "hola", Media := [] } 7 rfl rfl
  exact ⟨h.1, h.2.1, h.2.2.1 3 (by decide), (h.2.2.2.2 (fun _ _ => none)).1⟩

/-! ### The other chats in `Send` -/

/-- Claim C24: `Send` for a message addressed to one chat leaves the placeholder, the thinking
entry and the voice flag of every other chat as they were, on every path: the two early errors,
and the returns from the media stage, the voice stage and the text stage. -/
theorem Send_other_chats (w : BotWorld) (c : TelegramChannel) (msg : OutboundMessage)
    (other : GoString) (hother : other ≠ msg.ChatID) :
    (Send w c msg).channel.placeholders other = c.placeholders other ∧
      (Send w c msg).channel.stopThinking other = c.stopThinking other ∧
      (Send w c msg).channel.voiceInput other = c.voiceInput other := by
  by_cases hrun : c.running = false
  · unfold Send
    rw [if_pos hrun]
    exact ⟨rfl, rfl, rfl⟩
  · cases hid : w.parseChatID msg.ChatID with
    | error e =>
      unfold Send
      rw [if_neg hrun, hid]
      exact ⟨rfl, rfl, rfl⟩
    | ok chatID =>
      have hrun1 : c.running = true := by
        cases h : c.running
        · exact absurd h hrun
        · rfl
      obtain ⟨h1, h2, h3⟩ := Send_channel w c msg chatID hrun1 hid
      rw [h1, h2, h3]
      refine ⟨by simp [mapDelete, hother], by simp [mapDelete, hother], ?_⟩
      split
      · rfl
      · simp [mapDelete, hother]

/-- C24 at a message for chat `8` on a channel where chat `7` has a placeholder, a thinking
entry and a voice flag. -/
theorem Send_other_chats_witness :
    (Send voiceFails voiceChannel
        { ChatID := go "8", Content := go "hola", Media := [] }).channel.placeholders (go "7")
        = some 41 ∧
      (Send voiceFails voiceChannel
        { ChatID := go "8", Content := go "hola", Media := [] }).channel.stopThinking (go "7")
        = some (some 3) ∧
      (Send voiceFails voiceChannel
        { ChatID := go "8", Content := go "hola", Media := [] }).channel.voiceInput (go "7")
        = some true := by
  have h := Send_other_chats voiceFails voiceChannel
    { ChatID := go "8", Content := go "hola", Media := [] } (go "7") (by decide)
  exact ⟨h.1.trans (by decide), h.2.1.trans (by decide), h.2.2.trans (by decide)⟩

/-! ### Idempotence of `sanitizeHistory` -/

/-- What `sanitizeHistory` returns is kept whole by `sanitizeHistory`, and does not start with a
tool message. -/
theorem sanitizeHistory_fixed (history : List Message) :
    sanitizeHistory (sanitizeHistory history) = sanitizeHistory history
      ∧ ∀ m, (sanitizeHistory history).head? = some m → isTool m = false := by
  apply sanitizeHistory_induction
    (fun _ out => sanitizeHistory out = out ∧ ∀ m, out.head? = some m → isTool m = false)
  · exact ⟨rfl, fun m hm => by simp at hm⟩
  · intro m rest out _ ih
    exact ih
  · intro m rest out hm hc ih
    refine ⟨by rw [sanitizeHistory_plain m out hm hc, ih.1], fun x hx => ?_⟩
    simp only [List.head?_cons, Option.some.injEq] at hx
    rw [← hx]; exact hm
  · intro a run rest out ha hrun _ hans ih
    obtain ⟨h1, h2⟩ := takeWhile_run_append run out hrun ih.2
    refine ⟨?_, fun x hx => ?_⟩
    · rw [sanitizeHistory_keep a (run ++ out) ha (by rw [h1]; exact hans), h1, h2, ih.1]
      rfl
    · simp only [List.head?_cons, Option.some.injEq] at hx
      rw [← hx]; exact hasCalls_not_tool a ha
  · intro a run rest out _ _ _ _ ih
    exact ih

/-- Claim C28: `sanitizeHistory` is idempotent; a history that it returned is returned
unchanged. -/
theorem sanitizeHistory_idempotent (history : List Message) :
    sanitizeHistory (sanitizeHistory history) = sanitizeHistory history :=
  (sanitizeHistory_fixed history).1

/-! ### The length of what `extractPDFText` returns -/

theorem truncationNotice_length : truncationNotice.length = 41 := by decide

/-- What `extractPDFText` returns for an output that is longer than 15000 bytes when trimmed:
its first 15000 bytes followed by the notice, 15041 bytes in all. -/
theorem extractPDFText_long (output : GoString) (h : 15000 < (TrimSpace output).length) :
    extractPDFText (Except.ok output) = (TrimSpace output).take 15000 ++ truncationNotice
      ∧ (extractPDFText (Except.ok output)).length = 15041 := by
  have e : extractPDFText (Except.ok output)
      = (TrimSpace output).take 15000 ++ truncationNotice := by
    unfold extractPDFText
    dsimp only
    rw [if_pos h]
  rw [e, List.length_append, List.length_take, truncationNotice_length]
  exact ⟨rfl, by omega⟩

/-- What `extractPDFText` returns is never longer than 15041 bytes. -/
theorem extractPDFText_length (output : Except GoString GoString) :
    (extractPDFText output).length ≤ 15041 := by
  cases output with
  | error e => simp [extractPDFText]
  | ok out =>
    by_cases h : 15000 < (TrimSpace out).length
    · rw [(extractPDFText_long out h).2]
    · unfold extractPDFText
      dsimp only
      rw [if_neg h]
      omega

/-- A string that neither starts nor ends with a white-space rune is left as it is. -/
theorem TrimSpace_none (s : GoString) (hl : leadingSpace s = none) (hr : trailingSpace s = none) :
    TrimSpace s = s := by
  have h1 : ∀ n, trimLeftAux n s = s := by
    intro n
    cases n with
    | zero => rfl
    | succ n => rw [trimLeftAux, hl]
  have h2 : ∀ n, trimRightAux n s = s := by
    intro n
    cases n with
    | zero => rfl
    | succ n => rw [trimRightAux, hr]
  unfold TrimSpace
  dsimp only
  rw [h1, h2]

/-- A text of letters `a` is left as it is by `TrimSpace`. -/
theorem TrimSpace_letters (n : Nat) : TrimSpace (List.replicate n 97) = List.replicate n 97 := by
  cases n with
  | zero => decide
  | succ n =>
    apply TrimSpace_none
    · unfold leadingSpace
      rw [List.find?_eq_none]
      intro e he
      have : e.head? ≠ some 97 ∧ e ≠ [] := by
        revert e
        decide
      cases e with
      | nil => exact absurd rfl this.2
      | cons x xs =>
        have hx : x ≠ 97 := fun hx => this.1 (by rw [hx]; rfl)
        simp [List.replicate_succ, List.isPrefixOf, hx]
    · unfold trailingSpace
      rw [List.find?_eq_none]
      intro e he
      have : e.getLast? ≠ some 97 ∧ e ≠ [] := by
        revert e
        decide
      intro hs
      rw [List.isSuffixOf_iff_suffix] at hs
      obtain ⟨pre, hpre⟩ := hs
      have hlast : e.getLast? = some 97 := by
        have hmem : ∀ b ∈ e, b = 97 := by
          intro b hb
          have : b ∈ List.replicate (n + 1) 97 := by
            rw [← hpre]; exact List.mem_append_right _ hb
          exact (List.mem_replicate.1 this).2
        have hne := this.2
        rw [List.getLast?_eq_getLast _ hne]
        rw [hmem _ (List.getLast_mem hne)]
      exact this.1 hlast

/-- Claim C27 fails at an output of 15001 letters `a`: `extractPDFText` returns 15041 bytes, the
first 15000 letters followed by the notice of 41 bytes. -/
theorem extractPDFText_exceeds :
    (extractPDFText (Except.ok (List.replicate 15001 97))).length = 15041
      ∧ ¬ (extractPDFText (Except.ok (List.replicate 15001 97))).length ≤ 15000 := by
  have h := (extractPDFText_long (List.replicate 15001 97)
    (by rw [TrimSpace_letters, List.length_replicate]; decide)).2
  rw [h]
  exact ⟨rfl, by decide⟩
/-! ### Termination of `splitMessage` -/

/-- One iteration of the loop of `splitMessage` on a text longer than the limit: a chunk is
appended and the loop goes on with the trimmed rest. -/
theorem splitLoop_step (fuel : Nat) (text : GoString) (limit : Nat) (acc : List GoString)
    (hlong : limit < text.length) :
    splitLoop (fuel + 1) text limit acc
      = splitLoop fuel (TrimSpace (text.drop (firstCut text limit))) limit
          (acc ++ [TrimSpace (text.take (firstCut text limit))]) := by
  rw [splitLoop, if_pos (by omega), if_neg (by omega)]
  dsimp only
  rw [firstCut_eq]

/-- The rest after one iteration is shorter than the text, because the cut is at byte 1 or
later, or at byte 0 before a line feed that the trimming removes. -/
theorem splitLoop_rest (text : GoString) (limit : Nat) (hl : 1 ≤ limit)
    (hlong : limit < text.length) :
    (TrimSpace (text.drop (firstCut text limit))).length < text.length
      ∧ (1 ≤ firstCut text limit ∨ (firstCut text limit = 0 ∧ text.head? = some 10)) := by
  have hb := splitAt_bounds text limit hl hlong _ rfl
  rw [firstCut_eq] at hb
  obtain ⟨_, hz⟩ := hb
  by_cases hk0 : firstCut text limit = 0
  · have hlead := hz hk0
    refine ⟨?_, Or.inr ⟨hk0, ?_⟩⟩
    · rw [hk0, List.drop_zero]
      exact TrimSpace_length_lt text [10] hlead
    · have := (leadingSpace_some text [10] hlead).2
      rw [this]
      rfl
  · refine ⟨?_, Or.inl (by omega)⟩
    have := TrimSpace_length_le (text.drop (firstCut text limit))
    rw [List.length_drop] at this
    omega

/-- The result of the loop does not depend on the fuel, once there is more of it than the text
has bytes. -/
theorem splitLoop_fuel (limit : Nat) (hl : 1 ≤ limit) (n : Nat) :
    ∀ (text : GoString) (acc : List GoString) (fuel : Nat), text.length ≤ n →
      text.length < fuel →
      splitLoop fuel text limit acc = splitLoop (text.length + 1) text limit acc := by
  induction n with
  | zero =>
    intro text acc fuel hn hf
    have : text = [] := List.eq_nil_of_length_eq_zero (by omega)
    subst this
    obtain ⟨k, rfl⟩ : ∃ k, fuel = k + 1 := ⟨fuel - 1, by simp at hf; omega⟩
    simp [splitLoop]
  | succ n ih =>
    intro text acc fuel hn hf
    obtain ⟨k, rfl⟩ : ∃ k, fuel = k + 1 := ⟨fuel - 1, by omega⟩
    by_cases hlong : limit < text.length
    · obtain ⟨hshort, _⟩ := splitLoop_rest text limit hl hlong
      rw [splitLoop_step k text limit acc hlong, splitLoop_step text.length text limit acc hlong,
        ih _ _ k (by omega) (by omega), ih _ _ text.length (by omega) hshort]
    · rw [splitLoop, splitLoop]
      by_cases h0 : text.length > 0
      · rw [if_pos h0, if_pos h0, if_pos (by omega), if_pos (by omega)]
      · rw [if_neg h0, if_neg h0]

/-- Claim C29: for a limit of at least one, `splitMessage` returns; the loop returns the same
with any larger number of iterations allowed; and every iteration that does not leave the loop
(the text is longer than the limit) goes on with a text that is strictly shorter, the cut being
at byte 1 or later, or at byte 0 where the text starts with a line feed, which the trimming of
the rest removes. -/
theorem splitMessage_terminates (text : GoString) (limit : Nat) (hl : 1 ≤ limit) :
    (∃ chunks, splitMessage text limit = some chunks) ∧
      (∀ fuel, text.length < fuel →
        splitLoop fuel text limit [] = splitLoop (text.length + 1) text limit []) ∧
      ∀ (t : GoString) (acc : List GoString) (fuel : Nat), limit < t.length →
        splitLoop (fuel + 1) t limit acc
            = splitLoop fuel (TrimSpace (t.drop (firstCut t limit))) limit
                (acc ++ [TrimSpace (t.take (firstCut t limit))]) ∧
          (TrimSpace (t.drop (firstCut t limit))).length < t.length ∧
          (1 ≤ firstCut t limit ∨ (firstCut t limit = 0 ∧ t.head? = some 10)) := by
  obtain ⟨chunks, h, _, _⟩ := splitMessage_spec text limit hl
  refine ⟨⟨chunks, h⟩, fun fuel hf => splitLoop_fuel limit hl text.length text [] fuel
    (Nat.le_refl _) hf, fun t acc fuel hlong => ?_⟩
  exact ⟨splitLoop_step fuel t limit acc hlong, splitLoop_rest t limit hl hlong⟩

/-- C29 at the text of a line feed and two letters with the limit 2: the first cut is at byte 0,
the rest `ab` is one byte shorter than the text, and `splitMessage` returns. -/
theorem splitMessage_terminates_witness :
    (∃ chunks, splitMessage (go "\nab") 2 = some chunks) ∧
      firstCut (go "\nab") 2 = 0 ∧
      (TrimSpace ((go "\nab").drop (firstCut (go "\nab") 2))).length < (go "\nab").length := by
  have h := splitMessage_terminates (go "\nab") 2 (by decide)
  exact ⟨h.1, by decide, (h.2.2 (go "\nab") [] 0 (by decide)).2.1⟩

/-! ### Empty chunks of `splitMessage` -/

theorem LastIndex_none (s sub : GoString) (h : ∀ i, ¬ sub <+: s.drop i) :
    LastIndex s sub = -1 := by
  rcases LastIndex_cases s sub with h1 | ⟨i, _, _, hp⟩
  · exact h1
  · exact absurd hp (h i)

/-- No line break lies in a text of spaces. -/
theorem LastIndex_spaces (n : Nat) (sub : GoString) (hsub : sub.head? = some 10) :
    LastIndex (List.replicate n 32) sub = -1 := by
  apply LastIndex_none
  intro i hp
  rw [List.drop_replicate] at hp
  cases sub with
  | nil => simp at hsub
  | cons x xs =>
    simp only [List.head?_cons, Option.some.injEq] at hsub
    have : x ∈ List.replicate (n - i) 32 := hp.subset (List.mem_cons_self _ _)
    have := (List.mem_replicate.1 this).2
    omega

theorem trimLeftAux_spaces (n : Nat) : ∀ fuel, n ≤ fuel →
    trimLeftAux fuel (List.replicate n 32) = [] := by
  induction n with
  | zero =>
    intro fuel _
    cases fuel with
    | zero => rfl
    | succ k => rfl
  | succ n ih =>
    intro fuel hf
    obtain ⟨k, rfl⟩ : ∃ k, fuel = k + 1 := ⟨fuel - 1, by omega⟩
    have hlead : leadingSpace (List.replicate (n + 1) 32) = some [32] :=
      leadingSpace_of_head _ [32] (by decide) ⟨List.replicate n 32, rfl⟩
    rw [trimLeftAux, hlead]
    exact ih k (by omega)

/-- A text of spaces is trimmed to nothing. -/
theorem TrimSpace_spaces (n : Nat) : TrimSpace (List.replicate n 32) = [] := by
  unfold TrimSpace
  dsimp only
  rw [trimLeftAux_spaces n _ (by simp)]
  rfl

/-- For every limit of at least one, `limit` spaces followed by the letter `x` are split into
an empty chunk and the chunk `x`. -/
theorem splitMessage_blank_head (limit : Nat) (hl : 1 ≤ limit) :
    splitMessage (List.replicate limit 32 ++ [120]) limit = some [[], [120]] := by
  have hlen : (List.replicate limit 32 ++ [120]).length = limit + 1 := by simp
  have htake : (List.replicate limit 32 ++ [120]).take limit = List.replicate limit 32 := by
    rw [List.take_append_of_le_length (by simp), List.take_of_length_le (by simp)]
  have hcut : firstCut (List.replicate limit 32 ++ [120]) limit = limit := by
    unfold firstCut
    rw [htake, LastIndex_spaces limit (go "\n\n") (by decide),
      LastIndex_spaces limit (go "\n") (by decide), if_neg (by omega), if_neg (by omega)]
  have hdrop : (List.replicate limit 32 ++ [120]).drop limit = [120] := by
    rw [List.drop_append_of_le_length (by simp), List.drop_of_length_le (by simp)]
    rfl
  unfold splitMessage
  rw [if_neg (by omega), splitLoop_step _ _ _ _ (by omega), hcut, htake, hdrop,
    TrimSpace_spaces, hlen]
  have hx : TrimSpace [120] = [120] := by decide
  rw [hx, splitLoop, if_pos (by simp), if_pos (by simp; omega)]
  rfl

/-! ### The voice flag in `handleMessage` -/

/-- The channel and the events that `handleMessage` leaves for the bare command `/model` of an
allowed sender: the sender's chat is recorded, the menu is sent, and nothing else is changed. -/
theorem handleMessage_model (w : InboundWorld) (c : TelegramChannel) (message : telego.Message)
    (user : telego.User) (hfrom : message.From = some user)
    (hallow : w.IsAllowed (formatInt user.ID) = true ∨ w.IsAllowed (senderIDOf user) = true)
    (hmodel : TrimSpace message.Text = go "/model") :
    handleMessage w c (some message)
      = { channel := { c with chatIDs := mapStore c.chatIDs (senderIDOf user) message.ChatID },
          trace := [InboundEvent.sendModelMenu message.ChatID] } := by
  have hno : ¬ (w.IsAllowed (formatInt user.ID) = false ∧ w.IsAllowed (senderIDOf user) = false) := by
    rintro ⟨h1, h2⟩
    rcases hallow with h | h
    · rw [h1] at h; exact absurd h (by decide)
    · rw [h2] at h; exact absurd h (by decide)
  unfold handleMessage
  simp only [hfrom]
  rw [if_neg hno, if_pos hmodel]

/-- The voice flags that `handleMessage` leaves for a message of an allowed sender that is not
the bare command `/model`. -/
theorem handleMessage_voiceInput (w : InboundWorld) (c : TelegramChannel)
    (message : telego.Message) (user : telego.User) (hfrom : message.From = some user)
    (hallow : w.IsAllowed (formatInt user.ID) = true ∨ w.IsAllowed (senderIDOf user) = true)
    (hmodel : TrimSpace message.Text ≠ go "/model") :
    (handleMessage w c (some message)).channel.voiceInput
      = if (message.Voice.isSome || message.Audio.isSome) = true then
          mapStore c.voiceInput (formatInt message.ChatID) true
        else mapDelete c.voiceInput (formatInt message.ChatID) := by
  have hno : ¬ (w.IsAllowed (formatInt user.ID) = false ∧ w.IsAllowed (senderIDOf user) = false) := by
    rintro ⟨h1, h2⟩
    rcases hallow with h | h
    · rw [h1] at h; exact absurd h (by decide)
    · rw [h2] at h; exact absurd h (by decide)
  unfold handleMessage
  simp only [hfrom]
  rw [if_neg hno, if_neg hmodel]
  dsimp only
  cases w.SendThinking message.ChatID with
  | error e =>
    dsimp only
    split <;> rfl
  | ok pID =>
    dsimp only
    split <;> rfl

/-- Claim C21, as the code has it: for a message of an allowed sender in a chat, other than the
bare command `/model`, the chat has a voice flag after `handleMessage` if and only if the
message carries a voice or an audio payload, whatever the flag was before; the bare command
`/model` is answered with the model menu and leaves the voice flag of every chat as it was. -/
theorem handleMessage_voice_flag (w : InboundWorld) (c : TelegramChannel)
    (message : telego.Message) (user : telego.User) (hfrom : message.From = some user)
    (hallow : w.IsAllowed (formatInt user.ID) = true ∨ w.IsAllowed (senderIDOf user) = true) :
    (TrimSpace message.Text ≠ go "/model" →
      (((handleMessage w c (some message)).channel.voiceInput (formatInt message.ChatID)).isSome
          = true ↔ (message.Voice.isSome = true ∨ message.Audio.isSome = true)) ∧
      ((handleMessage w c (some message)).channel.voiceInput (formatInt message.ChatID)
          = if message.Voice.isSome = true ∨ message.Audio.isSome = true then some true
            else none)) ∧
    (TrimSpace message.Text = go "/model" →
      (handleMessage w c (some message)).channel.voiceInput = c.voiceInput ∧
      (handleMessage w c (some message)).trace = [InboundEvent.sendModelMenu message.ChatID]) := by
  constructor
  · intro hmodel
    rw [handleMessage_voiceInput w c message user hfrom hallow hmodel]
    by_cases hv : message.Voice.isSome = true ∨ message.Audio.isSome = true
    · have hb : (message.Voice.isSome || message.Audio.isSome) = true := by
        rw [Bool.or_eq_true]; exact hv
      rw [if_pos hb, if_pos hv]
      simp [mapStore, hv]
    · have hb : ¬ (message.Voice.isSome || message.Audio.isSome) = true := by
        rw [Bool.or_eq_true]; exact hv
      rw [if_neg hb, if_neg hv]
      simp [mapDelete, hv]
  · intro hmodel
    rw [handleMessage_model w c message user hfrom hallow hmodel]
    exact ⟨rfl, rfl⟩

/-- C21 at chat 7 with a voice flag set before: a plain text clears it, a voice message sets
it, and the command `/model` leaves it set. -/
theorem handleMessage_voice_flag_witness :
    (handleMessage openWorld voiceChannel (some (inboundOf (go "hola") none))).channel.voiceInput
        (go "7") = none ∧
      (handleMessage openWorld textChannel
        (some (inboundOf [] (some (go "f1"))))).channel.voiceInput (go "7") = some true ∧
      (handleMessage openWorld voiceChannel
        (some (inboundOf (go "/model") none))).channel.voiceInput (go "7") = some true := by
  have h1 := (handleMessage_voice_flag openWorld voiceChannel (inboundOf (go "hola") none)
    { ID := 5, Username := go "ana", FirstName := go "Ana" } rfl (Or.inl rfl)).1 (by decide)
  have h2 := (handleMessage_voice_flag openWorld textChannel (inboundOf [] (some (go "f1")))
    { ID := 5, Username := go "ana", FirstName := go "Ana" } rfl (Or.inl rfl)).1 (by decide)
  have h3 := (handleMessage_voice_flag openWorld voiceChannel (inboundOf (go "/model") none)
    { ID := 5, Username := go "ana", FirstName := go "Ana" } rfl (Or.inl rfl)).2 (by decide)
  refine ⟨h1.2.trans (by decide), h2.2.trans (by decide), ?_⟩
  rw [h3.1]
  decide

/-- Claim C21 fails for the command `/model`: in chat 7, whose voice flag is set, the message
`/model` of an allowed sender carries no voice and no audio payload, and after `handleMessage`
the voice flag of chat 7 is still set. -/
theorem handleMessage_model_keeps_flag :
    openWorld.IsAllowed (formatInt 5) = true ∧
      (inboundOf (go "/model") none).Voice = none ∧ (inboundOf (go "/model") none).Audio = none ∧
      formatInt (inboundOf (go "/model") none).ChatID = go "7" ∧
      voiceChannel.voiceInput (go "7") = some true ∧
      (handleMessage openWorld voiceChannel
        (some (inboundOf (go "/model") none))).channel.voiceInput (go "7") = some true := by
  decide

/-! ### Texts that no pattern matches -/

/-- A pattern that matches at no position of a text leaves every byte of it outside a match. -/
theorem scanAux_all_lit (re : Regex) (text : GoString) :
    ∀ (fuel : Nat) (prev : Option Nat), text.length ≤ fuel →
      (∀ (pre : GoString) (b : Nat) (t : GoString), text = pre ++ b :: t →
        matchItems re { starts := [], caps := [] } (lastOr prev pre) (b :: t) = none) →
      scanAux re fuel prev text = text.map Piece.lit := by
  induction text with
  | nil =>
    intro fuel prev _ _
    cases fuel <;> rfl
  | cons b t ih =>
    intro fuel prev hf hno
    obtain ⟨k, rfl⟩ : ∃ k, fuel = k + 1 := ⟨fuel - 1, by simp at hf; omega⟩
    have h0 := hno [] b t rfl
    simp only [lastOr, List.getLast?_nil] at h0
    rw [scanAux, h0]
    simp only [List.map_cons, List.cons.injEq, true_and]
    apply ih k (some b) (by simp at hf; omega)
    intro pre b' t' hsplit
    have := hno (b :: pre) b' t' (by rw [hsplit]; rfl)
    rwa [lastOr_cons] at this

/-- The three ways of using a pattern, on a text that it matches nowhere. -/
theorem no_match (re : Regex) (text : GoString)
    (hno : ∀ (pre : GoString) (b : Nat) (t : GoString), text = pre ++ b :: t →
      matchItems re { starts := [], caps := [] } (lastOr none pre) (b :: t) = none) :
    (∀ template, ReplaceAllString re text template = text) ∧
      (∀ repl, ReplaceAllStringFunc re text repl = text) ∧
      FindAllStringSubmatch re text = [] := by
  have hscan : scan re text = text.map Piece.lit :=
    scanAux_all_lit re text text.length none (Nat.le_refl _) hno
  refine ⟨fun template => ?_, fun repl => ?_, ?_⟩
  · unfold ReplaceAllString
    rw [hscan, List.map_map]
    clear hscan hno
    induction text with
    | nil => rfl
    | cons b t ih => simpa using ih
  · unfold ReplaceAllStringFunc
    rw [hscan]
    have hfold : ∀ (f : GoString × Nat → Piece → GoString × Nat),
        (∀ acc b, f acc (Piece.lit b) = (acc.1 ++ [b], acc.2)) →
        ∀ (l : GoString) (acc : GoString × Nat),
          ((l.map Piece.lit).foldl f acc).1 = acc.1 ++ l := by
      intro f hf l
      induction l with
      | nil => intro acc; simp
      | cons b t ih =>
        intro acc
        rw [List.map_cons, List.foldl_cons, ih, hf]
        simp
    rw [hfold _ (fun _ _ => rfl)]
    rfl
  · unfold FindAllStringSubmatch
    rw [hscan]
    clear hscan hno
    induction text with
    | nil => rfl
    | cons b t ih => simp

/-- A pattern that starts with a literal byte matches nowhere in a text without that byte. -/
theorem no_match_lit (c : Nat) (rest : Regex) (text : GoString) (hc : c ∉ text)
    (pre : GoString) (b : Nat) (t : GoString) (hsplit : text = pre ++ b :: t) :
    matchItems (lit c :: rest) { starts := [], caps := [] } (lastOr none pre) (b :: t) = none := by
  have hb : b ≠ c := by
    intro h
    apply hc
    rw [hsplit, ← h]
    simp
  rw [matchItems_lit, if_neg hb]

/-- A byte of a text that follows a line feed, or is the first, is among the heads of its
lines. -/
theorem mem_lineHeadsFrom (pre : GoString) (b : Nat) (t : GoString) :
    ∀ prev : Option Nat, (lastOr prev pre = none ∨ lastOr prev pre = some 10) →
      b ∈ lineHeadsFrom prev (pre ++ b :: t) := by
  induction pre with
  | nil =>
    intro prev h
    simp only [lastOr, List.getLast?_nil] at h
    simp only [List.nil_append, lineHeadsFrom, if_pos h]
    simp
  | cons x xs ih =>
    intro prev h
    rw [lastOr_cons] at h
    simp only [List.cons_append, lineHeadsFrom]
    exact List.mem_append_right _ (ih (some x) h)

/-- A pattern that starts with `^` and a class, to be met once at least, matches nowhere in a
text of which no line starts with a byte of the class. -/
theorem no_match_bol (cls : Nat → Bool) (min : Nat) (max : Option Nat) (greedy : Bool)
    (rest : Regex) (text : GoString) (hmin : min ≠ 0)
    (hheads : ∀ b ∈ lineHeads text, cls b = false)
    (pre : GoString) (b : Nat) (t : GoString) (hsplit : text = pre ++ b :: t) :
    matchItems (RegexItem.bol :: RegexItem.rep cls min max greedy :: rest)
      { starts := [], caps := [] } (lastOr none pre) (b :: t) = none := by
  rw [matchItems]
  by_cases hp : lastOr none pre = none ∨ lastOr none pre = some 10
  · rw [if_pos hp, matchItems_rep]
    have hb : cls b = false := by
      apply hheads
      rw [hsplit]
      exact mem_lineHeadsFrom pre b t none hp
    cases greedy <;> simp [repMatch, hb, hmin]
  · rw [if_neg hp]

/-! ### The escaped text -/

theorem mem_escapeByte (b x : Nat) (hx : x ∈ escapeByte b) :
    x = b ∨ x ∈ [38, 97, 109, 112, 59, 108, 116, 103] := by
  unfold escapeByte at hx
  have e1 : go "&amp;" = [38, 97, 109, 112, 59] := by decide
  have e2 : go "&lt;" = [38, 108, 116, 59] := by decide
  have e3 : go "&gt;" = [38, 103, 116, 59] := by decide
  rw [e1, e2, e3] at hx
  split_ifs at hx <;> simp at hx <;> simp <;> omega

/-- The bytes of an escaped text are bytes of the text or bytes of `&amp;`, `&lt;`, `&gt;`;
`<` and `>` are not among them. -/
theorem mem_escaped (text : GoString) (x : Nat) (hx : x ∈ text.flatMap escapeByte) :
    (x ∈ text ∨ x ∈ [38, 97, 109, 112, 59, 108, 116, 103]) ∧ x ≠ 60 ∧ x ≠ 62 := by
  rw [List.mem_flatMap] at hx
  obtain ⟨b, hb, hxb⟩ := hx
  constructor
  · rcases mem_escapeByte b x hxb with h | h
    · left; rw [h]; exact hb
    · right; exact h
  · unfold escapeByte at hxb
    have e1 : go "&amp;" = [38, 97, 109, 112, 59] := by decide
    have e2 : go "&lt;" = [38, 108, 116, 59] := by decide
    have e3 : go "&gt;" = [38, 103, 116, 59] := by decide
    rw [e1, e2, e3] at hxb
    split_ifs at hxb <;> simp at hxb <;> omega

theorem lineHeadsFrom_append (a b : GoString) :
    ∀ prev : Option Nat,
      lineHeadsFrom prev (a ++ b) = lineHeadsFrom prev a ++ lineHeadsFrom (lastOr prev a) b := by
  induction a with
  | nil => intro prev; simp [lineHeadsFrom, lastOr]
  | cons x xs ih =>
    intro prev
    rw [lastOr_cons]
    simp only [List.cons_append, lineHeadsFrom, ih, List.append_assoc, List.append_eq]

/-- The escape of one byte, as a piece of a text: its line heads are those of the byte or `&`,
and a line feed ends it exactly when the byte is a line feed. -/
theorem escapeByte_heads (b : Nat) (p q : Option Nat)
    (hpq : (p = none ∨ p = some 10) ↔ (q = none ∨ q = some 10)) :
    (∀ x ∈ lineHeadsFrom q (escapeByte b), x = 38 ∨ x ∈ lineHeadsFrom p [b]) ∧
      ((some b = none ∨ some b = some 10) ↔
        (lastOr q (escapeByte b) = none ∨ lastOr q (escapeByte b) = some 10)) := by
  have e1 : go "&amp;" = [38, 97, 109, 112, 59] := by decide
  have e2 : go "&lt;" = [38, 108, 116, 59] := by decide
  have e3 : go "&gt;" = [38, 103, 116, 59] := by decide
  unfold escapeByte
  rw [e1, e2, e3]
  by_cases hq : q = none ∨ q = some 10
  · have hp := hpq.2 hq
    split_ifs with h1 h2 h3
    · subst h1; simp [lineHeadsFrom, lastOr, hq]
    · subst h2; simp [lineHeadsFrom, lastOr, hq]
    · subst h3; simp [lineHeadsFrom, lastOr, hq]
    · simp [lineHeadsFrom, lastOr, hq, hp]
  · have hp : ¬ (p = none ∨ p = some 10) := fun h => hq (hpq.1 h)
    split_ifs with h1 h2 h3
    · subst h1; simp [lineHeadsFrom, lastOr, hq]
    · subst h2; simp [lineHeadsFrom, lastOr, hq]
    · subst h3; simp [lineHeadsFrom, lastOr, hq]
    · simp [lineHeadsFrom, lastOr, hq, hp]

/-- The lines of an escaped text start with `&` or as the lines of the text do. -/
theorem lineHeadsFrom_escaped (text : GoString) :
    ∀ p q : Option Nat, ((p = none ∨ p = some 10) ↔ (q = none ∨ q = some 10)) →
      ∀ x ∈ lineHeadsFrom q (text.flatMap escapeByte), x = 38 ∨ x ∈ lineHeadsFrom p text := by
  induction text with
  | nil => intro p q _ x hx; simp [lineHeadsFrom] at hx
  | cons b t ih =>
    intro p q hpq x hx
    obtain ⟨h1, h2⟩ := escapeByte_heads b p q hpq
    rw [List.flatMap_cons, lineHeadsFrom_append, List.mem_append] at hx
    have hcons : lineHeadsFrom p (b :: t) = lineHeadsFrom p [b] ++ lineHeadsFrom (some b) t := by
      simp [lineHeadsFrom]
    rw [hcons, List.mem_append]
    rcases hx with hx | hx
    · rcases h1 x hx with h | h
      · exact Or.inl h
      · exact Or.inr (Or.inl h)
    · rcases ih (some b) (lastOr q (escapeByte b)) h2 x hx with h | h
      · exact Or.inl h
      · exact Or.inr (Or.inr h)

theorem mem_of_mem_lineHeadsFrom (text : GoString) :
    ∀ (prev : Option Nat) (x : Nat), x ∈ lineHeadsFrom prev text → x ∈ text := by
  induction text with
  | nil => intro prev x hx; simp [lineHeadsFrom] at hx
  | cons b t ih =>
    intro prev x hx
    simp only [lineHeadsFrom, List.mem_append] at hx
    rcases hx with hx | hx
    · split_ifs at hx
      · rw [List.mem_singleton] at hx
        rw [hx]; exact List.mem_cons_self _ _
      · simp at hx
    · exact List.mem_cons_of_mem _ (ih (some b) x hx)

/-! ### A text without markup -/

/-- A text without backtick, `*`, `_`, `~` and `[`, of which no line starts with `#`, `>` or
`-`, is rendered as its escape. -/
theorem markdownToTelegramHTML_escape (text : GoString)
    (hchars : ∀ b ∈ text, b ≠ 96 ∧ b ≠ 42 ∧ b ≠ 95 ∧ b ≠ 126 ∧ b ≠ 91)
    (hlines : ∀ b ∈ lineHeads text, b ≠ 35 ∧ b ≠ 62 ∧ b ≠ 45) :
    markdownToTelegramHTML text = escapeHTML text := by
  by_cases hne : text = []
  · subst hne; decide
  · have hmem : ∀ c, (c = 96 ∨ c = 42 ∨ c = 95 ∨ c = 126 ∨ c = 91) → c ∉ text := by
      intro c hc hin
      have := hchars c hin
      omega
    have hesc : ∀ c, (c = 96 ∨ c = 42 ∨ c = 95 ∨ c = 126 ∨ c = 91) → c ∉ escapeHTML text := by
      intro c hc hin
      rw [escapeHTML_bytes] at hin
      rcases (mem_escaped text c hin).1 with h | h
      · exact hmem c hc h
      · simp at h; omega
    have hheads : ∀ b ∈ lineHeads (escapeHTML text), b ≠ 45 ∧ b ≠ 42 := by
      intro b hb
      rw [escapeHTML_bytes] at hb
      rcases lineHeadsFrom_escaped text none none Iff.rfl b hb with h | h
      · omega
      · have h1 := hlines b h
        have h2 := hchars b (mem_of_mem_lineHeadsFrom text none b h)
        omega
    obtain ⟨_, a2, a1⟩ := no_match reCodeBlockCap text (no_match_lit backtick _ text (hmem 96 (by simp)))
    obtain ⟨_, _, b1⟩ := no_match reCapture text (no_match_lit backtick _ text (hmem 96 (by simp)))
    obtain ⟨_, b2, _⟩ := no_match reInlineCode text (no_match_lit backtick _ text (hmem 96 (by simp)))
    obtain ⟨c1, _, _⟩ := no_match reHeading text
      (no_match_bol (isByte 35) 1 (some 6) true _ text (by decide)
        (fun b hb => by simp [isByte, (hlines b hb).1]))
    obtain ⟨d1, _, _⟩ := no_match reBlockquote text
      (no_match_bol (isByte 62) 1 (some 1) true _ text (by decide)
        (fun b hb => by simp [isByte, (hlines b hb).2.1]))
    obtain ⟨e1, _, _⟩ := no_match reLink (escapeHTML text)
      (no_match_lit 91 _ _ (hesc 91 (by simp)))
    obtain ⟨e2, _, _⟩ := no_match reBold (escapeHTML text)
      (no_match_lit 42 _ _ (hesc 42 (by simp)))
    obtain ⟨e3, _, _⟩ := no_match reUnderBold (escapeHTML text)
      (no_match_lit 95 _ _ (hesc 95 (by simp)))
    obtain ⟨_, e4, _⟩ := no_match reItalic (escapeHTML text)
      (no_match_lit 95 _ _ (hesc 95 (by simp)))
    obtain ⟨e5, _, _⟩ := no_match reStrike (escapeHTML text)
      (no_match_lit 126 _ _ (hesc 126 (by simp)))
    obtain ⟨e6, _, _⟩ := no_match reListItem (escapeHTML text)
      (no_match_bol (fun b => decide (b = 45 ∨ b = 42)) 1 (some 1) true _ _ (by decide)
        (fun b hb => by simp [(hheads b hb).1, (hheads b hb).2]))
    unfold markdownToTelegramHTML
    rw [if_neg hne]
    simp only [extractCodeBlocks, extractInlineCodes, a1, a2, b1, b2, c1, d1, e1, e2, e3, e4, e5,
      e6, List.map_nil, restoreCodes]

/-- Claim C26: for every text without backtick, `*`, `_`, `~` and `[`, of which no line starts
with `#`, `>` or `-`, `markdownToTelegramHTML` returns `escapeHTML` of the text, which is the
text with every `&` replaced by `&amp;`, every `<` by `&lt;` and every `>` by `&gt;` and all
other bytes as they are; the result holds no `<` and no `>`. The text may also hold NUL
bytes. -/
theorem markdownToTelegramHTML_plain (text : GoString)
    (hchars : ∀ b ∈ text, b ≠ 96 ∧ b ≠ 42 ∧ b ≠ 95 ∧ b ≠ 126 ∧ b ≠ 91)
    (hlines : ∀ b ∈ lineHeads text, b ≠ 35 ∧ b ≠ 62 ∧ b ≠ 45) :
    markdownToTelegramHTML text = escapeHTML text
      ∧ escapeHTML text = text.flatMap escapeByte
      ∧ 60 ∉ markdownToTelegramHTML text ∧ 62 ∉ markdownToTelegramHTML text := by
  have h := markdownToTelegramHTML_escape text hchars hlines
  refine ⟨h, escapeHTML_bytes text, ?_, ?_⟩
  · rw [h, escapeHTML_bytes]
    intro hin
    exact (mem_escaped text 60 hin).2.1 rfl
  · rw [h, escapeHTML_bytes]
    intro hin
    exact (mem_escaped text 62 hin).2.2 rfl

/-- C26 at a text of two lines with `&`, `<`, `>` and, inside a line, `#` and `-`. -/
theorem markdownToTelegramHTML_plain_witness :
    markdownToTelegramHTML (go "a < b && c > d\nx - y # z")
      = go "a &lt; b &amp;&amp; c &gt; d\nx - y # z" := by
  rw [(markdownToTelegramHTML_plain (go "a < b && c > d\nx - y # z") (by decide) (by decide)).1]
  decide
/-! ### A fenced code block on one line -/

/-- An optional item that does not find its byte takes nothing. -/
theorem repMatch_optional_skip {R : Type} (cls : Nat → Bool)
    (k : Option Nat → GoString → Option R) (prev : Option Nat) (input : GoString)
    (hb : ∀ b, input.head? = some b → cls b = false) :
    repMatch cls true k 0 (some 1) prev input = k prev input := by
  cases input with
  | nil => simp [repMatch]
  | cons b t => simp [repMatch, hb b rfl]

theorem head_dropWhile_isWord (c : GoString) :
    ∀ b, (c.dropWhile isWord).head? = some b → isWord b = false := by
  induction c with
  | nil => intro b hb; simp at hb
  | cons x xs ih =>
    intro b hb
    by_cases hx : isWord x = true
    · rw [List.dropWhile_cons_of_pos hx] at hb
      exact ih b hb
    · rw [List.dropWhile_cons_of_neg hx] at hb
      simp only [List.head?_cons, Option.some.injEq] at hb
      rw [← hb]
      simpa using hx

/-- The pattern of `extractCodeBlocks` on a block written on one line: the word characters that
follow the opening fence are read as the language tag, and the group is what comes after
them. -/
theorem reCodeBlockCap_match_line (lang rest : GoString) (hlang : ∀ b ∈ lang, isWord b = true)
    (hhead : ∀ b, rest.head? = some b → isWord b = false)
    (hrest : ∀ b ∈ rest, b ≠ backtick ∧ b ≠ 10) :
    ∃ st, matchItems reCodeBlockCap { starts := [], caps := [] } none
        (go "```" ++ (lang ++ rest) ++ go "```") = some ([], st)
      ∧ st.caps = [(1, rest)] := by
  have h3 : go "```" = [backtick, backtick, backtick] := by decide
  refine ⟨{ starts := [(1, rest ++ [backtick, backtick, backtick])], caps := [(1, rest)] }, ?_, rfl⟩
  rw [h3]
  have hshape : [backtick, backtick, backtick] ++ (lang ++ rest) ++ [backtick, backtick, backtick]
      = backtick :: backtick :: backtick :: (lang ++ (rest ++ [backtick, backtick, backtick])) := by
    simp
  have hnext : ∀ b, (rest ++ [backtick, backtick, backtick]).head? = some b →
      isWord b = false ∧ b ≠ 10 := by
    intro b hb
    cases rest with
    | nil =>
      simp only [List.nil_append, List.head?_cons, Option.some.injEq] at hb
      rw [← hb]
      decide
    | cons x xs =>
      simp only [List.cons_append, List.head?_cons, Option.some.injEq] at hb
      rw [← hb]
      exact ⟨hhead x rfl, (hrest x (List.mem_cons_self _ _)).2⟩
  rw [hshape]
  unfold reCodeBlockCap
  rw [matchItems_lit, if_pos rfl, matchItems_lit, if_pos rfl, matchItems_lit, if_pos rfl,
    matchItems_rep]
  apply repMatch_greedy_all isWord _ lang _ (some backtick) _ hlang
  · intro b hb
    exact (hnext b hb).1
  · show matchItems _ _ _ _ = _
    rw [matchItems_rep, repMatch_optional_skip _ _ _ _ (fun b hb => by
      simp [isByte, (hnext b hb).2])]
    show matchItems _ _ _ _ = _
    rw [matchItems_open, matchItems_rep]
    apply repMatch_lazy_until anyByte _ rest _ _ _ (fun _ _ => rfl)
    · intro p b t hb
      exact fence_close_fails _ p b t (hrest b hb).1
    · show matchItems _ _ _ _ = _
      rw [matchItems_close, matchItems_lit, if_pos rfl, matchItems_lit, if_pos rfl,
        matchItems_lit, if_pos rfl, matchItems_nil]
      simp [List.lookup]

/-- `extractCodeBlocks` on a block written on one line: the text becomes the placeholder of
index 0 and the only code is the content without the word characters it starts with. -/
theorem extractCodeBlocks_line (c : GoString) (hc : ∀ b ∈ c, b ≠ backtick ∧ b ≠ 10) :
    (extractCodeBlocks (go "```" ++ c ++ go "```")).text = [0, 67, 66, 48, 0]
    ∧ (extractCodeBlocks (go "```" ++ c ++ go "```")).codes = [c.dropWhile isWord] := by
  obtain ⟨st, hm, hcaps⟩ := reCodeBlockCap_match_line (c.takeWhile isWord) (c.dropWhile isWord)
    (fun b hb => (List.mem_takeWhile_imp hb))
    (head_dropWhile_isWord c)
    (fun b hb => hc b ((List.dropWhile_sublist isWord).subset hb))
  rw [List.takeWhile_append_dropWhile] at hm
  have hne : go "```" ++ c ++ go "```" ≠ [] := by
    have h3 : go "```" = [backtick, backtick, backtick] := by decide
    rw [h3]
    simp
  have hscan := scan_whole reCodeBlockCap _ st hne hm
  unfold extractCodeBlocks
  dsimp only
  constructor
  · unfold ReplaceAllStringFunc
    rw [hscan]
    simp only [List.foldl_cons, List.foldl_nil, List.nil_append]
    exact placeholder_zero
  · unfold FindAllStringSubmatch
    rw [hscan, hcaps]
    simp [group, List.lookup]

/-- Claim C25, as the code has it: for every code content without backtick and line feed, a
fenced block written on one line renders as the content without the word characters (letters,
digits, `_`) that it starts with, which the pattern reads as the language tag; so the whole
content is kept when it does not start with a word character. -/
theorem markdownToTelegramHTML_one_line_block (c : GoString)
    (hc : ∀ b ∈ c, b ≠ backtick ∧ b ≠ 10) :
    markdownToTelegramHTML (go "```" ++ c ++ go "```")
        = go "<pre><code>" ++ escapeHTML (c.dropWhile isWord) ++ go "</code></pre>"
      ∧ ((∀ b, c.head? = some b → isWord b = false) →
        markdownToTelegramHTML (go "```" ++ c ++ go "```")
          = go "<pre><code>" ++ escapeHTML c ++ go "</code></pre>") := by
  obtain ⟨h1, h2⟩ := extractCodeBlocks_line c hc
  have hne : go "```" ++ c ++ go "```" ≠ [] := by
    have h3 : go "```" = [backtick, backtick, backtick] := by decide
    rw [h3]
    simp
  have hmain := markdownToTelegramHTML_single_block _ (c.dropWhile isWord) hne h1 h2
  refine ⟨hmain, fun hhead => ?_⟩
  rw [hmain]
  cases c with
  | nil => rfl
  | cons x xs =>
    have hx : ¬ isWord x = true := by rw [hhead x rfl]; decide
    rw [List.dropWhile_cons_of_neg hx]

/-- C25 at the block of the claim and at a block whose content starts with a space. -/
theorem markdownToTelegramHTML_one_line_block_witness :
    markdownToTelegramHTML (go "```" ++ go "ls -la" ++ go "```") = go "<pre><code> -la</code></pre>"
      ∧ markdownToTelegramHTML (go "```" ++ go " ls <dir>" ++ go "```")
        = go "<pre><code> ls &lt;dir&gt;</code></pre>" := by
  constructor
  · rw [(markdownToTelegramHTML_one_line_block (go "ls -la") (by decide)).1]
    decide
  · rw [(markdownToTelegramHTML_one_line_block (go " ls <dir>") (by decide)).2 (by decide)]
    decide

/-- Claim C25 fails at its own example: the content `ls -la` has no backtick, no line feed and
no NUL byte, and the block renders the code ` -la`, not `ls -la`. -/
theorem markdownToTelegramHTML_drops_first_word :
    (∀ b ∈ go "ls -la", b ≠ backtick ∧ b ≠ 10 ∧ b ≠ 0) ∧
      markdownToTelegramHTML (go "```" ++ go "ls -la" ++ go "```")
        ≠ go "<pre><code>" ++ escapeHTML (go "ls -la") ++ go "</code></pre>" := by
  decide
/-- A text without `&`, `<` and `>` is its own escape. -/
theorem flatMap_escapeByte_id (text : GoString) (h : ∀ b ∈ text, b ≠ 38 ∧ b ≠ 60 ∧ b ≠ 62) :
    text.flatMap escapeByte = text := by
  induction text with
  | nil => rfl
  | cons b t ih =>
    have hb := h b (List.mem_cons_self _ _)
    rw [List.flatMap_cons, ih (fun x hx => h x (List.mem_cons_of_mem _ hx))]
    simp [escapeByte, hb.1, hb.2.1, hb.2.2]

/-- The rendering of 4096 spaces followed by the letter `x` is that text. -/
theorem markdownToTelegramHTML_blank_head :
    markdownToTelegramHTML (List.replicate 4096 32 ++ [120]) = List.replicate 4096 32 ++ [120] := by
  have hmem : ∀ b ∈ List.replicate 4096 32 ++ [120], b = 32 ∨ b = 120 := by
    intro b hb
    rw [List.mem_append, List.mem_singleton] at hb
    rcases hb with hb | hb
    · exact Or.inl (List.mem_replicate.1 hb).2
    · exact Or.inr hb
  rw [markdownToTelegramHTML_escape _ (fun b hb => by have := hmem b hb; omega)
    (fun b hb => by
      have := hmem b (mem_of_mem_lineHeadsFrom _ none b hb)
      omega),
    escapeHTML_bytes, flatMap_escapeByte_id _ (fun b hb => by have := hmem b hb; omega)]

/-- Claim C30 fails at the limit that `Send` uses: a text of 4096 spaces and the letter `x` is
longer than the limit and its first chunk is the empty string, and so is the first chunk of a
line feed followed by two letters at the limit 2. With that text as its content, `Send` asks
the platform to deliver an empty text, twice, and where the platform rejects an empty text it
returns that error without sending the chunk `x`. -/
theorem splitMessage_empty_chunk :
    splitMessage (List.replicate 4096 32 ++ [120]) 4096 = some [[], [120]]
      ∧ splitMessage (go "\nab") 2 = some [[], go "ab"]
      ∧ (Send emptyRejected textChannel
          { ChatID := go "7", Content := List.replicate 4096 32 ++ [120], Media := [] }).err
          = some (go "message text is empty")
      ∧ messageCalls (Send emptyRejected textChannel
          { ChatID := go "7", Content := List.replicate 4096 32 ++ [120], Media := [] }).trace
          = [([], true), ([], false)] := by
  have hsplit := splitMessage_blank_head 4096 (by decide)
  obtain ⟨herr, hcalls⟩ := Send_text emptyRejected textChannel
    { ChatID := go "7", Content := List.replicate 4096 32 ++ [120], Media := [] } 7 rfl rfl rfl
    (fun h => by
      have h1 := h.1
      unfold voiceStated at h1
      exact absurd h1.1 (by decide))
  have hstage : textStage emptyRejected 7
      { ChatID := go "7", Content := List.replicate 4096 32 ++ [120], Media := [] }
      = sendChunks emptyRejected 7 0 [[], [120]] := by
    unfold textStage
    dsimp only
    rw [markdownToTelegramHTML_blank_head, hsplit]
    rfl
  rw [hstage] at herr hcalls
  refine ⟨hsplit, by decide, herr.trans (by decide), hcalls.trans (by decide)⟩

/-! ### The posts of `Deliberate` in the group chat -/

/-- The body of `postToGroup` sends the stated post. -/
theorem postToGroup_stated (answer : GoString → Bool → Option GoString) (member : Member)
    (response : GoString) :
    postToGroup answer member response = statedPost answer member response := by
  have h1 : go "<b>" = [60, 98, 62] := by decide
  have h2 : go "</b>\n\n" = [60, 47, 98, 62, 10, 10] := by decide
  have h3 : go "\n\n" = [10, 10] := by decide
  have h4 : go "..." = [46, 46, 46] := by decide
  have hcut : ∀ text : GoString,
      (if text.length > 4096 then text.take 4093 ++ [46, 46, 46] else text) = statedCut text := by
    intro text
    unfold statedCut
    by_cases h : text.length ≤ 4096
    · rw [if_pos h, if_neg (by omega)]
    · rw [if_neg h, if_pos (by omega)]
  unfold postToGroup statedPost
  rw [h1, h2, h3, h4]
  dsimp only
  rw [hcut, hcut]
  cases answer (statedCut ([60, 98, 62] ++ member.Name ++ [60, 47, 98, 62, 10, 10] ++ response))
      true with
  | none => rfl
  | some e => rfl

theorem sendsOf_append (a b : List GroupEvent) : sendsOf (a ++ b) = sendsOf a ++ sendsOf b := by
  simp [sendsOf, List.filterMap_append]

theorem sendsOf_map_send (l : List GroupSend) : sendsOf (l.map GroupEvent.send) = l := by
  induction l with
  | nil => rfl
  | cons s t ih =>
    rw [List.map_cons]
    show s :: sendsOf (t.map GroupEvent.send) = s :: t
    rw [ih]

/-- One member's turn in the group trace: the provider call, then the stated posts. -/
theorem groupTraceFrom_turn (bots : Nat → GoString → Bool → Option GoString) (k : Nat)
    (member : Member) (msgs : List Message) (outcome : Except GoString GoString)
    (rest : List CouncilEvent) :
    groupTraceFrom bots k (eventsOf member msgs outcome ++ rest)
      = GroupEvent.chat member.Model msgs ::
          ((statedPosts (bots k) member outcome).map GroupEvent.send ++
            groupTraceFrom bots (k + 1) rest) := by
  cases outcome with
  | error e =>
    simp only [eventsOf, statedPosts, List.cons_append, List.nil_append, groupTraceFrom,
      List.map_nil, List.append_eq]
  | ok content =>
    simp only [eventsOf, statedPosts, List.cons_append, List.nil_append, groupTraceFrom,
      Nat.add_sub_cancel, postToGroup_stated, List.append_eq]

/-- The group trace of a sequence of turns. -/
theorem groupTraceFrom_turns (bots : Nat → GoString → Bool → Option GoString)
    (msgs : Nat × Member → List Message) (outcome : Nat × Member → Except GoString GoString)
    (ms : List Member) :
    ∀ k : Nat,
      groupTraceFrom bots k
          (((ms.enumFrom k).map (fun p => eventsOf p.2 (msgs p) (outcome p))).flatten)
        = ((ms.enumFrom k).map (fun p =>
            GroupEvent.chat p.2.Model (msgs p) ::
              (statedPosts (bots p.1) p.2 (outcome p)).map GroupEvent.send)).flatten := by
  induction ms with
  | nil => intro k; rfl
  | cons m rest ih =>
    intro k
    simp only [List.enumFrom_cons, List.map_cons, List.flatten_cons]
    rw [groupTraceFrom_turn, ih (k + 1)]
    rfl

theorem sendsOf_turns (bots : Nat → GoString → Bool → Option GoString)
    (msgs : Nat × Member → List Message) (outcome : Nat × Member → Except GoString GoString)
    (l : List (Nat × Member)) :
    sendsOf ((l.map (fun p =>
        GroupEvent.chat p.2.Model (msgs p) ::
          (statedPosts (bots p.1) p.2 (outcome p)).map GroupEvent.send)).flatten)
      = (l.map (fun p => statedPosts (bots p.1) p.2 (outcome p))).flatten := by
  induction l with
  | nil => rfl
  | cons p t ih =>
    simp only [List.map_cons, List.flatten_cons]
    rw [sendsOf_append, ih]
    show sendsOf ((statedPosts (bots p.1) p.2 (outcome p)).map GroupEvent.send) ++ _ = _
    rw [sendsOf_map_send]

/-- The group trace of a run that completes the turns of the first `k` members. -/
theorem Deliberate_group_trace (c : CouncilWorld) (bots : Nat → GoString → Bool → Option GoString)
    (members : List Member) (question : GoString)
    (k : Nat) (hk : k ≤ members.length) (hbefore : ∀ j, j < k → c.deadline j = none)
    (hstop : k < members.length → c.deadline k ≠ none) :
    groupTrace bots (Deliberate c members question).trace
      = ((members.take k).enum.map (fun p =>
          GroupEvent.chat p.2.Model
              (memberMessages p.2 question ((Deliberate c members question).responses.take p.1)) ::
            (statedPosts (bots p.1) p.2
              (outcomeOf c question (Deliberate c members question).responses p)).map
                GroupEvent.send)).flatten := by
  have h := (Deliberate_turns c members question k hk hbefore hstop).1
  unfold groupTrace
  rw [h]
  exact groupTraceFrom_turns bots
    (fun p => memberMessages p.2 question ((Deliberate c members question).responses.take p.1))
    (fun p => outcomeOf c question (Deliberate c members question).responses p)
    (members.take k) 0

/-- The posts of a run that completes the turns of the first `k` members. -/
theorem Deliberate_group_sends (c : CouncilWorld) (bots : Nat → GoString → Bool → Option GoString)
    (members : List Member) (question : GoString)
    (k : Nat) (hk : k ≤ members.length) (hbefore : ∀ j, j < k → c.deadline j = none)
    (hstop : k < members.length → c.deadline k ≠ none) :
    sendsOf (groupTrace bots (Deliberate c members question).trace)
      = ((members.take k).enum.map (fun p =>
          statedPosts (bots p.1) p.2
            (outcomeOf c question (Deliberate c members question).responses p))).flatten := by
  rw [Deliberate_group_trace c bots members question k hk hbefore hstop]
  exact sendsOf_turns bots _ _ _

/-- Claim C16, as the code has it: in a run that completes the turns of the first `k` members
(all of them, or those before the deadline was found expired), what happens is, member by
member in configuration order, the provider call followed, exactly when it succeeded, by the
post of that member: the message `<b>Name</b>`, an empty line and the trimmed response, cut to
its first 4093 bytes and three dots when it is longer than 4096 bytes, sent with the HTML parse
mode, and, only if that message is rejected, the message of the name, an empty line and the
trimmed response, cut in the same way, sent without a parse mode. So the posts are those of the
members whose call succeeded, in order, each made before the next member's call; a member
whose call failed is not posted; and a post carries the whole trimmed response when the
message has at most 4096 bytes. -/
theorem Deliberate_group_posts (c : CouncilWorld)
    (bots : Nat → GoString → Bool → Option GoString) (members : List Member)
    (question : GoString) (k : Nat) (hk : k ≤ members.length)
    (hbefore : ∀ j, j < k → c.deadline j = none)
    (hstop : k < members.length → c.deadline k ≠ none) :
    groupTrace bots (Deliberate c members question).trace
      = ((members.take k).enum.map (fun p =>
          GroupEvent.chat p.2.Model
              (memberMessages p.2 question ((Deliberate c members question).responses.take p.1)) ::
            (statedPosts (bots p.1) p.2
              (outcomeOf c question (Deliberate c members question).responses p)).map
                GroupEvent.send)).flatten
    ∧ sendsOf (groupTrace bots (Deliberate c members question).trace)
      = ((members.take k).enum.map (fun p =>
          statedPosts (bots p.1) p.2
            (outcomeOf c question (Deliberate c members question).responses p))).flatten
    ∧ ∀ (answer : GoString → Bool → Option GoString) (member : Member) (response : GoString),
        ([60, 98, 62] ++ member.Name ++ [60, 47, 98, 62, 10, 10] ++ response).length ≤ 4096 →
        (statedPost answer member response).head?
          = some { member := member,
                   text := go "<b>" ++ member.Name ++ go "</b>\n\n" ++ response,
                   html := true } := by
  have h := Deliberate_group_trace c bots members question k hk hbefore hstop
  refine ⟨h, Deliberate_group_sends c bots members question k hk hbefore hstop, ?_⟩
  · intro answer member response hlen
    have h1 : go "<b>" = [60, 98, 62] := by decide
    have h2 : go "</b>\n\n" = [60, 47, 98, 62, 10, 10] := by decide
    unfold statedPost statedCut
    rw [if_pos hlen, h1, h2]
    rfl

/-- C16 at three members of which the second fails, the HTML message of the first being
rejected: the first member is posted twice, the second not at all, the third once. -/
theorem Deliberate_group_posts_witness :
    sendsOf (groupTrace firstBotRejects (Deliberate secondFails threeMembers (go "q")).trace)
      = [{ member := threeMembers[0], text := go "<b>Ana</b>\n\nde acuerdo", html := true },
         { member := threeMembers[0], text := go "Ana\n\nde acuerdo", html := false },
         { member := threeMembers[2], text := go "<b>Caro</b>\n\nde acuerdo", html := true }] := by
  rw [(Deliberate_group_posts secondFails firstBotRejects threeMembers (go "q") 3 (by decide)
    (fun _ _ => rfl) (fun h => absurd h (by decide))).2.1]
  decide

/-- Claim C16 fails for a long response: the provider answers the only member with 5000 letters
`a`, which is the entry of the transcript; the one message posted to the group chat is the
first 4093 bytes of the name in bold, an empty line and the response, followed by three dots,
4096 bytes in all, so it does not hold the response of 5000 bytes. -/
theorem Deliberate_long_post_cut :
    (Deliberate longAnswer (threeMembers.take 1) (go "q")).responses
        = [{ Name := go "Ana", Response := List.replicate 5000 97 }]
      ∧ sendsOf (groupTrace (fun _ _ _ => none)
          (Deliberate longAnswer (threeMembers.take 1) (go "q")).trace)
        = [{ member := { Name := go "Ana", Personality := go "Sos prudente.", Model := go "m1" },
             text := (go "<b>Ana</b>\n\n" ++ List.replicate 5000 97).take 4093 ++ go "...",
             html := true }]
      ∧ ((go "<b>Ana</b>\n\n" ++ List.replicate 5000 97).take 4093 ++ go "...").length = 4096
      ∧ ¬ (List.replicate 5000 97 <:+:
            (go "<b>Ana</b>\n\n" ++ List.replicate 5000 97).take 4093 ++ go "...") := by
  have hms : threeMembers.take 1
      = [{ Name := go "Ana", Personality := go "Sos prudente.", Model := go "m1" }] := rfl
  have hrun := Deliberate_run longAnswer (go "q") (threeMembers.take 1) (fun _ _ => rfl)
  have hsends := Deliberate_group_sends longAnswer (fun _ _ _ => none) (threeMembers.take 1)
    (go "q") 1 (by decide) (fun _ _ => rfl) (fun h => absurd h (by decide))
  have hlen : ((go "<b>Ana</b>\n\n" ++ List.replicate 5000 97).take 4093 ++ go "...").length
      = 4096 := by
    rw [List.length_append, List.length_take, List.length_append, List.length_replicate]
    decide
  have hhead : go "<b>Ana</b>\n\n" = [60, 98, 62] ++ go "Ana" ++ [60, 47, 98, 62, 10, 10] := by
    decide
  have hdots : go "..." = [46, 46, 46] := by decide
  refine ⟨?_, ?_, hlen, ?_⟩
  · rw [hrun.2.1, hms]
    show [entryOf _ (Except.ok (List.replicate 5000 97))] = _
    unfold entryOf
    dsimp only
    rw [TrimSpace_letters]
  · rw [hsends, hms]
    show statedPosts _ _ (Except.ok (List.replicate 5000 97)) ++ [] = _
    unfold statedPosts
    dsimp only
    rw [TrimSpace_letters, List.append_nil]
    unfold statedPost statedCut
    dsimp only
    have hlong : ¬ ([60, 98, 62] ++ go "Ana" ++ [60, 47, 98, 62, 10, 10]
        ++ List.replicate 5000 97).length ≤ 4096 := by
      rw [List.length_append, List.length_replicate]
      decide
    rw [if_neg hlong, hhead, hdots]
    rfl
  · intro hin
    have := hin.length_le
    rw [hlen, List.length_replicate] at this
    exact absurd this (by decide)

end Picoclaw
